import Mathlib

/-!
# ParaForge core: shallow embedding and verification

A shallow embedding of the ParaForge level codec and editor state
(`src/parabox/format.ts`, `src/parabox/types.ts`, `src/editor/editorState.ts`)
together with proofs about the claims on parsing, serialization, tree
addressing, mutation helpers, hit-testing and the undo/redo history.

Modelling conventions:
* JavaScript strings are modelled as `List Char` (`Str`).
* JavaScript `number` is modelled exactly: integer-valued fields as `Int`,
  fractional fields as `Rat`.  Every finite IEEE double is a decimal
  rational, so decimal rationals are the honest value space; rounding of
  decimal literals to binary doubles is not modelled (values are kept
  exact), and `Number` overflow to `Infinity` is modelled by the cutoff
  `|q| >= 2^1024`.
* TypeScript `0 | 1` flag fields are modelled as `Bool` and serialized as
  the tokens "1" / "0".
* `structuredClone` on pure data is the identity in a value semantics, so
  clones are modelled as the value itself.
* Thrown `ParseError`s are modelled with `Except ParseError`.
-/

set_option maxRecDepth 100000

namespace ParaForge

/-- Decidable equality of `Except` results (component-wise). -/
instance {ε α : Type} [DecidableEq ε] [DecidableEq α] : DecidableEq (Except ε α) :=
  fun a b =>
    match a, b with
    | .ok x, .ok y =>
      match decEq x y with
      | isTrue h => isTrue (by rw [h])
      | isFalse h => isFalse (by intro hc; cases hc; exact h rfl)
    | .error x, .error y =>
      match decEq x y with
      | isTrue h => isTrue (by rw [h])
      | isFalse h => isFalse (by intro hc; cases hc; exact h rfl)
    | .ok _, .error _ => isFalse (by intro hc; cases hc)
    | .error _, .ok _ => isFalse (by intro hc; cases hc)

abbrev Str := List Char

/-- JavaScript whitespace (the `\s` class and `trim`), restricted to the
code points that can actually occur here (ASCII whitespace, NBSP, BOM). -/
def jsWs (c : Char) : Bool :=
  c = ' ' || c = '\t' || c = '\n' || c = '\r' ||
  c = '\x0b' || c = '\x0c' || c = '\u00A0' || c = '\uFEFF'

/-- Strip a trailing run of characters satisfying `p`. -/
def stripTrailing (p : Char → Bool) (s : Str) : Str :=
  (s.reverse.dropWhile p).reverse

/-- `String.prototype.trim`. -/
def jsTrim (s : Str) : Str :=
  stripTrailing jsWs (s.dropWhile jsWs)

/-- `String.prototype.trimEnd`. -/
def jsTrimEnd (s : Str) : Str :=
  stripTrailing jsWs s

/-- The per-line preprocessing `l.replace(/[ \t]+$/g, '')` of `parseLevel`:
strip trailing spaces and tabs (only those two characters). -/
def stripTrailingSpTab (s : Str) : Str :=
  stripTrailing (fun c => c = ' ' || c = '\t') s

/-- Accumulator-based whitespace tokenizer; `cur` holds the current token
reversed.  Splitting a trimmed line on `/\s+/` (and the
`split(/\s+/g).filter(Boolean)` used for floor payloads) both yield exactly
the maximal whitespace-free runs, which is what this computes. -/
def tokenizeAux (cur : Str) (s : Str) : List Str :=
  match s with
  | [] => if cur.isEmpty then [] else [cur.reverse]
  | c :: t =>
    if jsWs c then
      if cur.isEmpty then tokenizeAux [] t else cur.reverse :: tokenizeAux [] t
    else tokenizeAux (c :: cur) t

/-- All maximal whitespace-free runs of `s`, in order. -/
def tokenize (s : Str) : List Str := tokenizeAux [] s

/-- Join tokens with single spaces: `tokens.join(' ')`. -/
def joinSp : List Str → Str
  | [] => []
  | [t] => t
  | t :: rest => t ++ ' ' :: joinSp rest

/-- Split on newline characters; JavaScript `text.split('\n')`. -/
def splitNl (s : Str) : List Str :=
  match s with
  | [] => [[]]
  | c :: t =>
    match splitNl t with
    | [] => [[c]]   -- unreachable: splitNl never returns []
    | h :: r => if c = '\n' then [] :: h :: r else (c :: h) :: r

/-- Join lines with newlines; JavaScript `lines.join('\n')`. -/
def joinNl : List Str → Str
  | [] => []
  | [l] => l
  | l :: rest => l ++ '\n' :: joinNl rest

/-- First pass of newline normalization: `text.replace(/\r\n/g, '\n')`. -/
def normCrLf (s : Str) : Str :=
  match s with
  | '\r' :: '\n' :: t => '\n' :: normCrLf t
  | c :: t => c :: normCrLf t
  | [] => []

/-- `text.replace(/\r\n/g, '\n').replace(/\r/g, '\n')`. -/
def normalizeNl (s : Str) : Str :=
  (normCrLf s).map fun c => if c = '\r' then '\n' else c

/-! ## JavaScript numbers

Numeric values are modelled exactly.  Every finite IEEE double is a decimal
rational, so the decimal rationals are the honest value space; `Number`
overflow to `Infinity` is modelled by the cutoff `2^1024`. -/

/-- Base-10 digits of `n`, least significant first, with explicit fuel so
the definition is structural and kernel-reducible.  Fuel `n` suffices. -/
def natDigitsAux : Nat → Nat → List Nat
  | 0, _ => []
  | f + 1, n => if n = 0 then [] else n % 10 :: natDigitsAux f (n / 10)

/-- Base-10 digits of `n`, least significant first. -/
def natDigitsL (n : Nat) : List Nat := natDigitsAux n n

/-- Decimal digit string of a natural number (as `String(n)` prints it). -/
def natDecStr (n : Nat) : Str :=
  if n = 0 then ['0'] else ((natDigitsL n).map Nat.digitChar).reverse

/-- A decimal digit character (the regex class `[0-9]`). -/
def isDigitC (c : Char) : Bool := 48 ≤ c.toNat && c.toNat ≤ 57

/-- Numeric value of a decimal digit character. -/
def digitVal (c : Char) : Nat := c.toNat - 48

/-- Value of a string of decimal digits (most significant first). -/
def digitsToNat (s : Str) : Nat := s.foldl (fun a c => 10 * a + digitVal c) 0

/-- Multiplicity of `p` in `n`, with explicit fuel (fuel `n` suffices since
each step divides by `p ≥ 2`). -/
def pvalAux : Nat → Nat → Nat → Nat
  | 0, _, _ => 0
  | f + 1, p, n => if 2 ≤ p ∧ p ∣ n ∧ n ≠ 0 then pvalAux f p (n / p) + 1 else 0

/-- Multiplicity of `p` in `n` (`0` when `n = 0` or `p < 2`). -/
def pval (p n : Nat) : Nat := pvalAux n p n

/-- The number of decimal digits needed after the point to write `q`
exactly: the larger of the multiplicities of 2 and 5 in the denominator. -/
def decExp (q : ℚ) : Nat := max (pval 2 q.den) (pval 5 q.den)

/-- Whether `q` has a finite decimal expansion (denominator of the form
`2^a * 5^b`).  Every finite IEEE double satisfies this. -/
def isDecimalRat (q : ℚ) : Bool := q.den ∣ 10 ^ decExp q

/-- Digit string of `m` with a decimal point before the last `k` digits
(zero-padded): the fixed-notation body of a decimal number. -/
def decStrNat (m k : Nat) : Str :=
  if k = 0 then natDecStr m
  else
    let frac := natDecStr (m % 10 ^ k)
    natDecStr (m / 10 ^ k) ++ '.' :: (List.replicate (k - frac.length) '0' ++ frac)

/-- Fixed decimal notation of `q` (exact; `String(n)` for doubles in the
non-exponential range prints the shortest round-tripping decimal, which for
an exact decimal rational is exactly this expansion). -/
def decStr (q : ℚ) : Str :=
  let k := decExp q
  let m := q.num.natAbs * 10 ^ k / q.den
  (if q.num < 0 then ['-'] else []) ++ decStrNat m k

/-- Exponential notation `d.dddde±EE` of a nonzero decimal rational, as
`String(n)` prints numbers with `|n| ≥ 1e21` or `0 < |n| < 1e-6`. -/
def expForm (q : ℚ) : Str :=
  let k := decExp q
  let m := q.num.natAbs * 10 ^ k / q.den
  let t := pval 10 m
  let ds := natDecStr (m / 10 ^ t)
  let e : Int := (t : Int) - k + ((ds.length - 1 : Nat) : Int)
  (if q.num < 0 then ['-'] else []) ++
    (ds.headD '0' :: (if ds.tail.isEmpty then [] else '.' :: ds.tail)) ++
    'e' :: (if e < 0 then ['-'] else ['+']) ++ natDecStr e.natAbs

/-- `|q| ≥ 1e-6 ∧ |q| < 1e21`: the range in which `String(n)` uses plain
fixed notation. -/
def inPlainRange (q : ℚ) : Bool :=
  q.den ≤ q.num.natAbs * 1000000 && q.num.natAbs < 10 ^ 21 * q.den

/-- `String(n)` for a finite JavaScript number.  Non-decimal rationals do
not correspond to any IEEE double; they are mapped to "0". -/
def jsNumStr (q : ℚ) : Str :=
  if q = 0 then ['0']
  else if isDecimalRat q then
    if inPlainRange q then decStr q else expForm q
  else ['0']

/-- `n.toFixed(6)`: for `|n| ≥ 1e21` this is `String(n)`; otherwise the
value is rounded to 6 decimal places (ties away from zero on the
magnitude, per the ECMAScript "larger n" rule applied after sign split). -/
def toFixed6 (q : ℚ) : Str :=
  if 10 ^ 21 * q.den ≤ q.num.natAbs then jsNumStr q
  else
    (if q.num < 0 then ['-'] else []) ++
      decStrNat ((2 * (q.num.natAbs * 1000000) + q.den) / (2 * q.den)) 6

/-- `.replace(/0+$/g, '').replace(/\.$/g, '')`: strip one trailing run of
zeros, then one trailing dot. -/
def stripZerosDot (s : Str) : Str :=
  let s1 := stripTrailing (fun c => c = '0') s
  if s1.getLast? = some '.' then s1.dropLast else s1

/-- `fmt` of `src/parabox/format.ts`: `String(n)`, except that exponential
output is replaced by stripped `toFixed(6)`.  (The `Number.isFinite` guard
returning "0" has no preimage here since a `Rat` is always finite.) -/
def fmt (q : ℚ) : Str :=
  let s := jsNumStr q
  if s.contains 'e' || s.contains 'E' then stripZerosDot (toFixed6 q) else s

/-- Hexadecimal digit value. -/
def hexVal (c : Char) : Option Nat :=
  if '0' ≤ c ∧ c ≤ '9' then some (c.toNat - 48)
  else if 'a' ≤ c ∧ c ≤ 'f' then some (c.toNat - 87)
  else if 'A' ≤ c ∧ c ≤ 'F' then some (c.toNat - 55)
  else none

/-- Value of a nonempty string of digits in the given base (`none` if empty
or any character is not a digit below the base). -/
def radixDigitsVal (base : Nat) (ds : Str) : Option Nat :=
  if ds.isEmpty then none
  else ds.foldl
    (fun acc c => acc.bind fun a => ((hexVal c).filter (· < base)).map fun v => base * a + v)
    (some 0)

/-- A `0x` / `0o` / `0b` radix-prefixed numeric literal, if `t` has that
shape (such literals take no sign in `Number(string)`). -/
def parseRadix (t : Str) : Option ℚ :=
  match t with
  | '0' :: x :: ds =>
    if x = 'x' ∨ x = 'X' then (radixDigitsVal 16 ds).map fun n => mkRat n 1
    else if x = 'o' ∨ x = 'O' then (radixDigitsVal 8 ds).map fun n => mkRat n 1
    else if x = 'b' ∨ x = 'B' then (radixDigitsVal 2 ds).map fun n => mkRat n 1
    else none
  | _ => none

/-- An unsigned decimal literal `digits [. digits] [e[±]digits]` consuming
the whole string; at least one digit must be present around the point. -/
def parseUDec (s : Str) : Option ℚ :=
  let ip := s.takeWhile isDigitC
  let r1 := s.dropWhile isDigitC
  let fp : Str := match r1 with
    | '.' :: t => t.takeWhile isDigitC
    | _ => []
  let r2 : Str := match r1 with
    | '.' :: t => t.dropWhile isDigitC
    | _ => r1
  if ip.isEmpty ∧ fp.isEmpty then none
  else
    -- the literal's exact value, built with integer arithmetic and a single
    -- `mkRat` so that the definition is kernel-reducible (the `Rat` field
    -- operations are irreducible): digits.fracdigits × 10^exp
    let mnum : Nat := digitsToNat ip * 10 ^ fp.length + digitsToNat fp
    match r2 with
    | [] => some (mkRat mnum (10 ^ fp.length))
    | c :: t =>
      if c = 'e' ∨ c = 'E' then
        let eneg : Bool := match t with
          | '-' :: _ => true
          | _ => false
        let t2 : Str := match t with
          | '+' :: u => u
          | '-' :: u => u
          | u => u
        let ed := t2.takeWhile isDigitC
        if ed.isEmpty ∨ ¬(t2.dropWhile isDigitC).isEmpty then none
        else if eneg then some (mkRat mnum (10 ^ fp.length * 10 ^ digitsToNat ed))
        else some (mkRat (mnum * 10 ^ digitsToNat ed) (10 ^ fp.length))
      else none

/-- Overflow guard: doubles overflow to `Infinity` at `2^1024`. -/
def finGuard (v : ℚ) : Option ℚ :=
  if v.num.natAbs < 2 ^ 1024 * v.den then some v else none

/-- `Number(s)` restricted to finite results: `none` means `NaN` or
`±Infinity` (every call site in the source only tests `Number.isFinite`,
so the two non-finite cases need not be distinguished). -/
def jsNumFinite (s : Str) : Option ℚ :=
  let t := jsTrim s
  if t.isEmpty then some 0
  else
    match parseRadix t with
    | some v => finGuard v
    | none =>
      let neg : Bool := t.head? = some '-'
      let u := if t.head? = some '-' ∨ t.head? = some '+' then t.tail else t
      if u = "Infinity".toList then none
      else (parseUDec u).bind fun m =>
        finGuard (if neg then mkRat (-m.num) m.den else m)

/-- `Math.trunc`: round toward zero, i.e. `num.tdiv den`. -/
def jsTrunc (q : ℚ) : Int := q.num.tdiv q.den

/-- `toInt` of `format.ts`: `Math.trunc(Number(token))` with a fallback for
a missing token or a non-finite value. -/
def toInt (t : Option Str) (fallback : Int) : Int :=
  match t with
  | none => fallback
  | some s =>
    match jsNumFinite s with
    | none => fallback
    | some q => jsTrunc q

/-- `toFloat` of `format.ts`. -/
def toFloat (t : Option Str) (fallback : ℚ) : ℚ :=
  match t with
  | none => fallback
  | some s =>
    match jsNumFinite s with
    | none => fallback
    | some q => q

/-- `toBool01` of `format.ts`: true exactly when `toInt` yields `1`. -/
def toBool01 (t : Option Str) (fallback : Int) : Bool :=
  toInt t fallback = 1

/-! ## Data model (`src/parabox/types.ts`)

TypeScript `0 | 1` flag fields are `Bool`, serialized as "1"/"0". -/

/-- The non-children fields of a `Block`. -/
structure BlockCore where
  x : Int
  y : Int
  id : Int
  width : Int
  height : Int
  hue : ℚ
  sat : ℚ
  val : ℚ
  zoomfactor : ℚ
  fillwithwalls : Bool
  player : Bool
  possessable : Bool
  playerorder : Int
  fliph : Bool
  floatinspace : Bool
  specialeffect : Int
  deriving DecidableEq, Repr

/-- `Ref` fields. -/
structure RefData where
  x : Int
  y : Int
  id : Int
  exitblock : Bool
  infexit : Bool
  infexitnum : Int
  infenter : Bool
  infenternum : Int
  infenterid : Int
  player : Bool
  possessable : Bool
  playerorder : Int
  fliph : Bool
  floatinspace : Bool
  specialeffect : Int
  deriving DecidableEq, Repr

/-- `Wall` fields. -/
structure WallData where
  x : Int
  y : Int
  player : Bool
  possessable : Bool
  playerorder : Int
  deriving DecidableEq, Repr

/-- The tagged `FloorType` variant. -/
inductive FloorType where
  | Button
  | PlayerButton
  | Portal (sceneName : Str)
  | Info (text : Str)
  | Break
  | FastTravel
  | Gallery
  | DemoEnd
  | Unknown (raw : Str)
  deriving DecidableEq, Repr

/-- `Floor` fields. -/
structure FloorData where
  x : Int
  y : Int
  type : FloorType
  deriving DecidableEq, Repr

mutual
/-- The `Obj` union.  `ObjList` is an inlined list of children (Lean 4.14
does not support `List Obj` nested in the constructor for deriving and
structural recursion; `ObjList` is isomorphic to `List Obj` via
`ObjList.toList` below). -/
inductive Obj where
  | block (core : BlockCore) (children : ObjList)
  | ref (r : RefData)
  | wall (w : WallData)
  | floor (f : FloorData)
  deriving DecidableEq

/-- Children sequence of a `Block`. -/
inductive ObjList where
  | nil
  | cons (head : Obj) (tail : ObjList)
  deriving DecidableEq
end

/-- Convert the inlined children list to a `List`. -/
def ObjList.toList : ObjList → List Obj
  | .nil => []
  | .cons o t => o :: t.toList

/-- Convert a `List` of objects to the inlined children list. -/
def ObjList.ofList : List Obj → ObjList
  | [] => .nil
  | o :: t => .cons o (ObjList.ofList t)

/-- The `Block` record as used by the editor and the parser stack: the core
fields plus children as a `List`. -/
structure Block where
  core : BlockCore
  children : List Obj
  deriving DecidableEq

/-- A `Block` is an `Obj`. -/
def Block.toObj (b : Block) : Obj := .block b.core (.ofList b.children)

/-- The `kind` discriminant string of an object. -/
def Obj.kindName : Obj → String
  | .block _ _ => "Block"
  | .ref _ => "Ref"
  | .wall _ => "Wall"
  | .floor _ => "Floor"

/-- The cell coordinates of a leaf object (`none` for a `Block`). -/
def Obj.cellXY : Obj → Option (Int × Int)
  | .block _ _ => none
  | .ref r => some (r.x, r.y)
  | .wall w => some (w.x, w.y)
  | .floor f => some (f.x, f.y)

/-- The `draw_style` enumeration. -/
inductive DrawStyle where
  | tui
  | grid
  | oldstyle
  deriving DecidableEq, Repr

/-- The token of a `draw_style` value. -/
def DrawStyle.token : DrawStyle → Str
  | .tui => "tui".toList
  | .grid => "grid".toList
  | .oldstyle => "oldstyle".toList

/-- `LevelHeader`: optional fields are `Option`/`Bool` (TS `undefined` and
a missing optional boolean behave identically to `false` everywhere). -/
structure LevelHeader where
  version : Int
  attempt_order : Option Str
  shed : Bool
  inner_push : Bool
  draw_style : Option DrawStyle
  custom_level_music : Option Int
  custom_level_palette : Option Int
  unknown : List Str
  deriving DecidableEq

/-- A `Level`: header plus root blocks. -/
structure Level where
  header : LevelHeader
  roots : List Block
  deriving DecidableEq

/-- `createEmptyLevel` of `types.ts`. -/
def createEmptyLevel : Level :=
  { header := { version := 4, attempt_order := none, shed := false,
                inner_push := false, draw_style := none,
                custom_level_music := none, custom_level_palette := none,
                unknown := [] },
    roots := [{ core := { x := -1, y := -1, id := 0, width := 9, height := 9,
                          hue := mkRat 3 5, sat := mkRat 4 5, val := 1, zoomfactor := 1,
                          fillwithwalls := false, player := false,
                          possessable := false, playerorder := 0,
                          fliph := false, floatinspace := false,
                          specialeffect := 0 },
                children := [] }] }

/-! ## Parser (`src/parabox/format.ts`) -/

/-- A thrown `ParseError` (message and 1-based line number). -/
structure ParseError where
  msg : String
  line : Nat
  deriving DecidableEq, Repr

/-- `parseFloorType`: dispatch the re-joined payload on its first token. -/
def parseFloorType (raw : Str) : FloorType :=
  let tokens := tokenize raw
  match tokens.head? with
  | none => .Unknown []
  | some h =>
    if h = "Button".toList then .Button
    else if h = "PlayerButton".toList then .PlayerButton
    else if h = "Break".toList then .Break
    else if h = "FastTravel".toList then .FastTravel
    else if h = "Gallery".toList then .Gallery
    else if h = "DemoEnd".toList then .DemoEnd
    else if h = "Portal".toList then .Portal (joinSp tokens.tail)
    else if h = "Info".toList then
      .Info ((joinSp tokens.tail).map fun c => if c = '_' then ' ' else c)
    else .Unknown raw

/-- `parseObject`: decode one body line's object from its kind keyword and
positional argument tokens (defaults 0.6 = 3/5 and 0.8 = 4/5). -/
def parseObject (kind : Str) (args : List Str) (line : Nat) : Except ParseError Obj :=
  if kind = "Block".toList then
    .ok (.block
      { x := toInt args[0]? 0, y := toInt args[1]? 0, id := toInt args[2]? 0,
        width := toInt args[3]? 1, height := toInt args[4]? 1,
        hue := toFloat args[5]? (mkRat 3 5), sat := toFloat args[6]? (mkRat 4 5),
        val := toFloat args[7]? 1, zoomfactor := toFloat args[8]? 1,
        fillwithwalls := toBool01 args[9]? 0, player := toBool01 args[10]? 0,
        possessable := toBool01 args[11]? 0, playerorder := toInt args[12]? 0,
        fliph := toBool01 args[13]? 0, floatinspace := toBool01 args[14]? 0,
        specialeffect := toInt args[15]? 0 }
      .nil)
  else if kind = "Ref".toList then
    .ok (.ref
      { x := toInt args[0]? 0, y := toInt args[1]? 0, id := toInt args[2]? 0,
        exitblock := toBool01 args[3]? 0, infexit := toBool01 args[4]? 0,
        infexitnum := toInt args[5]? 0, infenter := toBool01 args[6]? 0,
        infenternum := toInt args[7]? 0, infenterid := toInt args[8]? (-1),
        player := toBool01 args[9]? 0, possessable := toBool01 args[10]? 0,
        playerorder := toInt args[11]? 0, fliph := toBool01 args[12]? 0,
        floatinspace := toBool01 args[13]? 0, specialeffect := toInt args[14]? 0 })
  else if kind = "Wall".toList then
    .ok (.wall
      { x := toInt args[0]? 0, y := toInt args[1]? 0,
        player := toBool01 args[2]? 0, possessable := toBool01 args[3]? 0,
        playerorder := toInt args[4]? 0 })
  else if kind = "Floor".toList then
    .ok (.floor
      { x := toInt args[0]? 0, y := toInt args[1]? 0,
        type := parseFloorType (joinSp (args.drop 2)) })
  else .error ⟨"Unknown object kind: " ++ kind.asString, line⟩

/-- The initial header of `parseLevel`: `{ version: 4, unknown: [] }`. -/
def initHeader : LevelHeader :=
  { version := 4, attempt_order := none, shed := false, inner_push := false,
    draw_style := none, custom_level_music := none,
    custom_level_palette := none, unknown := [] }

/-- One non-blank, non-terminator header line (0-based index `i`), exactly
the if/else chain of the header loop. -/
def headerUpdate (line : Str) (h : LevelHeader) (i : Nat) : Except ParseError LevelHeader :=
  let tokens := tokenize (jsTrim line)
  let key := tokens.headD []
  if key = "version".toList then
    match tokens[1]?.bind jsNumFinite with
    | none => .error ⟨"Invalid version", i + 1⟩
    | some v => .ok { h with version := jsTrunc v }
  else if key = "attempt_order".toList then
    .ok { h with attempt_order := some (joinSp tokens.tail) }
  else if key = "shed".toList then .ok { h with shed := true }
  else if key = "inner_push".toList then .ok { h with inner_push := true }
  else if key = "draw_style".toList then
    match tokens[1]? with
    | some s =>
      if s = "tui".toList then .ok { h with draw_style := some .tui }
      else if s = "grid".toList then .ok { h with draw_style := some .grid }
      else if s = "oldstyle".toList then .ok { h with draw_style := some .oldstyle }
      else .ok { h with unknown := h.unknown ++ [line] }
    | none => .ok { h with unknown := h.unknown ++ [line] }
  else if key = "custom_level_music".toList then
    .ok { h with custom_level_music := some (toInt tokens[1]? (-1)) }
  else if key = "custom_level_palette".toList then
    .ok { h with custom_level_palette := some (toInt tokens[1]? (-1)) }
  else .ok { h with unknown := h.unknown ++ [line] }

/-- The header loop: consume lines until the `#` terminator (which is
consumed) or the end of input; returns the header, the 0-based index of
the first body line, and the remaining lines. -/
def parseHeaderLines (i : Nat) (ls : List Str) (h : LevelHeader) :
    Except ParseError (LevelHeader × Nat × List Str) :=
  match ls with
  | [] => .ok (h, i, [])
  | l :: rest =>
    if (jsTrim l).isEmpty then parseHeaderLines (i + 1) rest h
    else if jsTrim l = ['#'] then .ok (h, i + 1, rest)
    else
      match headerUpdate l h i with
      | .error e => .error e
      | .ok h2 => parseHeaderLines (i + 1) rest h2

/-- Body-builder state.  The TS builder mutates the open block at the top
of its stack in place; in this value semantics each open block carries the
children collected so far, and is attached to its parent (or to `roots`)
when the indentation closes it.  The final tree is identical. -/
structure BState where
  roots : List Block
  stack : List Block   -- innermost open block first
  deriving DecidableEq

/-- Close the innermost open block: attach it to its parent, or move it to
the roots if it is itself a root. -/
def closeOne (st : BState) : BState :=
  match st.stack with
  | [] => st
  | [b] => ⟨st.roots ++ [b], []⟩
  | b :: p :: rest => ⟨st.roots, { p with children := p.children ++ [b.toObj] } :: rest⟩

/-- Fueled `while (stack.length > depth) stack.pop()`. -/
def closeToAux : Nat → Nat → BState → BState
  | 0, _, st => st
  | f + 1, d, st => if st.stack.length ≤ d then st else closeToAux f d (closeOne st)

/-- Truncate the open-block stack to length at most `d`. -/
def closeTo (d : Nat) (st : BState) : BState := closeToAux st.stack.length d st

/-- Count of leading tab characters (the `(\t*)` group). -/
def tabDepth (l : Str) : Nat := (l.takeWhile (· = '\t')).length

/-- The trimmed text after the leading tabs (the `(.*)` group, trimmed). -/
def bodyContent (l : Str) : Str := jsTrim (l.dropWhile (· = '\t'))

/-- One iteration of the body loop on line `l` (0-based index `i`): skip a
blank line, else close blocks down to the line's tab depth, check the
depth, decode the object, and push or attach it. -/
def bodyStep (i : Nat) (l : Str) (st : BState) : Except ParseError BState :=
  if (jsTrim l).isEmpty then .ok st
  else
    let depth := tabDepth l
    let content := bodyContent l
    if content.isEmpty then .ok st
    else
      let tokens := tokenize content
      let st1 := closeTo depth st
      if st1.stack.length < depth then
        .error ⟨"Invalid indentation (no parent block at that depth)", i + 1⟩
      else
        match parseObject (tokens.headD []) tokens.tail (i + 1) with
        | .error e => .error e
        | .ok (.block core cs) => .ok ⟨st1.roots, ⟨core, cs.toList⟩ :: st1.stack⟩
        | .ok obj =>
          match st1.stack with
          | [] => .error ⟨obj.kindName ++ " must be inside a Block", i + 1⟩
          | p :: ps =>
            .ok ⟨st1.roots, { p with children := p.children ++ [obj] } :: ps⟩

/-- The body loop over the lines after the header terminator. -/
def processBody (i : Nat) (ls : List Str) (st : BState) : Except ParseError BState :=
  match ls with
  | [] => .ok st
  | l :: rest =>
    match bodyStep i l st with
    | .error e => .error e
    | .ok st2 => processBody (i + 1) rest st2

/-- `parseLevel` on a character list.

The TS source re-checks `Number.isFinite(header.version)` after the header
loop and would throw "Missing version header" (line 68 of `format.ts`);
that check is unreachable because `version` is initialized to `4` and only
ever assigned `Math.trunc` of a finite number, so a header without a
`version` line keeps the default 4.  The model therefore has no
corresponding branch (see claim C5).

`levelLines` is the line preprocessing of `parseLevel`: normalize
newlines, split, and strip trailing spaces/tabs from each line. -/
def levelLines (text : Str) : List Str :=
  (splitNl (normalizeNl text)).map stripTrailingSpTab

/-- `parseLevel` on a character list (see the note on the unreachable
`Missing version header` check in the doc comment above). -/
def parseLevelL (text : Str) : Except ParseError Level :=
  let lines := levelLines text
  match parseHeaderLines 0 lines initHeader with
  | .error e => .error e
  | .ok (header, i, rest) =>
    match processBody i rest ⟨[], []⟩ with
    | .error e => .error e
    | .ok st =>
      let final := closeTo 0 st
      if final.roots.isEmpty then .error ⟨"No root Block found", lines.length⟩
      else .ok ⟨header, final.roots⟩

/-- `parseLevel` of `format.ts`. -/
def parseLevel (text : String) : Except ParseError Level := parseLevelL text.toList

/-! ## Serializer (`src/parabox/format.ts`) -/

/-- A `0|1` flag token. -/
def boolTok (b : Bool) : Str := if b then ['1'] else ['0']

/-- `${v}` for an integer-valued number field. -/
def intTok (v : Int) : Str := jsNumStr (v : ℚ)

/-- The fixed-field line of a `Block` (unindented). -/
def blockLine (c : BlockCore) : Str :=
  joinSp ["Block".toList, intTok c.x, intTok c.y, intTok c.id, intTok c.width,
    intTok c.height, fmt c.hue, fmt c.sat, fmt c.val, fmt c.zoomfactor,
    boolTok c.fillwithwalls, boolTok c.player, boolTok c.possessable,
    intTok c.playerorder, boolTok c.fliph, boolTok c.floatinspace,
    intTok c.specialeffect]

/-- The fixed-field line of a `Ref` (unindented). -/
def refLine (r : RefData) : Str :=
  joinSp ["Ref".toList, intTok r.x, intTok r.y, intTok r.id,
    boolTok r.exitblock, boolTok r.infexit, intTok r.infexitnum,
    boolTok r.infenter, intTok r.infenternum, intTok r.infenterid,
    boolTok r.player, boolTok r.possessable, intTok r.playerorder,
    boolTok r.fliph, boolTok r.floatinspace, intTok r.specialeffect]

/-- The fixed-field line of a `Wall` (unindented). -/
def wallLine (w : WallData) : Str :=
  joinSp ["Wall".toList, intTok w.x, intTok w.y, boolTok w.player,
    boolTok w.possessable, intTok w.playerorder]

/-- `formatFloorType`. -/
def formatFloorType (t : FloorType) : Str :=
  match t with
  | .Button => "Button".toList
  | .PlayerButton => "PlayerButton".toList
  | .Portal s => jsTrimEnd ("Portal ".toList ++ s)
  | .Info tx => jsTrimEnd ("Info ".toList ++ tx.map fun c => if c = ' ' then '_' else c)
  | .Break => "Break".toList
  | .FastTravel => "FastTravel".toList
  | .Gallery => "Gallery".toList
  | .DemoEnd => "DemoEnd".toList
  | .Unknown raw => raw

/-- The fixed-field line of a `Floor` (unindented). -/
def floorLine (f : FloorData) : Str :=
  joinSp ["Floor".toList, intTok f.x, intTok f.y, formatFloorType f.type]

/-- `'\t'.repeat(depth)`. -/
def indentTabs (d : Nat) : Str := List.replicate d '\t'

mutual
/-- `emitObj`: the object's line at its depth, then its children depth-first. -/
def emitObj (o : Obj) (d : Nat) : List Str :=
  match o with
  | .block core cs => (indentTabs d ++ blockLine core) :: emitList cs (d + 1)
  | .ref r => [indentTabs d ++ refLine r]
  | .wall w => [indentTabs d ++ wallLine w]
  | .floor f => [indentTabs d ++ floorLine f]

/-- `emitObj` over a children sequence, in stored order. -/
def emitList (l : ObjList) (d : Nat) : List Str :=
  match l with
  | .nil => []
  | .cons o t => emitObj o d ++ emitList t d
end

/-- The header lines of `serializeLevel`, in its fixed emission order. -/
def serializeHeaderLines (h : LevelHeader) : List Str :=
  ("version ".toList ++ intTok h.version) ::
  ((match h.attempt_order with
    | some s => if s.isEmpty then [] else ["attempt_order ".toList ++ s]
    | none => []) ++
   (if h.shed then ["shed".toList] else []) ++
   (if h.inner_push then ["inner_push".toList] else []) ++
   (match h.draw_style with
    | some ds => ["draw_style ".toList ++ ds.token]
    | none => []) ++
   (match h.custom_level_music with
    | some v => ["custom_level_music ".toList ++ intTok v]
    | none => []) ++
   (match h.custom_level_palette with
    | some v => ["custom_level_palette ".toList ++ intTok v]
    | none => []) ++
   h.unknown)

/-- All output lines of `serializeLevel`, before joining. -/
def serializeLines (l : Level) : List Str :=
  serializeHeaderLines l.header ++ ['#'] :: (l.roots.flatMap fun r => emitObj r.toObj 0)

/-- `serializeLevel` on character lists: `out.join('\n') + '\n'`. -/
def serializeLevelL (l : Level) : Str := joinNl (serializeLines l) ++ ['\n']

/-- `serializeLevel` of `format.ts`. -/
def serializeLevel (l : Level) : String := String.mk (serializeLevelL l)

/-- The `attempt_order` chunk of `serializeHeaderLines`. -/
def attemptChunk (ao : Option Str) : List Str :=
  match ao with
  | some s => if s.isEmpty then [] else ["attempt_order ".toList ++ s]
  | none => []

/-- A boolean flag chunk of `serializeHeaderLines`. -/
def boolChunk (tok : Str) (b : Bool) : List Str := if b then [tok] else []

/-- The `draw_style` chunk of `serializeHeaderLines`. -/
def drawChunk : Option DrawStyle → List Str
  | some ds => ["draw_style ".toList ++ ds.token]
  | none => []

/-- An optional integer chunk of `serializeHeaderLines`. -/
def intChunk (pre : Str) : Option Int → List Str
  | some v => [pre ++ intTok v]
  | none => []

/-! ## Editor state (`src/editor/editorState.ts`)

`structuredClone` produces an equal value, so `cloneLevel` is the identity
in this value semantics.  Path indices come from the UI as JavaScript
numbers; they are modelled as `Int` (negative indices read `undefined`
from an array and write a non-index property, leaving the items
unchanged). -/

/-- `arr[i]` for an possibly negative index. -/
def jsGet (l : List α) (i : Int) : Option α :=
  if h : 0 ≤ i ∧ i.toNat < l.length then some (l.get ⟨i.toNat, h.2⟩) else none

/-- `arr[i] = x`: in range replaces; at `i = length` appends; past the
length it would create holes (an array with empty slots is not a list of
objects, so that outcome is `none`); a negative index writes a non-index
property and leaves the items unchanged. -/
def jsArrayWrite (l : List α) (i : Int) (x : α) : Option (List α) :=
  if i < 0 then some l
  else if i.toNat < l.length then some (l.set i.toNat x)
  else if i.toNat = l.length then some (l ++ [x])
  else none

/-- The editor `Tool`. -/
inductive Tool where
  | select
  | wall
  | floor (floorKind : Bool)  -- true = Button, false = PlayerButton
  | block
  | ref (targetBlockId : Option Int)
  deriving DecidableEq

/-- The editor `Viewport`. -/
structure Viewport where
  panX : ℚ
  panY : ℚ
  zoom : ℚ
  deriving DecidableEq

/-- The history stacks. -/
structure History where
  past : List Level
  future : List Level
  deriving DecidableEq

/-- `EditorState`. -/
structure EditorState where
  level : Level
  selectedBlockPath : List Int
  tool : Tool
  viewport : Viewport
  lastError : Option String
  history : History
  deriving DecidableEq

/-- `createInitialState`. -/
def createInitialState : EditorState :=
  { level := createEmptyLevel, selectedBlockPath := [0], tool := .select,
    viewport := { panX := 0, panY := 0, zoom := 48 }, lastError := none,
    history := { past := [], future := [] } }

/-- The loop of `getBlockByPath` from index 1 on. -/
def blockPathWalk : Option Block → List Int → Option Block
  | cur, [] => cur
  | none, _ :: _ => none
  | some b, idx :: rest =>
    match jsGet b.children idx with
    | some (.block core cs) => blockPathWalk (some ⟨core, cs.toList⟩) rest
    | _ => none

/-- `getBlockByPath`: resolve a path of child indices to a `Block`. -/
def getBlockByPath (level : Level) (path : List Int) : Option Block :=
  match path with
  | [] => none
  | p0 :: rest => blockPathWalk (jsGet level.roots p0) rest

/-- `pushHistory`: adopt `next`, push the pre-edit level onto `past`,
clear `future`. -/
def pushHistory (state : EditorState) (next : Level) : EditorState :=
  { state with
    level := next,
    history := ⟨state.history.past ++ [state.level], []⟩ }

/-- `undo`. -/
def undo (state : EditorState) : EditorState :=
  match state.history.past.getLast? with
  | none => state
  | some prev =>
    { state with
      level := prev,
      history := ⟨state.history.past.dropLast,
                  state.level :: state.history.future⟩ }

/-- `redo`. -/
def redo (state : EditorState) : EditorState :=
  match state.history.future with
  | [] => state
  | next :: rest =>
    { state with
      level := next,
      history := ⟨state.history.past ++ [state.level], rest⟩ }

/-- The filter callback of `removeAt` and `addRef`: keep blocks, and keep
leaves that are not at cell `(x, y)`. -/
def keepAt (x y : Int) (c : Obj) : Bool :=
  match c.cellXY with
  | none => true
  | some (cx, cy) => !(cx == x && cy == y)

/-- The wall object literal of `upsertWall`. -/
def mkWall (x y : Int) : Obj :=
  .wall { x := x, y := y, player := false, possessable := false, playerorder := 0 }

/-- The ref object literal of `addRef`. -/
def mkRef (x y id : Int) : Obj :=
  .ref { x := x, y := y, id := id, exitblock := false, infexit := false,
         infexitnum := 0, infenter := false, infenternum := 0,
         infenterid := -1, player := false, possessable := false,
         playerorder := 0, fliph := false, floatinspace := false,
         specialeffect := 0 }

/-- `upsertWall`: toggle a wall at the cell. -/
def upsertWall (block : Block) (x y : Int) : Block :=
  match block.children.findIdx? (fun c =>
      match c with
      | .wall w => w.x == x && w.y == y
      | _ => false) with
  | some idx => { block with children := block.children.eraseIdx idx }
  | none => { block with children := block.children ++ [mkWall x y] }

/-- `upsertFloor`: replace the floor at the cell in place, else append. -/
def upsertFloor (block : Block) (x y : Int) (floor : FloorType) : Block :=
  let obj : Obj := .floor { x := x, y := y, type := floor }
  match block.children.findIdx? (fun c =>
      match c with
      | .floor f => f.x == x && f.y == y
      | _ => false) with
  | some idx => { block with children := block.children.set idx obj }
  | none => { block with children := block.children ++ [obj] }

/-- `removeAt`: drop every non-block leaf at the cell. -/
def removeAt (block : Block) (x y : Int) : Block :=
  { block with children := block.children.filter (keepAt x y) }

/-- `addBlock`: append a child block of the given size and id, inheriting
the parent's colors. -/
def addBlock (block : Block) (x y width height id : Int) : Block :=
  { block with children := block.children ++
      [.block { x := x, y := y, id := id, width := width, height := height,
                hue := block.core.hue, sat := block.core.sat,
                val := block.core.val, zoomfactor := 1,
                fillwithwalls := false, player := false, possessable := false,
                playerorder := 0, fliph := false, floatinspace := false,
                specialeffect := 0 } .nil] }

/-- `addRef`: drop any non-block leaf at the cell, then append a ref. -/
def addRef (block : Block) (x y id : Int) : Block :=
  { block with children := block.children.filter (keepAt x y) ++ [mkRef x y id] }

/-- Result of writing through a parent path (see `setBlockAtPath`). -/
inductive SetRes where
  | unchanged        -- the parent walk failed: the clone is returned as is
  | holed            -- the final write would create array holes
  | set (b : Block)  -- the rebuilt subtree
  deriving DecidableEq

/-- Walk the remaining parent path inside `b` and write `nb.toObj` at
`lastIdx` of the reached parent's children. -/
def setWalk (b : Block) (ps : List Int) (lastIdx : Int) (nb : Block) : SetRes :=
  match ps with
  | [] =>
    match jsArrayWrite b.children lastIdx nb.toObj with
    | some cs => .set { b with children := cs }
    | none => .holed
  | idx :: rest =>
    match jsGet b.children idx with
    | some (.block core cs) =>
      match setWalk ⟨core, cs.toList⟩ rest lastIdx nb with
      | .set b2 => .set { b with children := b.children.set idx.toNat b2.toObj }
      | r => r
    | _ => .unchanged

/-- `setBlockAtPath` (the spec's `replaceAt`): deep-copy the level and
write `block` at the addressed slot.  `some` is the resulting level;
`none` means the TS code produced an array with holes (a write past the
end of `roots` or a `children` array), which is not a representable
`Level`. -/
def setBlockAtPath (level : Level) (path : List Int) (block : Block) : Option Level :=
  match path with
  | [] => some level
  | [i] => (jsArrayWrite level.roots i block).map fun rs => { level with roots := rs }
  | i0 :: rest =>
    match jsGet level.roots i0 with
    | none => some level
    | some r =>
      match rest.getLast? with
      | none => some level   -- unreachable: rest is nonempty here
      | some lastIdx =>
        match setWalk r rest.dropLast lastIdx block with
        | .unchanged => some level
        | .holed => none
        | .set r2 => some { level with roots := level.roots.set i0.toNat r2 }

/-- `isWithin`. -/
def isWithin (block : Block) (x y : Int) : Bool :=
  x ≥ 0 && y ≥ 0 && x < block.core.width && y < block.core.height

/-- A `hitTest` result. -/
inductive HitRes where
  | blockChild (index : Nat)
  | cellObj (index : Nat)
  deriving DecidableEq

/-- Index of the last element satisfying `p` (the reverse `for` scan). -/
def findRevIdx (l : List α) (p : α → Bool) : Option Nat :=
  match l with
  | [] => none
  | a :: t =>
    match findRevIdx t p with
    | some i => some (i + 1)
    | none => if p a then some 0 else none

/-- Bounding-box containment test of the block scan of `hitTest`. -/
def blockHitB (x y : Int) : Obj → Bool
  | .block c _ => x ≥ c.x && y ≥ c.y && x < c.x + c.width && y < c.y + c.height
  | _ => false

/-- Exact-cell test of the leaf scan of `hitTest` (blocks are skipped). -/
def leafHitB (x y : Int) : Obj → Bool
  | .block _ _ => false
  | .ref r => r.x == x && r.y == y
  | .wall w => w.x == x && w.y == y
  | .floor f => f.x == x && f.y == y

/-- `hitTest`: blocks first (topmost = later in the list), then leaves. -/
def hitTest (block : Block) (x y : Int) : Option HitRes :=
  match findRevIdx block.children (blockHitB x y) with
  | some i => some (.blockChild i)
  | none =>
    match findRevIdx block.children (leafHitB x y) with
    | some i => some (.cellObj i)
    | none => none

/-! ## Derived definitions used by the claims -/

/-- A sequence of committing edits (`pushEdit` in the spec's API). -/
def applyEdits (s : EditorState) (ls : List Level) : EditorState :=
  ls.foldl pushHistory s

/-- Whether the leaf object `o` sits exactly at cell `(x, y)`. -/
def isLeafAt (x y : Int) (o : Obj) : Bool :=
  match o.cellXY with
  | some (cx, cy) => cx == x && cy == y
  | none => false

/-- Number of leaf objects of `b` at cell `(x, y)`. -/
def countLeavesAt (b : Block) (x y : Int) : Nat :=
  b.children.countP (isLeafAt x y)

/-- The invariant of claim C8: every cell holds at most one leaf object. -/
def LeafInv (b : Block) : Prop := ∀ x y : Int, countLeavesAt b x y ≤ 1

/-- The recognized header keys. -/
def recognizedKeys : List Str :=
  ["version".toList, "attempt_order".toList, "shed".toList,
   "inner_push".toList, "draw_style".toList, "custom_level_music".toList,
   "custom_level_palette".toList]

/-- Fold of `headerUpdate` over consecutive non-blank, non-terminator
header lines (the effect of the header loop on such a chunk). -/
def headerFold (i : Nat) (ls : List Str) (h : LevelHeader) : Except ParseError LevelHeader :=
  match ls with
  | [] => .ok h
  | l :: rest =>
    match headerUpdate l h i with
    | .error e => .error e
    | .ok h2 => headerFold (i + 1) rest h2

/-- Sizes transfer along the `ObjList` / `List Obj` isomorphism. -/
theorem ObjList.sizeOf_toList (l : ObjList) : sizeOf l.toList = sizeOf l := by
  match l with
  | .nil => rfl
  | .cons o t => simp [ObjList.toList, ObjList.sizeOf_toList t]

/-- `toList` is a left inverse of `ofList`. -/
theorem ObjList.toList_ofList (l : List Obj) : (ObjList.ofList l).toList = l := by
  induction l with
  | nil => rfl
  | cons o t ih => simp [ObjList.ofList, ObjList.toList, ih]

/-- The chain of blocks still open after the serializer's lines for a block
have been consumed by the body loop: the block itself if its last child is
not a block, else the spine of that last child atop the block without it
(innermost open block first). -/
def spineB (b : Block) : List Block :=
  match hl : b.children.getLast? with
  | some (.block core cs) => spineB ⟨core, cs.toList⟩ ++ [⟨b.core, b.children.dropLast⟩]
  | some (.ref _) => [b]
  | some (.wall _) => [b]
  | some (.floor _) => [b]
  | none => [b]
termination_by sizeOf b.children
decreasing_by
  obtain ⟨ys, hys⟩ := List.getLast?_eq_some_iff.1 hl
  have hmem : Obj.block core cs ∈ b.children := by
    rw [hys]
    simp
  have h1 : sizeOf (Obj.block core cs) < sizeOf b.children :=
    List.sizeOf_lt_of_mem hmem
  have h2 : sizeOf cs < sizeOf (Obj.block core cs) := by
    simp
  simp only [ObjList.sizeOf_toList]
  omega

/-! ## Well-formedness (claim C1)

The conditions under which serialization is exactly invertible: numeric
fields finite and in the plain-notation printing range, string fields in
the canonical whitespace form the parser itself produces, unknown header
lines that re-parse as unknown, and at least one root. -/

/-- An integer field in the range where `String(n)` prints plain decimal
digits. -/
def wfInt (v : Int) : Bool := v.natAbs < 10 ^ 21

/-- A float field: an exact decimal with `String(n)` in fixed notation. -/
def wfFloat (q : ℚ) : Bool := isDecimalRat q && (q.num = 0 || inPlainRange q)

/-- A string that is exactly the single-space join of its own tokens
(no leading/trailing whitespace, single spaces, no other whitespace). -/
def wfCanonical (s : Str) : Bool := s = joinSp (tokenize s)

/-- The floor payload keywords recognized by `parseFloorType`. -/
def floorKeywords : List Str :=
  ["Button".toList, "PlayerButton".toList, "Break".toList,
   "FastTravel".toList, "Gallery".toList, "DemoEnd".toList,
   "Portal".toList, "Info".toList]

/-- Well-formedness of a floor variant's payload strings. -/
def wfFloorType : FloorType → Bool
  | .Portal s => wfCanonical s
  | .Info t => t.all fun c => (!jsWs c || c = ' ') && c ≠ '_'
  | .Unknown raw =>
    !raw.isEmpty && wfCanonical raw &&
      (match (tokenize raw).head? with
       | none => true
       | some h => decide (h ∉ floorKeywords))
  | _ => true

/-- Well-formedness of an unknown header line: it must survive the
trailing strip and line split, not terminate the header, and re-parse into
the unknown list (its first token is not a consuming recognized key, and a
`draw_style` first token must not carry an accepted value). -/
def wfUnknownLine (l : Str) : Bool :=
  stripTrailingSpTab l = l && !(jsTrim l).isEmpty &&
  decide (jsTrim l ≠ ['#']) &&
  l.all (fun c => c ≠ '\n' && c ≠ '\r') &&
  (let key := (tokenize (jsTrim l)).headD []
   decide (key ≠ "version".toList) && decide (key ≠ "attempt_order".toList) &&
   decide (key ≠ "shed".toList) && decide (key ≠ "inner_push".toList) &&
   decide (key ≠ "custom_level_music".toList) &&
   decide (key ≠ "custom_level_palette".toList) &&
   (!(key = "draw_style".toList) ||
     (match (tokenize (jsTrim l))[1]? with
      | none => true
      | some s => decide (s ≠ "tui".toList) && decide (s ≠ "grid".toList) &&
          decide (s ≠ "oldstyle".toList))))

/-- Well-formedness of a header. -/
def wfHeader (h : LevelHeader) : Bool :=
  wfInt h.version &&
  (match h.attempt_order with
   | none => true
   | some s => !s.isEmpty && wfCanonical s) &&
  (match h.custom_level_music with
   | none => true
   | some v => wfInt v) &&
  (match h.custom_level_palette with
   | none => true
   | some v => wfInt v) &&
  h.unknown.all wfUnknownLine

/-- Well-formedness of the block core fields. -/
def wfCore (c : BlockCore) : Bool :=
  0 < c.width && 0 < c.height &&
  wfInt c.x && wfInt c.y && wfInt c.id && wfInt c.width && wfInt c.height &&
  wfFloat c.hue && wfFloat c.sat && wfFloat c.val && wfFloat c.zoomfactor &&
  wfInt c.playerorder && wfInt c.specialeffect

/-- Well-formedness of ref fields. -/
def wfRefData (r : RefData) : Bool :=
  wfInt r.x && wfInt r.y && wfInt r.id && wfInt r.infexitnum &&
  wfInt r.infenternum && wfInt r.infenterid && wfInt r.playerorder &&
  wfInt r.specialeffect

/-- Well-formedness of wall fields. -/
def wfWallData (w : WallData) : Bool :=
  wfInt w.x && wfInt w.y && wfInt w.playerorder

mutual
/-- Well-formedness of an object tree. -/
def wfObj : Obj → Bool
  | .block core cs => wfCore core && wfObjList cs
  | .ref r => wfRefData r
  | .wall w => wfWallData w
  | .floor f => wfInt f.x && wfInt f.y && wfFloorType f.type

/-- Well-formedness of a children sequence. -/
def wfObjList : ObjList → Bool
  | .nil => true
  | .cons o t => wfObj o && wfObjList t
end

/-- Well-formedness of an editor block value. -/
def wfBlock (b : Block) : Bool := wfObj b.toObj

/-- Well-formedness of a whole level (claim C1's hypothesis). -/
def wfLevel (l : Level) : Bool :=
  wfHeader l.header && !l.roots.isEmpty && l.roots.all wfBlock

/-! ## Concrete fixtures -/

/-- The core parsed from `Block 0 0 0 3 3 0.5 0.5 1 1 0 0 0 0 0 0 0`. -/
def exCore : BlockCore :=
  { x := 0, y := 0, id := 0, width := 3, height := 3, hue := mkRat 1 2,
    sat := mkRat 1 2, val := 1, zoomfactor := 1,
    fillwithwalls := false, player := false,
    possessable := false, playerorder := 0, fliph := false,
    floatinspace := false, specialeffect := 0 }

/-- A level with the single root `exCore`. -/
def exLevelA : Level := ⟨initHeader, [⟨exCore, []⟩]⟩

/-- A second block (id 1, 2×2). -/
def exBlock2 : Block := ⟨{ exCore with id := 1, width := 2, height := 2 }, []⟩

/-- A block containing a child block spanning cells (0,0)–(1,1), a wall at
(1,1) and a wall at (2,2) (the spec's hit-test example shape). -/
def exHitBlock : Block :=
  ⟨exCore, [.block { exCore with id := 1, width := 2, height := 2 } .nil,
            mkWall 1 1, mkWall 2 2]⟩

/-- A block whose only child is a floor button at (0,0). -/
def exFloorBlock : Block :=
  ⟨exCore, [.floor { x := 0, y := 0, type := .Button }]⟩

/-- A level whose single root holds one wall leaf. -/
def exLevelWall : Level := ⟨initHeader, [⟨exCore, [mkWall 1 1]⟩]⟩

/-- `exLevelA` with root hue `1e-7` (a finite numeric field). -/
def exLevelHue7 : Level :=
  ⟨initHeader, [⟨{ exCore with hue := mkRat 1 10000000 }, []⟩]⟩

/-- `exLevelA` with root hue `0`: what `exLevelHue7` round-trips to. -/
def exLevelHue0 : Level :=
  ⟨initHeader, [⟨{ exCore with hue := 0 }, []⟩]⟩


/-! ## String and tokenizer lemmas (toward claim C1) -/

theorem dropWhile_eq_self_of_head (p : Char → Bool) (s : Str)
    (h : ∀ c, s.head? = some c → p c = false) : s.dropWhile p = s := by
  cases s with
  | nil => rfl
  | cons c t =>
    rw [List.dropWhile_cons, h c rfl]
    simp

theorem stripTrailing_eq_self_of_last (p : Char → Bool) (s : Str)
    (h : ∀ c, s.getLast? = some c → p c = false) : stripTrailing p s = s := by
  rw [stripTrailing, dropWhile_eq_self_of_head p s.reverse
    (fun c hc => h c (by rwa [List.head?_reverse] at hc)), List.reverse_reverse]

theorem jsTrim_eq_self (s : Str)
    (hh : ∀ c, s.head? = some c → jsWs c = false)
    (hl : ∀ c, s.getLast? = some c → jsWs c = false) : jsTrim s = s := by
  rw [jsTrim, dropWhile_eq_self_of_head _ _ hh, stripTrailing_eq_self_of_last _ _ hl]

theorem jsTrim_eq_self_of_all (s : Str) (h : ∀ c ∈ s, jsWs c = false) :
    jsTrim s = s := by
  refine jsTrim_eq_self s (fun c hc => h c ?_) (fun c hc => h c ?_)
  · cases s with
    | nil => simp at hc
    | cons a t =>
      injection hc with hc
      simp [hc]
  · obtain ⟨ys, hys⟩ := List.getLast?_eq_some_iff.1 hc
    rw [hys]
    simp

theorem tokenizeAux_spec (s : Str) : ∀ cur : Str, cur ≠ [] →
    tokenizeAux cur s =
      (cur.reverse ++ s.takeWhile (fun c => !jsWs c)) ::
        tokenize (s.dropWhile (fun c => !jsWs c)) := by
  induction s with
  | nil =>
    intro cur hcur
    obtain ⟨d, ds, rfl⟩ := List.exists_cons_of_ne_nil hcur
    simp [tokenizeAux, tokenize]
  | cons c t ih =>
    intro cur hcur
    obtain ⟨d, ds, rfl⟩ := List.exists_cons_of_ne_nil hcur
    by_cases hc : jsWs c
    · simp [tokenizeAux, tokenize, hc]
    · rw [show tokenizeAux (d :: ds) (c :: t) = tokenizeAux (c :: d :: ds) t by
        simp [tokenizeAux, hc]]
      rw [ih (c :: d :: ds) (by simp)]
      simp [hc, List.takeWhile_cons, List.dropWhile_cons]

theorem tokenize_nil : tokenize [] = [] := rfl

theorem tokenize_cons_ws (c : Char) (t : Str) (hc : jsWs c = true) :
    tokenize (c :: t) = tokenize t := by
  simp [tokenize, tokenizeAux, hc]

theorem tokenize_cons_nonws (c : Char) (t : Str) (hc : jsWs c = false) :
    tokenize (c :: t) =
      (c :: t.takeWhile (fun x => !jsWs x)) ::
        tokenize (t.dropWhile (fun x => !jsWs x)) := by
  rw [show tokenize (c :: t) = tokenizeAux [c] t by simp [tokenize, tokenizeAux, hc]]
  rw [tokenizeAux_spec t [c] (by simp)]
  rfl

theorem takeWhile_append_stop (p : Char → Bool) (c0 : Char) (hc0 : p c0 = false)
    (s t : Str) : (s ++ c0 :: t).takeWhile p = s.takeWhile p := by
  induction s with
  | nil => simp [List.takeWhile_cons, hc0]
  | cons c s2 ih =>
    rw [List.cons_append, List.takeWhile_cons, List.takeWhile_cons, ih]

theorem dropWhile_append_stop (p : Char → Bool) (c0 : Char) (hc0 : p c0 = false)
    (s t : Str) : (s ++ c0 :: t).dropWhile p = s.dropWhile p ++ c0 :: t := by
  induction s with
  | nil => simp [List.dropWhile_cons, hc0]
  | cons c s2 ih =>
    rw [List.cons_append, List.dropWhile_cons, List.dropWhile_cons, ih]
    cases p c <;> simp

theorem tokenize_append_ws_aux (c0 : Char) (hc0 : jsWs c0 = true) :
    ∀ (n : Nat) (s : Str), s.length ≤ n → ∀ t : Str,
      tokenize (s ++ c0 :: t) = tokenize s ++ tokenize t := by
  intro n
  induction n with
  | zero =>
    intro s hs t
    have hnil : s = [] := List.eq_nil_of_length_eq_zero (Nat.le_zero.1 hs)
    subst hnil
    simpa using tokenize_cons_ws c0 t hc0
  | succ n ih =>
    intro s hs t
    cases s with
    | nil => simpa using tokenize_cons_ws c0 t hc0
    | cons c s2 =>
      by_cases hc : jsWs c
      · rw [List.cons_append, tokenize_cons_ws c _ hc, tokenize_cons_ws c _ hc]
        exact ih s2 (by simpa using hs) t
      · have hcf : jsWs c = false := by simpa using hc
        rw [List.cons_append, tokenize_cons_nonws c _ hcf,
          tokenize_cons_nonws c s2 hcf,
          takeWhile_append_stop _ c0 (by simp [hc0]) s2 t,
          dropWhile_append_stop _ c0 (by simp [hc0]) s2 t]
        have hlen : (s2.dropWhile fun x => !jsWs x).length ≤ n := by
          have h1 : (s2.dropWhile fun x => !jsWs x).length ≤ s2.length :=
            (List.dropWhile_sublist _).length_le
          simp only [List.length_cons] at hs
          omega
        rw [ih _ hlen t]
        simp

theorem tokenize_append_space (s t : Str) :
    tokenize (s ++ ' ' :: t) = tokenize s ++ tokenize t :=
  tokenize_append_ws_aux ' ' (by decide) s.length s le_rfl t

theorem takeWhile_eq_self_of_all (p : Char → Bool) (s : Str)
    (h : ∀ c ∈ s, p c = true) : s.takeWhile p = s := by
  induction s with
  | nil => rfl
  | cons c t ih =>
    rw [List.takeWhile_cons, h c (by simp)]
    simp [ih fun x hx => h x (by simp [hx])]

theorem dropWhile_eq_nil_of_all (p : Char → Bool) (s : Str)
    (h : ∀ c ∈ s, p c = true) : s.dropWhile p = [] := by
  induction s with
  | nil => rfl
  | cons c t ih =>
    rw [List.dropWhile_cons, h c (by simp)]
    simp [ih fun x hx => h x (by simp [hx])]

theorem tokenize_single (s : Str) (hne : s ≠ [])
    (h : ∀ c ∈ s, jsWs c = false) : tokenize s = [s] := by
  obtain ⟨c, t, rfl⟩ := List.exists_cons_of_ne_nil hne
  rw [tokenize_cons_nonws c t (h c (by simp))]
  rw [takeWhile_eq_self_of_all _ t (fun x hx => by simp [h x (by simp [hx])])]
  rw [dropWhile_eq_nil_of_all _ t (fun x hx => by simp [h x (by simp [hx])])]
  rfl

theorem joinSp_cons (t : Str) (ts : List Str) (hne : ts ≠ []) :
    joinSp (t :: ts) = t ++ ' ' :: joinSp ts := by
  obtain ⟨u, us, rfl⟩ := List.exists_cons_of_ne_nil hne
  rfl

theorem joinSp_ne_nil (t : Str) (ts : List Str) (hne : t ≠ []) :
    joinSp (t :: ts) ≠ [] := by
  cases ts with
  | nil => exact hne
  | cons u us =>
    rw [joinSp_cons t _ (by simp)]
    simp

theorem joinSp_head? (t : Str) (ts : List Str) (hne : t ≠ []) :
    (joinSp (t :: ts)).head? = t.head? := by
  cases ts with
  | nil => rfl
  | cons u us =>
    rw [joinSp_cons t _ (by simp)]
    obtain ⟨c, t2, rfl⟩ := List.exists_cons_of_ne_nil hne
    rfl

theorem tokenize_joinSp (ts : List Str)
    (h : ∀ t ∈ ts, t ≠ [] ∧ ∀ c ∈ t, jsWs c = false) :
    tokenize (joinSp ts) = ts := by
  induction ts with
  | nil => rfl
  | cons t ts2 ih =>
    by_cases hts : ts2 = []
    · subst hts
      exact tokenize_single t (h t (by simp)).1 (h t (by simp)).2
    · rw [joinSp_cons t ts2 hts, tokenize_append_space,
        tokenize_single t (h t (by simp)).1 (h t (by simp)).2,
        ih fun u hu => h u (by simp [hu])]
      rfl

theorem tokenize_props_aux : ∀ (n : Nat) (s : Str), s.length ≤ n →
    ∀ t ∈ tokenize s, t ≠ [] ∧ ∀ c ∈ t, jsWs c = false := by
  intro n
  induction n with
  | zero =>
    intro s hs t ht
    have hnil : s = [] := List.eq_nil_of_length_eq_zero (Nat.le_zero.1 hs)
    subst hnil
    simp [tokenize_nil] at ht
  | succ n ih =>
    intro s hs t ht
    cases s with
    | nil => simp [tokenize_nil] at ht
    | cons c s2 =>
      by_cases hc : jsWs c
      · exact ih s2 (by simpa using hs) t (by rwa [tokenize_cons_ws c s2 hc] at ht)
      · have hcf : jsWs c = false := by simpa using hc
        rw [tokenize_cons_nonws c s2 hcf] at ht
        rcases List.mem_cons.1 ht with rfl | ht2
        · refine ⟨by simp, ?_⟩
          intro x hx
          rcases List.mem_cons.1 hx with rfl | hx2
          · exact hcf
          · simpa using List.mem_takeWhile_imp hx2
        · refine ih (s2.dropWhile fun x => !jsWs x) ?_ t ht2
          have h1 : (s2.dropWhile fun x => !jsWs x).length ≤ s2.length :=
            (List.dropWhile_sublist _).length_le
          simp only [List.length_cons] at hs
          omega

theorem tokenize_props (s : Str) :
    ∀ t ∈ tokenize s, t ≠ [] ∧ ∀ c ∈ t, jsWs c = false :=
  tokenize_props_aux s.length s le_rfl

theorem joinSp_chars (ts : List Str)
    (h : ∀ t ∈ ts, ∀ c ∈ t, jsWs c = false) :
    ∀ c ∈ joinSp ts, jsWs c = false ∨ c = ' ' := by
  induction ts with
  | nil => simp [joinSp]
  | cons t ts2 ih =>
    intro c hc
    cases ts2 with
    | nil => exact Or.inl (h t (by simp) c hc)
    | cons u us =>
      rw [joinSp_cons t _ (by simp)] at hc
      rcases List.mem_append.1 hc with hin | hin
      · exact Or.inl (h t (by simp) c hin)
      · rcases List.mem_cons.1 hin with rfl | hin2
        · exact Or.inr rfl
        · exact ih (fun v hv => h v (by simp [hv])) c hin2

theorem getLast?_append_right {α : Type} (l1 l2 : List α) (h : l2 ≠ []) :
    (l1 ++ l2).getLast? = l2.getLast? := by
  have h2 : l2.reverse ≠ [] := by simpa using h
  obtain ⟨c, t, hct⟩ := List.exists_cons_of_ne_nil h2
  rw [← List.head?_reverse, List.reverse_append, hct, ← List.head?_reverse, hct]
  rfl

theorem joinSp_getLast_nonws (ts : List Str)
    (h : ∀ t ∈ ts, t ≠ [] ∧ ∀ c ∈ t, jsWs c = false) :
    ∀ c, (joinSp ts).getLast? = some c → jsWs c = false := by
  induction ts with
  | nil =>
    intro c hc
    simp [joinSp] at hc
  | cons t ts2 ih =>
    intro c hc
    cases ts2 with
    | nil =>
      obtain ⟨ys, hys⟩ := List.getLast?_eq_some_iff.1 hc
      refine (h t (by simp)).2 c ?_
      show c ∈ t
      rw [show (t : Str) = joinSp [t] from rfl, hys]
      simp
    | cons u us =>
      rw [joinSp_cons t _ (by simp)] at hc
      rw [show (' ' :: joinSp (u :: us) : Str) = [' '] ++ joinSp (u :: us) from rfl]
        at hc
      rw [getLast?_append_right _ _ (by simp)] at hc
      rw [getLast?_append_right _ _ (joinSp_ne_nil u us (h u (by simp)).1)] at hc
      exact ih (fun v hv => h v (by simp [hv])) c hc

theorem splitNl_ne_nil (s : Str) : splitNl s ≠ [] := by
  cases s with
  | nil => simp [splitNl]
  | cons c t =>
    simp only [splitNl]
    cases splitNl t with
    | nil => simp
    | cons a r => by_cases hc : c = '\n' <;> simp [hc]

theorem splitNl_newline_cons (t : Str) : splitNl ('\n' :: t) = [] :: splitNl t := by
  simp only [splitNl]
  cases h : splitNl t with
  | nil => exact absurd h (splitNl_ne_nil t)
  | cons a r => simp

theorem splitNl_cons_ne (c : Char) (t : Str) (hc : c ≠ '\n') :
    splitNl (c :: t) = (c :: (splitNl t).headD []) :: (splitNl t).tail := by
  simp only [splitNl]
  cases h : splitNl t with
  | nil => exact absurd h (splitNl_ne_nil t)
  | cons a r => simp [hc]

theorem splitNl_append_newline (l : Str) (hnl : ∀ c ∈ l, c ≠ '\n') (t : Str) :
    splitNl (l ++ '\n' :: t) = l :: splitNl t := by
  induction l with
  | nil => simpa using splitNl_newline_cons t
  | cons c l2 ih =>
    rw [List.cons_append, splitNl_cons_ne c _ (hnl c (by simp)),
      ih fun x hx => hnl x (by simp [hx])]
    simp

theorem joinNl_cons (l : Str) (ls : List Str) (hne : ls ≠ []) :
    joinNl (l :: ls) = l ++ '\n' :: joinNl ls := by
  obtain ⟨u, us, rfl⟩ := List.exists_cons_of_ne_nil hne
  rfl

theorem splitNl_joinNl (ls : List Str) (h : ∀ l ∈ ls, ∀ c ∈ l, c ≠ '\n')
    (hne : ls ≠ []) : splitNl (joinNl ls ++ ['\n']) = ls ++ [[]] := by
  induction ls with
  | nil => exact absurd rfl hne
  | cons l ls2 ih =>
    cases ls2 with
    | nil =>
      show splitNl (l ++ '\n' :: []) = [l, []]
      rw [splitNl_append_newline l (h l (by simp))]
      rfl
    | cons u us =>
      rw [joinNl_cons l _ (by simp), List.append_assoc, List.cons_append,
        splitNl_append_newline l (h l (by simp)),
        ih (fun v hv => h v (by simp [hv])) (by simp)]
      rfl

theorem normCrLf_eq_self (s : Str) (h : ∀ c ∈ s, c ≠ '\r') : normCrLf s = s := by
  induction s with
  | nil => rfl
  | cons c t ih =>
    rw [normCrLf.eq_def]
    split
    · next t2 heq =>
      injection heq with h1 h2
      exact absurd h1 (h c (by simp))
    · next c2 t2 heq =>
      injection heq with h1 h2
      subst h1
      subst h2
      rw [ih fun x hx => h x (by simp [hx])]
    · next heq => exact absurd heq (by simp)

theorem normalizeNl_eq_self (s : Str) (h : ∀ c ∈ s, c ≠ '\r') :
    normalizeNl s = s := by
  rw [normalizeNl, normCrLf_eq_self s h]
  have : s.map (fun c => if c = '\r' then '\n' else c) = s.map id := by
    refine List.map_congr_left fun a ha => ?_
    simp [h a ha]
  rw [this, List.map_id]

theorem stripTrailingSpTab_eq_self (s : Str)
    (h : ∀ c, s.getLast? = some c → jsWs c = false) :
    stripTrailingSpTab s = s := by
  refine stripTrailing_eq_self_of_last _ s fun c hc => ?_
  have hws := h c hc
  simp only [jsWs, Bool.or_eq_false_iff, decide_eq_false_iff_not] at hws
  simp [hws.1.1.1.1.1.1.1, hws.1.1.1.1.1.1.2]

/-! ## Decimal digits and number printing (toward claim C1) -/

theorem char_ne_of_toNat_ne {c d : Char} (h : c.toNat ≠ d.toNat) : c ≠ d :=
  fun he => h (by rw [he])

theorem isDigitC_toNat {c : Char} (h : isDigitC c = true) :
    48 ≤ c.toNat ∧ c.toNat ≤ 57 := by
  simpa [isDigitC] using h

theorem ne_of_isDigitC {c d : Char} (h : isDigitC c = true)
    (hd : d.toNat < 48 ∨ 57 < d.toNat) : c ≠ d := by
  obtain ⟨h1, h2⟩ := isDigitC_toNat h
  exact char_ne_of_toNat_ne (by omega)

theorem jsWs_of_isDigitC {c : Char} (h : isDigitC c = true) : jsWs c = false := by
  simp only [jsWs, Bool.or_eq_false_iff, decide_eq_false_iff_not]
  exact ⟨⟨⟨⟨⟨⟨⟨ne_of_isDigitC h (by decide), ne_of_isDigitC h (by decide)⟩,
    ne_of_isDigitC h (by decide)⟩, ne_of_isDigitC h (by decide)⟩,
    ne_of_isDigitC h (by decide)⟩, ne_of_isDigitC h (by decide)⟩,
    ne_of_isDigitC h (by decide)⟩, ne_of_isDigitC h (by decide)⟩

theorem isDigitC_digitChar {d : Nat} (h : d < 10) :
    isDigitC (Nat.digitChar d) = true := by
  interval_cases d <;> decide

theorem digitVal_digitChar {d : Nat} (h : d < 10) :
    digitVal (Nat.digitChar d) = d := by
  interval_cases d <;> decide

theorem digitChar_ne_zero {d : Nat} (h : d < 10) (h0 : d ≠ 0) :
    Nat.digitChar d ≠ '0' := by
  interval_cases d <;> first | exact absurd rfl h0 | decide

theorem natDigitsAux_eq : ∀ (f n : Nat), n ≤ f → natDigitsAux f n = Nat.digits 10 n := by
  intro f
  induction f with
  | zero =>
    intro n hn
    have h0 : n = 0 := by omega
    subst h0
    simp [natDigitsAux]
  | succ f ih =>
    intro n hn
    by_cases h0 : n = 0
    · subst h0
      simp [natDigitsAux]
    · simp only [natDigitsAux, if_neg h0]
      rw [Nat.digits_def' (by norm_num : (1:Nat) < 10) (Nat.pos_of_ne_zero h0)]
      have hlt : n / 10 < n := Nat.div_lt_self (Nat.pos_of_ne_zero h0) (by norm_num)
      rw [ih (n / 10) (by omega)]

theorem natDigitsL_eq (n : Nat) : natDigitsL n = Nat.digits 10 n :=
  natDigitsAux_eq n n le_rfl

theorem natDecStr_ne_nil (n : Nat) : natDecStr n ≠ [] := by
  by_cases h0 : n = 0
  · subst h0
    decide
  · rw [natDecStr, if_neg h0, natDigitsL_eq]
    intro hc
    have hlen := congrArg List.length hc
    simp only [List.length_reverse, List.length_map, List.length_nil] at hlen
    exact Nat.digits_ne_nil_iff_ne_zero.2 h0 (List.eq_nil_of_length_eq_zero hlen)

theorem natDecStr_chars (n : Nat) : ∀ c ∈ natDecStr n, isDigitC c = true := by
  intro c hc
  by_cases h0 : n = 0
  · subst h0
    rw [show natDecStr 0 = ['0'] by decide] at hc
    simp only [List.mem_singleton] at hc
    subst hc
    decide
  · rw [natDecStr, if_neg h0, natDigitsL_eq, List.mem_reverse] at hc
    obtain ⟨d, hd, rfl⟩ := List.mem_map.1 hc
    exact isDigitC_digitChar (Nat.digits_lt_base (by norm_num) hd)

theorem digitsToNat_natDecStr (n : Nat) : digitsToNat (natDecStr n) = n := by
  by_cases h0 : n = 0
  · subst h0
    decide
  · rw [natDecStr, if_neg h0, natDigitsL_eq, digitsToNat, List.foldl_reverse,
      List.foldr_map]
    have key : ∀ L : List Nat, (∀ d ∈ L, d < 10) →
        L.foldr (fun d a => 10 * a + digitVal (Nat.digitChar d)) 0 =
          Nat.ofDigits 10 L := by
      intro L
      induction L with
      | nil => intro _; rfl
      | cons d L2 ih =>
        intro hall
        rw [List.foldr_cons, ih (fun x hx => hall x (by simp [hx])),
          Nat.ofDigits_cons, digitVal_digitChar (hall d (by simp))]
        omega
    rw [key _ (fun d hd => Nat.digits_lt_base (by norm_num) hd),
      Nat.ofDigits_digits]

theorem natDecStr_head (n : Nat) (h0 : n ≠ 0) :
    ∃ d, d < 10 ∧ d ≠ 0 ∧ (natDecStr n).head? = some (Nat.digitChar d) := by
  have hne : Nat.digits 10 n ≠ [] := Nat.digits_ne_nil_iff_ne_zero.2 h0
  refine ⟨(Nat.digits 10 n).getLast hne, ?_, ?_, ?_⟩
  · exact Nat.digits_lt_base (by norm_num) (List.getLast_mem hne)
  · exact Nat.getLast_digit_ne_zero 10 h0
  · rw [natDecStr, if_neg h0, natDigitsL_eq, List.head?_reverse, List.getLast?_map,
      List.getLast?_eq_getLast _ hne]
    rfl

theorem natDecStr_length_le (n k : Nat) (hk : 1 ≤ k) (hn : n < 10 ^ k) :
    (natDecStr n).length ≤ k := by
  by_cases h0 : n = 0
  · subst h0
    simpa using hk
  · rw [natDecStr, if_neg h0, natDigitsL_eq]
    simp only [List.length_reverse, List.length_map]
    rw [Nat.digits_len 10 n (by norm_num) h0]
    have := Nat.log_lt_of_lt_pow h0 hn
    omega

theorem parseRadix_cons_of_ne (c : Char) (t : Str) (hc : c ≠ '0') :
    parseRadix (c :: t) = none := by
  cases t with
  | nil =>
    rw [parseRadix.eq_def]
    split
    · next x2 ds2 heq => simp at heq
    · rfl
  | cons x ds =>
    rw [parseRadix.eq_def]
    split
    · next x2 ds2 heq =>
      injection heq with h1 h2
      exact absurd h1 hc
    · rfl

theorem parseRadix_zero_cons_of_ne (x : Char) (ds : Str)
    (h1 : ¬(x = 'x' ∨ x = 'X')) (h2 : ¬(x = 'o' ∨ x = 'O'))
    (h3 : ¬(x = 'b' ∨ x = 'B')) :
    parseRadix ('0' :: x :: ds) = none := by
  simp only [parseRadix]
  rw [if_neg h1, if_neg h2, if_neg h3]

theorem digitsToNat_replicate_zero_append (j : Nat) (s : Str) :
    digitsToNat (List.replicate j '0' ++ s) = digitsToNat s := by
  induction j with
  | zero => rfl
  | succ j ih =>
    rw [List.replicate_succ, List.cons_append]
    show List.foldl (fun a c => 10 * a + digitVal c) (10 * 0 + digitVal '0')
      (List.replicate j '0' ++ s) = digitsToNat s
    exact ih

theorem parseUDec_digits (s : Str) (hs : s ≠ []) (hd : ∀ c ∈ s, isDigitC c = true) :
    parseUDec s = some (mkRat (digitsToNat s) 1) := by
  simp only [parseUDec]
  rw [takeWhile_eq_self_of_all _ s hd, dropWhile_eq_nil_of_all _ s hd]
  rw [if_neg (fun hcon => hs (by simpa using hcon.1))]
  simp [digitsToNat]

theorem parseUDec_fixed (a b : Str) (ha : a ≠ []) (hb : b ≠ [])
    (hda : ∀ c ∈ a, isDigitC c = true) (hdb : ∀ c ∈ b, isDigitC c = true) :
    parseUDec (a ++ '.' :: b) =
      some (mkRat (digitsToNat a * 10 ^ b.length + digitsToNat b) (10 ^ b.length)) := by
  simp only [parseUDec]
  rw [takeWhile_append_stop _ '.' (by decide) a b,
    dropWhile_append_stop _ '.' (by decide) a b,
    takeWhile_eq_self_of_all _ a hda, dropWhile_eq_nil_of_all _ a hda]
  simp only [List.nil_append]
  rw [takeWhile_eq_self_of_all _ b hdb, dropWhile_eq_nil_of_all _ b hdb]
  rw [if_neg (fun hcon => ha (by simpa using hcon.1))]
  dsimp only
  push_cast
  ring_nf

theorem contains_eq_false_of_not_mem (l : Str) (a : Char) (h : a ∉ l) :
    l.contains a = false := by
  simpa using h

theorem decStrNat_ne_nil (m k : Nat) : decStrNat m k ≠ [] := by
  rw [decStrNat]
  by_cases hk : k = 0
  · rw [if_pos hk]
    exact natDecStr_ne_nil m
  · rw [if_neg hk]
    simp [natDecStr_ne_nil]

theorem decStrNat_chars (m k : Nat) :
    ∀ c ∈ decStrNat m k, isDigitC c = true ∨ c = '.' := by
  intro c hc
  rw [decStrNat] at hc
  by_cases hk : k = 0
  · rw [if_pos hk] at hc
    exact Or.inl (natDecStr_chars m c hc)
  · rw [if_neg hk] at hc
    simp only [] at hc
    rcases List.mem_append.1 hc with h1 | h1
    · exact Or.inl (natDecStr_chars _ c h1)
    · rcases List.mem_cons.1 h1 with rfl | h2
      · exact Or.inr rfl
      · rcases List.mem_append.1 h2 with h3 | h3
        · exact Or.inl (by rw [List.eq_of_mem_replicate h3]; decide)
        · exact Or.inl (natDecStr_chars _ c h3)

theorem decStr_chars (q : ℚ) :
    ∀ c ∈ decStr q, isDigitC c = true ∨ c = '.' ∨ c = '-' := by
  intro c hc
  simp only [decStr] at hc
  rcases List.mem_append.1 hc with h1 | h1
  · by_cases hneg : q.num < 0
    · rw [if_pos hneg] at h1
      rw [List.mem_singleton] at h1
      subst h1
      exact Or.inr (Or.inr rfl)
    · rw [if_neg hneg] at h1
      simp at h1
  · rcases decStrNat_chars _ _ c h1 with h | h
    · exact Or.inl h
    · exact Or.inr (Or.inl h)

theorem nonws_of_digit_dot_dash {c : Char}
    (h : isDigitC c = true ∨ c = '.' ∨ c = '-') : jsWs c = false := by
  rcases h with h | h | h
  · exact jsWs_of_isDigitC h
  · subst h
    decide
  · subst h
    decide

theorem decStr_nonws (q : ℚ) : ∀ c ∈ decStr q, jsWs c = false :=
  fun c hc => nonws_of_digit_dot_dash (decStr_chars q c hc)

theorem decStr_ne_nil (q : ℚ) : decStr q ≠ [] := by
  simp only [decStr]
  intro hc
  rcases List.append_eq_nil.1 hc with ⟨_, h2⟩
  exact decStrNat_ne_nil _ _ h2

theorem decStrNat_parse (m k : Nat) (hm0 : m ≠ 0) :
    parseUDec (decStrNat m k) = some (mkRat (m : Int) (10 ^ k)) := by
  by_cases hk : k = 0
  · subst hk
    rw [decStrNat, if_pos rfl,
      parseUDec_digits _ (natDecStr_ne_nil m) (natDecStr_chars m),
      digitsToNat_natDecStr]
    norm_num
  · rw [decStrNat, if_neg hk]
    have hfle : (natDecStr (m % 10 ^ k)).length ≤ k :=
      natDecStr_length_le _ k (by omega) (Nat.mod_lt _ (by positivity))
    rw [parseUDec_fixed (natDecStr (m / 10 ^ k))
      (List.replicate (k - (natDecStr (m % 10 ^ k)).length) '0' ++
        natDecStr (m % 10 ^ k))
      (natDecStr_ne_nil _) (by simp [natDecStr_ne_nil]) (natDecStr_chars _)
      ?_]
    · rw [digitsToNat_replicate_zero_append, digitsToNat_natDecStr,
        digitsToNat_natDecStr]
      have hblen : (List.replicate (k - (natDecStr (m % 10 ^ k)).length) '0' ++
          natDecStr (m % 10 ^ k)).length = k := by
        rw [List.length_append, List.length_replicate]
        omega
      rw [hblen]
      have hdm : m / 10 ^ k * 10 ^ k + m % 10 ^ k = m := by
        rw [mul_comm]
        exact Nat.div_add_mod m (10 ^ k)
      have hdm2 : ((m / 10 ^ k : Nat) : Int) * 10 ^ k + ((m % 10 ^ k : Nat) : Int)
          = ((m : Nat) : Int) := by
        push_cast
        exact_mod_cast hdm
      rw [hdm2]
    · intro c hc
      rcases List.mem_append.1 hc with h1 | h1
      · rw [List.eq_of_mem_replicate h1]
        decide
      · exact natDecStr_chars _ c h1

theorem decStrNat_head_cases (m k : Nat) (hm0 : m ≠ 0) :
    ∃ c rest, decStrNat m k = c :: rest ∧ isDigitC c = true ∧
      parseRadix (c :: rest) = none := by
  by_cases hk : k = 0
  · subst hk
    rw [decStrNat, if_pos rfl]
    obtain ⟨d, hd10, hd0, hhead⟩ := natDecStr_head m hm0
    obtain ⟨c, rest, hcr⟩ := List.exists_cons_of_ne_nil (natDecStr_ne_nil m)
    rw [hcr] at hhead
    simp only [List.head?_cons, Option.some_inj] at hhead
    subst hhead
    exact ⟨_, rest, hcr, isDigitC_digitChar hd10,
      parseRadix_cons_of_ne _ rest (digitChar_ne_zero hd10 hd0)⟩
  · rw [decStrNat, if_neg hk]
    by_cases hq : m / 10 ^ k = 0
    · rw [hq, show natDecStr 0 = ['0'] by decide]
      exact ⟨'0', _, rfl, by decide,
        parseRadix_zero_cons_of_ne '.' _ (by decide) (by decide) (by decide)⟩
    · obtain ⟨d, hd10, hd0, hhead⟩ := natDecStr_head (m / 10 ^ k) hq
      obtain ⟨c, rest, hcr⟩ :=
        List.exists_cons_of_ne_nil (natDecStr_ne_nil (m / 10 ^ k))
      rw [hcr] at hhead
      simp only [List.head?_cons, Option.some_inj] at hhead
      subst hhead
      rw [hcr]
      exact ⟨_, rest ++ '.' :: (List.replicate
          (k - (natDecStr (m % 10 ^ k)).length) '0' ++ natDecStr (m % 10 ^ k)),
        rfl, isDigitC_digitChar hd10,
        parseRadix_cons_of_ne _ _ (digitChar_ne_zero hd10 hd0)⟩

theorem mkRat_eq_of_cross (q : ℚ) (m k : Nat)
    (hm : m * q.den = q.num.natAbs * 10 ^ k) (hpos : 0 ≤ q.num) :
    mkRat (m : Int) (10 ^ k) = q := by
  have h10 : ((10 ^ k : Nat) : ℚ) ≠ 0 := by positivity
  have hden0 : ((q.den : ℚ)) ≠ 0 := by
    exact_mod_cast q.den_nz
  rw [Rat.mkRat_eq_div, ← Rat.num_div_den q, div_eq_div_iff h10 hden0]
  have habs : ((q.num.natAbs : ℚ)) = (q.num : ℚ) := by
    rw [Int.cast_natAbs, abs_of_nonneg hpos]
  rw [← habs]
  push_cast
  exact_mod_cast hm

theorem mkRat_eq_of_cross_neg (q : ℚ) (m k : Nat)
    (hm : m * q.den = q.num.natAbs * 10 ^ k) (hneg : q.num < 0) :
    mkRat (m : Int) (10 ^ k) = -q := by
  refine mkRat_eq_of_cross (-q) m k ?_ ?_
  · rw [Rat.neg_den, Rat.neg_num, Int.natAbs_neg]
    exact hm
  · rw [Rat.neg_num]
    omega

theorem jsNumFinite_decStr (q : ℚ) (h0 : q ≠ 0) (hdec : isDecimalRat q = true)
    (hlt : q.num.natAbs < 2 ^ 1024 * q.den) :
    jsNumFinite (decStr q) = some q := by
  have hden : q.den ∣ 10 ^ decExp q := by
    simpa [isDecimalRat] using hdec
  have hmden : q.num.natAbs * 10 ^ decExp q / q.den * q.den
      = q.num.natAbs * 10 ^ decExp q :=
    Nat.div_mul_cancel (Dvd.dvd.mul_left hden _)
  have hna : q.num.natAbs ≠ 0 := fun hz =>
    h0 (Rat.num_eq_zero.1 (Int.natAbs_eq_zero.1 hz))
  have hm0 : q.num.natAbs * 10 ^ decExp q / q.den ≠ 0 := by
    intro hz
    rw [hz, zero_mul] at hmden
    rcases Nat.mul_eq_zero.1 hmden.symm with h | h
    · exact hna h
    · exact absurd h (by positivity)
  obtain ⟨c, rest, hcr, hcd, hrad⟩ :=
    decStrNat_head_cases (q.num.natAbs * 10 ^ decExp q / q.den) (decExp q) hm0
  have hbody := decStrNat_parse (q.num.natAbs * 10 ^ decExp q / q.den) (decExp q) hm0
  rw [hcr] at hbody
  have hchars : ∀ x ∈ (c :: rest : Str), jsWs x = false := by
    intro x hx
    rw [← hcr] at hx
    exact nonws_of_digit_dot_dash
      (Or.imp id Or.inl (decStrNat_chars _ _ x hx))
  have hninf : (c :: rest : Str) ≠ "Infinity".toList := by
    intro heq
    injection heq with h1 _
    subst h1
    exact absurd hcd (by decide)
  by_cases hneg : q.num < 0
  · have hds : decStr q = '-' :: c :: rest := by
      simp only [decStr, if_pos hneg]
      rw [hcr]
      rfl
    rw [hds]
    simp only [jsNumFinite]
    rw [jsTrim_eq_self_of_all _ ?allch]
    case allch =>
      intro x hx
      rcases List.mem_cons.1 hx with rfl | hx2
      · decide
      · exact hchars x hx2
    rw [if_neg (by simp)]
    rw [parseRadix_cons_of_ne '-' (c :: rest) (by decide)]
    simp only [List.head?_cons, List.tail_cons]
    rw [if_pos (Or.inl trivial)]
    rw [if_neg hninf]
    rw [hbody]
    simp only [Option.some_bind]
    have hv : mkRat ((q.num.natAbs * 10 ^ decExp q / q.den : Nat) : Int)
        (10 ^ decExp q) = -q :=
      mkRat_eq_of_cross_neg q _ _ hmden hneg
    rw [if_pos (by decide)]
    rw [hv, Rat.neg_num, neg_neg, Rat.neg_den, Rat.mkRat_self]
    rw [finGuard, if_pos hlt]
  · have hds : decStr q = c :: rest := by
      simp only [decStr, if_neg hneg]
      rw [hcr]
      rfl
    rw [hds]
    simp only [jsNumFinite]
    rw [jsTrim_eq_self_of_all _ hchars]
    rw [if_neg (by simp)]
    rw [hrad]
    simp only [List.head?_cons]
    have hcdash : ¬(some c = some '-' ∨ some c = some '+') := by
      rintro (hc | hc) <;>
        exact absurd (Option.some_inj.1 hc)
          (ne_of_isDigitC hcd (by decide))
    rw [if_neg hcdash]
    rw [if_neg hninf]
    rw [hbody]
    simp only [Option.some_bind]
    have hv : mkRat ((q.num.natAbs * 10 ^ decExp q / q.den : Nat) : Int)
        (10 ^ decExp q) = q :=
      mkRat_eq_of_cross q _ _ hmden (by omega)
    have hcne : c ≠ '-' := ne_of_isDigitC hcd (by decide)
    rw [if_neg (by simp [hcne])]
    rw [hv]
    rw [finGuard, if_pos hlt]

theorem jsNumStr_eq_decStr (q : ℚ) (h0 : q ≠ 0) (hdec : isDecimalRat q = true)
    (hpl : inPlainRange q = true) : jsNumStr q = decStr q := by
  rw [jsNumStr, if_neg h0, if_pos hdec, if_pos hpl]

theorem jsNumFinite_jsNumStr (q : ℚ) (hdec : isDecimalRat q = true)
    (hpl : q.num = 0 ∨ inPlainRange q = true) :
    jsNumFinite (jsNumStr q) = some q := by
  by_cases h0 : q = 0
  · subst h0
    decide
  · have hpl2 : inPlainRange q = true := by
      rcases hpl with h | h
      · exact absurd (Rat.num_eq_zero.1 h) h0
      · exact h
    rw [jsNumStr_eq_decStr q h0 hdec hpl2]
    refine jsNumFinite_decStr q h0 hdec ?_
    have hp : q.den ≤ q.num.natAbs * 1000000 ∧ q.num.natAbs < 10 ^ 21 * q.den := by
      simpa [inPlainRange] using hpl2
    calc q.num.natAbs < 10 ^ 21 * q.den := hp.2
      _ ≤ 2 ^ 1024 * q.den := Nat.mul_le_mul_right _ (by norm_num)

theorem isDecimalRat_intCast (v : Int) : isDecimalRat ((v : ℚ)) = true := by
  simp [isDecimalRat, Rat.den_intCast]

theorem jsNumFinite_intCast (v : Int) (hv : v.natAbs < 10 ^ 21) :
    jsNumFinite (jsNumStr ((v : ℚ))) = some ((v : ℚ)) := by
  refine jsNumFinite_jsNumStr _ (isDecimalRat_intCast v) ?_
  by_cases h0 : v = 0
  · subst h0
    left
    simp
  · right
    have h1 : 0 < v.natAbs := Int.natAbs_pos.2 h0
    simp only [inPlainRange, Rat.num_intCast, Rat.den_intCast,
      Bool.and_eq_true, decide_eq_true_eq]
    omega

theorem toInt_jsNumStr_intCast (v : Int) (hv : v.natAbs < 10 ^ 21) (fb : Int) :
    toInt (some (jsNumStr ((v : ℚ)))) fb = v := by
  simp only [toInt]
  rw [jsNumFinite_intCast v hv]
  simp only [jsTrunc, Rat.num_intCast, Rat.den_intCast]
  exact Int.tdiv_one v

theorem toFloat_jsNumStr (q : ℚ) (hdec : isDecimalRat q = true)
    (hpl : q.num = 0 ∨ inPlainRange q = true) (fb : ℚ) :
    toFloat (some (jsNumStr q)) fb = q := by
  simp only [toFloat]
  rw [jsNumFinite_jsNumStr q hdec hpl]

theorem jsNumStr_no_exp (q : ℚ) (hdec : isDecimalRat q = true)
    (hpl : q.num = 0 ∨ inPlainRange q = true) :
    (jsNumStr q).contains 'e' = false ∧ (jsNumStr q).contains 'E' = false := by
  by_cases h0 : q = 0
  · subst h0
    decide
  · have hpl2 : inPlainRange q = true := by
      rcases hpl with h | h
      · exact absurd (Rat.num_eq_zero.1 h) h0
      · exact h
    rw [jsNumStr_eq_decStr q h0 hdec hpl2]
    constructor <;> refine contains_eq_false_of_not_mem _ _ fun hm => ?_
    · rcases decStr_chars q 'e' hm with h | h | h <;> exact absurd h (by decide)
    · rcases decStr_chars q 'E' hm with h | h | h <;> exact absurd h (by decide)

theorem fmt_eq_jsNumStr (q : ℚ) (hdec : isDecimalRat q = true)
    (hpl : q.num = 0 ∨ inPlainRange q = true) : fmt q = jsNumStr q := by
  obtain ⟨he, hE⟩ := jsNumStr_no_exp q hdec hpl
  simp only [fmt]
  rw [he, hE]
  rfl

theorem jsNumStr_ne_nil (q : ℚ) : jsNumStr q ≠ [] := by
  by_cases h0 : q = 0
  · subst h0
    decide
  · rw [jsNumStr, if_neg h0]
    by_cases hdec : isDecimalRat q = true
    · rw [if_pos hdec]
      by_cases hpl : inPlainRange q = true
      · rw [if_pos hpl]
        exact decStr_ne_nil q
      · rw [if_neg hpl]
        simp only [expForm]
        simp
    · rw [if_neg hdec]
      decide

theorem jsNumStr_nonws (q : ℚ) (hdec : isDecimalRat q = true)
    (hpl : q.num = 0 ∨ inPlainRange q = true) :
    ∀ c ∈ jsNumStr q, jsWs c = false := by
  by_cases h0 : q = 0
  · subst h0
    intro c hc
    rw [show jsNumStr 0 = ['0'] by decide] at hc
    rw [List.mem_singleton] at hc
    subst hc
    decide
  · have hpl2 : inPlainRange q = true := by
      rcases hpl with h | h
      · exact absurd (Rat.num_eq_zero.1 h) h0
      · exact h
    rw [jsNumStr_eq_decStr q h0 hdec hpl2]
    exact decStr_nonws q

/-! ## Header round-trip lemmas (toward claim C1) -/

theorem intCast_plain (v : Int) (hv : v.natAbs < 10 ^ 21) :
    ((v : ℚ)).num = 0 ∨ inPlainRange ((v : ℚ)) = true := by
  by_cases h0 : v = 0
  · subst h0
    left
    simp
  · right
    have h1 : 0 < v.natAbs := Int.natAbs_pos.2 h0
    simp only [inPlainRange, Rat.num_intCast, Rat.den_intCast,
      Bool.and_eq_true, decide_eq_true_eq]
    omega

theorem intTok_nonws (v : Int) (hv : v.natAbs < 10 ^ 21) :
    ∀ c ∈ intTok v, jsWs c = false := by
  rw [intTok]
  exact jsNumStr_nonws _ (isDecimalRat_intCast v) (intCast_plain v hv)

theorem intTok_ne_nil (v : Int) : intTok v ≠ [] := jsNumStr_ne_nil _

theorem toInt_intTok (v : Int) (hv : v.natAbs < 10 ^ 21) (fb : Int) :
    toInt (some (intTok v)) fb = v :=
  toInt_jsNumStr_intCast v hv fb

theorem jsNumFinite_intTok (v : Int) (hv : v.natAbs < 10 ^ 21) :
    jsNumFinite (intTok v) = some ((v : ℚ)) :=
  jsNumFinite_intCast v hv

theorem ne_of_head?_ne {α : Type} (l1 l2 : List α) (h : l1.head? ≠ l2.head?) :
    l1 ≠ l2 := fun he => h (he ▸ rfl)

theorem mem_of_getLast?_eq_some {α : Type} {l : List α} {c : α}
    (h : l.getLast? = some c) : c ∈ l := by
  obtain ⟨ys, hys⟩ := List.getLast?_eq_some_iff.1 h
  rw [hys]
  simp

theorem keyLine_trim (w p : Str) (hw : w ≠ [])
    (hwc : ∀ c ∈ w, jsWs c = false) (hpne : p ≠ [])
    (hpl : ∀ c, p.getLast? = some c → jsWs c = false) :
    jsTrim (w ++ ' ' :: p) = w ++ ' ' :: p := by
  refine jsTrim_eq_self _ ?_ ?_
  · intro c hc
    obtain ⟨a, w2, hw2⟩ := List.exists_cons_of_ne_nil hw
    subst hw2
    rw [List.cons_append, List.head?_cons] at hc
    injection hc with hc
    subst hc
    exact hwc _ (by simp)
  · intro c hc
    rw [show (w ++ ' ' :: p : Str) = w ++ ([' '] ++ p) from rfl,
      getLast?_append_right _ _ (by simp),
      getLast?_append_right _ _ hpne] at hc
    exact hpl c hc

theorem keyLine_tokens (w p : Str) (hw : w ≠ [])
    (hwc : ∀ c ∈ w, jsWs c = false) :
    tokenize (w ++ ' ' :: p) = w :: tokenize p := by
  rw [tokenize_append_space, tokenize_single w hw hwc]
  rfl

theorem canonical_eq (s : Str) (h : wfCanonical s = true) :
    s = joinSp (tokenize s) := by
  simpa [wfCanonical] using h

theorem canonical_chars (s : Str) (h : wfCanonical s = true) :
    ∀ c ∈ s, jsWs c = false ∨ c = ' ' := by
  intro c hc
  rw [canonical_eq s h] at hc
  exact joinSp_chars _ (fun t ht x hx => (tokenize_props s t ht).2 x hx) c hc

theorem canonical_getLast_nonws (s : Str) (h : wfCanonical s = true) :
    ∀ c, s.getLast? = some c → jsWs c = false := by
  intro c hc
  rw [canonical_eq s h] at hc
  exact joinSp_getLast_nonws _ (tokenize_props s) c hc

theorem headerUpdate_version (v : Int) (hv : v.natAbs < 10 ^ 21)
    (h : LevelHeader) (i : Nat) :
    headerUpdate ("version ".toList ++ intTok v) h i =
      .ok { h with version := v } := by
  have hsplit : ("version ".toList ++ intTok v : Str)
      = "version".toList ++ ' ' :: intTok v := by
    rw [show ("version ".toList : Str) = "version".toList ++ [' '] by decide,
      List.append_assoc]
    rfl
  have htrim := keyLine_trim "version".toList (intTok v) (by decide) (by decide)
    (intTok_ne_nil v)
    (fun c hc => intTok_nonws v hv c (mem_of_getLast?_eq_some hc))
  simp only [headerUpdate, hsplit, htrim]
  rw [keyLine_tokens _ _ (by decide) (by decide),
    tokenize_single _ (intTok_ne_nil v) (intTok_nonws v hv)]
  simp only [List.headD_cons, List.getElem?_cons_succ, List.getElem?_cons_zero,
    Option.some_bind]
  rw [if_pos (by trivial), jsNumFinite_intTok v hv]
  simp only [jsTrunc, Rat.num_intCast, Rat.den_intCast, Nat.cast_one, Int.tdiv_one]

theorem headerUpdate_attempt (s : Str) (hcan : wfCanonical s = true)
    (hne : ¬s.isEmpty) (h : LevelHeader) (i : Nat) :
    headerUpdate ("attempt_order ".toList ++ s) h i =
      .ok { h with attempt_order := some s } := by
  have hne2 : s ≠ [] := by simpa using hne
  have hsplit : ("attempt_order ".toList ++ s : Str)
      = "attempt_order".toList ++ ' ' :: s := by
    rw [show ("attempt_order ".toList : Str) = "attempt_order".toList ++ [' ']
      by decide, List.append_assoc]
    rfl
  have htrim := keyLine_trim "attempt_order".toList s (by decide) (by decide)
    hne2 (canonical_getLast_nonws s hcan)
  simp only [headerUpdate, hsplit, htrim]
  rw [keyLine_tokens _ _ (by decide) (by decide)]
  simp only [List.headD_cons, List.tail_cons]
  rw [if_neg (by decide), if_pos (by trivial), ← canonical_eq s hcan]

theorem headerUpdate_shed (h : LevelHeader) (i : Nat) :
    headerUpdate "shed".toList h i = .ok { h with shed := true } := rfl

theorem headerUpdate_inner_push (h : LevelHeader) (i : Nat) :
    headerUpdate "inner_push".toList h i = .ok { h with inner_push := true } := rfl

theorem headerUpdate_draw (ds : DrawStyle) (h : LevelHeader) (i : Nat) :
    headerUpdate ("draw_style ".toList ++ ds.token) h i =
      .ok { h with draw_style := some ds } := by
  cases ds <;> rfl

theorem headerUpdate_music (v : Int) (hv : v.natAbs < 10 ^ 21)
    (h : LevelHeader) (i : Nat) :
    headerUpdate ("custom_level_music ".toList ++ intTok v) h i =
      .ok { h with custom_level_music := some v } := by
  have hsplit : ("custom_level_music ".toList ++ intTok v : Str)
      = "custom_level_music".toList ++ ' ' :: intTok v := by
    rw [show ("custom_level_music ".toList : Str)
      = "custom_level_music".toList ++ [' '] by decide, List.append_assoc]
    rfl
  have htrim := keyLine_trim "custom_level_music".toList (intTok v) (by decide)
    (by decide) (intTok_ne_nil v)
    (fun c hc => intTok_nonws v hv c (mem_of_getLast?_eq_some hc))
  simp only [headerUpdate, hsplit, htrim]
  rw [keyLine_tokens _ _ (by decide) (by decide),
    tokenize_single _ (intTok_ne_nil v) (intTok_nonws v hv)]
  simp only [List.headD_cons, List.getElem?_cons_succ, List.getElem?_cons_zero]
  rw [if_neg (by decide), if_neg (by decide), if_neg (by decide),
    if_neg (by decide), if_neg (by decide), if_pos (by trivial),
    toInt_intTok v hv]

theorem headerUpdate_palette (v : Int) (hv : v.natAbs < 10 ^ 21)
    (h : LevelHeader) (i : Nat) :
    headerUpdate ("custom_level_palette ".toList ++ intTok v) h i =
      .ok { h with custom_level_palette := some v } := by
  have hsplit : ("custom_level_palette ".toList ++ intTok v : Str)
      = "custom_level_palette".toList ++ ' ' :: intTok v := by
    rw [show ("custom_level_palette ".toList : Str)
      = "custom_level_palette".toList ++ [' '] by decide, List.append_assoc]
    rfl
  have htrim := keyLine_trim "custom_level_palette".toList (intTok v) (by decide)
    (by decide) (intTok_ne_nil v)
    (fun c hc => intTok_nonws v hv c (mem_of_getLast?_eq_some hc))
  simp only [headerUpdate, hsplit, htrim]
  rw [keyLine_tokens _ _ (by decide) (by decide),
    tokenize_single _ (intTok_ne_nil v) (intTok_nonws v hv)]
  simp only [List.headD_cons, List.getElem?_cons_succ, List.getElem?_cons_zero]
  rw [if_neg (by decide), if_neg (by decide), if_neg (by decide),
    if_neg (by decide), if_neg (by decide), if_neg (by decide),
    if_pos (by trivial), toInt_intTok v hv]

theorem serializeHeaderLines_eq (h : LevelHeader) :
    serializeHeaderLines h =
      ("version ".toList ++ intTok h.version) ::
      (attemptChunk h.attempt_order ++ boolChunk "shed".toList h.shed ++
       boolChunk "inner_push".toList h.inner_push ++ drawChunk h.draw_style ++
       intChunk "custom_level_music ".toList h.custom_level_music ++
       intChunk "custom_level_palette ".toList h.custom_level_palette ++
       h.unknown) := by
  obtain ⟨ver, ao, sh, ip, ds, mu, pa, unk⟩ := h
  simp only [serializeHeaderLines, attemptChunk, boolChunk, drawChunk, intChunk]

theorem wfUnknownLine_spec (l : Str) (h : wfUnknownLine l = true) :
    stripTrailingSpTab l = l ∧ ¬(jsTrim l).isEmpty ∧ jsTrim l ≠ ['#'] ∧
    (∀ c ∈ l, c ≠ '\n' ∧ c ≠ '\r') ∧
    (tokenize (jsTrim l)).headD [] ≠ "version".toList ∧
    (tokenize (jsTrim l)).headD [] ≠ "attempt_order".toList ∧
    (tokenize (jsTrim l)).headD [] ≠ "shed".toList ∧
    (tokenize (jsTrim l)).headD [] ≠ "inner_push".toList ∧
    (tokenize (jsTrim l)).headD [] ≠ "custom_level_music".toList ∧
    (tokenize (jsTrim l)).headD [] ≠ "custom_level_palette".toList ∧
    ((tokenize (jsTrim l)).headD [] = "draw_style".toList →
      ∀ s, (tokenize (jsTrim l))[1]? = some s →
        s ≠ "tui".toList ∧ s ≠ "grid".toList ∧ s ≠ "oldstyle".toList) := by
  simp only [wfUnknownLine, Bool.and_eq_true, decide_eq_true_eq,
    Bool.not_eq_true', List.all_eq_true, Bool.or_eq_true] at h
  obtain ⟨⟨⟨⟨h1, h2⟩, h3⟩, h4⟩,
    ⟨⟨⟨⟨⟨⟨h5, h6⟩, h7⟩, h8⟩, h9⟩, h10⟩, h11⟩⟩ := h
  refine ⟨h1, by simpa using h2, h3, ?_, h5, h6, h7, h8, h9, h10, ?_⟩
  · intro c hc
    have := h4 c hc
    simpa using this
  · intro hk s hs
    rcases h11 with hfalse | hmatch
    · exact absurd hk (by simpa using hfalse)
    · rw [hs] at hmatch
      obtain ⟨⟨ht, hg⟩, ho⟩ : (¬s = "tui".toList ∧ ¬s = "grid".toList) ∧
          ¬s = "oldstyle".toList := by simpa using hmatch
      exact ⟨ht, hg, ho⟩

theorem headerUpdate_unknown (l : Str) (h : LevelHeader) (i : Nat)
    (h1 : (tokenize (jsTrim l)).headD [] ≠ "version".toList)
    (h2 : (tokenize (jsTrim l)).headD [] ≠ "attempt_order".toList)
    (h3 : (tokenize (jsTrim l)).headD [] ≠ "shed".toList)
    (h4 : (tokenize (jsTrim l)).headD [] ≠ "inner_push".toList)
    (h5 : (tokenize (jsTrim l)).headD [] ≠ "custom_level_music".toList)
    (h6 : (tokenize (jsTrim l)).headD [] ≠ "custom_level_palette".toList)
    (h7 : (tokenize (jsTrim l)).headD [] = "draw_style".toList →
      ∀ s, (tokenize (jsTrim l))[1]? = some s →
        s ≠ "tui".toList ∧ s ≠ "grid".toList ∧ s ≠ "oldstyle".toList) :
    headerUpdate l h i = .ok { h with unknown := h.unknown ++ [l] } := by
  simp only [headerUpdate]
  rw [if_neg h1, if_neg h2, if_neg h3, if_neg h4]
  by_cases hd : (tokenize (jsTrim l)).headD [] = "draw_style".toList
  · rw [if_pos hd]
    cases h9 : (tokenize (jsTrim l))[1]? with
    | none => rfl
    | some s =>
      obtain ⟨ht, hg, ho⟩ := h7 hd s h9
      dsimp only
      rw [if_neg ht, if_neg hg, if_neg ho]
  · rw [if_neg hd, if_neg h5, if_neg h6]

theorem headerFold_append (ls1 ls2 : List Str) (i : Nat) (h h2 : LevelHeader)
    (hf : headerFold i ls1 h = .ok h2) :
    headerFold i (ls1 ++ ls2) h = headerFold (i + ls1.length) ls2 h2 := by
  induction ls1 generalizing i h with
  | nil =>
    simp only [headerFold] at hf
    injection hf with hf
    subst hf
    simp
  | cons l rest ih =>
    have harith : i + 1 + rest.length = i + (l :: rest).length := by
      simp only [List.length_cons]
      omega
    simp only [headerFold] at hf ⊢
    cases hs : headerUpdate l h i with
    | error e =>
      rw [hs] at hf
      simp at hf
    | ok h3 =>
      rw [hs] at hf
      dsimp only at hf
      dsimp only
      simp only [List.append_eq]
      rw [ih _ _ hf, harith]

theorem headerFold_chunk_attempt (ao : Option Str) (h0 : LevelHeader) (i : Nat)
    (h00 : h0.attempt_order = none)
    (hao : ∀ s, ao = some s → ¬s.isEmpty ∧ wfCanonical s = true) :
    headerFold i (attemptChunk ao) h0 = .ok { h0 with attempt_order := ao } := by
  cases ao with
  | none =>
    show headerFold i [] h0 = _
    simp only [headerFold]
    rw [← h00]
  | some s =>
    obtain ⟨hne, hcan⟩ := hao s rfl
    show headerFold i (if s.isEmpty then [] else _) h0 = _
    rw [if_neg hne]
    simp only [headerFold]
    rw [headerUpdate_attempt s hcan hne h0 i]

theorem headerFold_chunk_bool_shed (b : Bool) (h0 : LevelHeader) (i : Nat)
    (h00 : h0.shed = false) :
    headerFold i (boolChunk "shed".toList b) h0 = .ok { h0 with shed := b } := by
  cases b with
  | false =>
    show headerFold i [] h0 = _
    simp only [headerFold]
    rw [← h00]
  | true =>
    show headerFold i ["shed".toList] h0 = _
    simp only [headerFold]
    rw [headerUpdate_shed]

theorem headerFold_chunk_bool_inner (b : Bool) (h0 : LevelHeader) (i : Nat)
    (h00 : h0.inner_push = false) :
    headerFold i (boolChunk "inner_push".toList b) h0 =
      .ok { h0 with inner_push := b } := by
  cases b with
  | false =>
    show headerFold i [] h0 = _
    simp only [headerFold]
    rw [← h00]
  | true =>
    show headerFold i ["inner_push".toList] h0 = _
    simp only [headerFold]
    rw [headerUpdate_inner_push]

theorem headerFold_chunk_draw (ds : Option DrawStyle) (h0 : LevelHeader) (i : Nat)
    (h00 : h0.draw_style = none) :
    headerFold i (drawChunk ds) h0 = .ok { h0 with draw_style := ds } := by
  cases ds with
  | none =>
    show headerFold i [] h0 = _
    simp only [headerFold]
    rw [← h00]
  | some d =>
    show headerFold i [_] h0 = _
    simp only [headerFold]
    rw [headerUpdate_draw]

theorem headerFold_chunk_music (om : Option Int) (h0 : LevelHeader) (i : Nat)
    (h00 : h0.custom_level_music = none)
    (hm : ∀ v, om = some v → v.natAbs < 10 ^ 21) :
    headerFold i (intChunk "custom_level_music ".toList om) h0 =
      .ok { h0 with custom_level_music := om } := by
  cases om with
  | none =>
    show headerFold i [] h0 = _
    simp only [headerFold]
    rw [← h00]
  | some v =>
    show headerFold i [_] h0 = _
    simp only [headerFold]
    rw [headerUpdate_music v (hm v rfl)]

theorem headerFold_chunk_palette (om : Option Int) (h0 : LevelHeader) (i : Nat)
    (h00 : h0.custom_level_palette = none)
    (hm : ∀ v, om = some v → v.natAbs < 10 ^ 21) :
    headerFold i (intChunk "custom_level_palette ".toList om) h0 =
      .ok { h0 with custom_level_palette := om } := by
  cases om with
  | none =>
    show headerFold i [] h0 = _
    simp only [headerFold]
    rw [← h00]
  | some v =>
    show headerFold i [_] h0 = _
    simp only [headerFold]
    rw [headerUpdate_palette v (hm v rfl)]

theorem headerFold_chunk_unknown (ls : List Str) :
    ∀ (i : Nat) (h0 : LevelHeader), (∀ l ∈ ls, wfUnknownLine l = true) →
    headerFold i ls h0 = .ok { h0 with unknown := h0.unknown ++ ls } := by
  induction ls with
  | nil =>
    intro i h0 _
    simp only [headerFold]
    rw [List.append_nil]
  | cons l rest ih =>
    intro i h0 hall
    obtain ⟨_, _, _, _, hk1, hk2, hk3, hk4, hk5, hk6, hk7⟩ :=
      wfUnknownLine_spec l (hall l (by simp))
    simp only [headerFold]
    rw [headerUpdate_unknown l h0 i hk1 hk2 hk3 hk4 hk5 hk6 hk7]
    dsimp only
    rw [ih (i + 1) _ (fun x hx => hall x (by simp [hx]))]
    simp

theorem headerFold_serializeHeader (h : LevelHeader) (hwf : wfHeader h = true)
    (i : Nat) :
    headerFold i (serializeHeaderLines h) initHeader = .ok h := by
  have hspec := hwf
  simp only [wfHeader, Bool.and_eq_true] at hspec
  obtain ⟨⟨⟨⟨hv, hao⟩, hmu⟩, hpa⟩, hunk⟩ := hspec
  have hv2 : h.version.natAbs < 10 ^ 21 := by simpa [wfInt] using hv
  have hao2 : ∀ s, h.attempt_order = some s → ¬s.isEmpty ∧ wfCanonical s = true := by
    intro s hs
    rw [hs] at hao
    simpa [Bool.and_eq_true, Bool.not_eq_true'] using hao
  have hmu2 : ∀ v, h.custom_level_music = some v → v.natAbs < 10 ^ 21 := by
    intro v hs
    rw [hs] at hmu
    simpa [wfInt] using hmu
  have hpa2 : ∀ v, h.custom_level_palette = some v → v.natAbs < 10 ^ 21 := by
    intro v hs
    rw [hs] at hpa
    simpa [wfInt] using hpa
  have hunk2 : ∀ l ∈ h.unknown, wfUnknownLine l = true := by
    simpa [List.all_eq_true] using hunk
  rw [serializeHeaderLines_eq]
  simp only [headerFold]
  rw [headerUpdate_version h.version hv2 initHeader i]
  dsimp only
  simp only [List.append_assoc]
  rw [headerFold_append _ _ _ _ _
    (headerFold_chunk_attempt h.attempt_order _ _ rfl hao2)]
  rw [headerFold_append _ _ _ _ _
    (headerFold_chunk_bool_shed h.shed _ _ rfl)]
  rw [headerFold_append _ _ _ _ _
    (headerFold_chunk_bool_inner h.inner_push _ _ rfl)]
  rw [headerFold_append _ _ _ _ _
    (headerFold_chunk_draw h.draw_style _ _ rfl)]
  rw [headerFold_append _ _ _ _ _
    (headerFold_chunk_music h.custom_level_music _ _ rfl hmu2)]
  rw [headerFold_append _ _ _ _ _
    (headerFold_chunk_palette h.custom_level_palette _ _ rfl hpa2)]
  rw [headerFold_chunk_unknown h.unknown _ _ hunk2]
  rfl

theorem ws_or_space_crlf {c : Char} (h : jsWs c = false ∨ c = ' ') :
    c ≠ '\n' ∧ c ≠ '\r' := by
  rcases h with h | h
  · constructor
    · intro he
      subst he
      exact absurd h (by decide)
    · intro he
      subst he
      exact absurd h (by decide)
  · subst h
    exact ⟨by decide, by decide⟩

theorem head?_append_left {α : Type} (l1 l2 : List α) (h : l1 ≠ []) :
    (l1 ++ l2).head? = l1.head? := by
  obtain ⟨a, t, rfl⟩ := List.exists_cons_of_ne_nil h
  rfl

theorem keyLine_facts (w p : Str) (hw : w ≠ [])
    (hwc : ∀ c ∈ w, jsWs c = false) (hwh : w.head? ≠ some '#')
    (hpne : p ≠ []) (hpl : ∀ c, p.getLast? = some c → jsWs c = false)
    (hpch : ∀ c ∈ p, jsWs c = false ∨ c = ' ') :
    ¬(jsTrim (w ++ ' ' :: p)).isEmpty ∧ jsTrim (w ++ ' ' :: p) ≠ ['#'] ∧
    (∀ c ∈ w ++ ' ' :: p, c ≠ '\n' ∧ c ≠ '\r') ∧
    stripTrailingSpTab (w ++ ' ' :: p) = w ++ ' ' :: p := by
  have htrim := keyLine_trim w p hw hwc hpne hpl
  refine ⟨?_, ?_, ?_, ?_⟩
  · rw [htrim]
    obtain ⟨a, w2, rfl⟩ := List.exists_cons_of_ne_nil hw
    simp
  · rw [htrim]
    refine ne_of_head?_ne _ _ ?_
    rw [head?_append_left _ _ hw]
    exact hwh
  · intro c hc
    rcases List.mem_append.1 hc with h1 | h1
    · exact ws_or_space_crlf (Or.inl (hwc c h1))
    · rcases List.mem_cons.1 h1 with rfl | h2
      · exact ⟨by decide, by decide⟩
      · exact ws_or_space_crlf (hpch c h2)
  · refine stripTrailingSpTab_eq_self _ fun c hc => ?_
    rw [show (w ++ ' ' :: p : Str) = w ++ ([' '] ++ p) from rfl,
      getLast?_append_right _ _ (by simp),
      getLast?_append_right _ _ hpne] at hc
    exact hpl c hc

theorem serializeHeaderLines_facts (h : LevelHeader) (hwf : wfHeader h = true) :
    ∀ l ∈ serializeHeaderLines h,
      ¬(jsTrim l).isEmpty ∧ jsTrim l ≠ ['#'] ∧
      (∀ c ∈ l, c ≠ '\n' ∧ c ≠ '\r') ∧ stripTrailingSpTab l = l := by
  have hspec := hwf
  simp only [wfHeader, Bool.and_eq_true] at hspec
  obtain ⟨⟨⟨⟨hv, hao⟩, hmu⟩, hpa⟩, hunk⟩ := hspec
  have hv2 : h.version.natAbs < 10 ^ 21 := by simpa [wfInt] using hv
  have hunk2 : ∀ l ∈ h.unknown, wfUnknownLine l = true := by
    simpa [List.all_eq_true] using hunk
  intro l hl
  rw [serializeHeaderLines_eq] at hl
  rcases List.mem_cons.1 hl with rfl | hl2
  · exact keyLine_facts "version".toList (intTok h.version) (by decide) (by decide)
      (by decide) (intTok_ne_nil _)
      (fun c hc => intTok_nonws _ hv2 c (mem_of_getLast?_eq_some hc))
      (fun c hc => Or.inl (intTok_nonws _ hv2 c hc))
  · rcases List.mem_append.1 hl2 with hl3 | hlunk
    · rcases List.mem_append.1 hl3 with hl4 | hlF
      · rcases List.mem_append.1 hl4 with hl5 | hlE
        · rcases List.mem_append.1 hl5 with hl6 | hlD
          · rcases List.mem_append.1 hl6 with hl7 | hlC
            · rcases List.mem_append.1 hl7 with hlA | hlB
              · -- attempt_order chunk
                cases hcase : h.attempt_order with
                | none =>
                  rw [hcase] at hlA
                  simp [attemptChunk] at hlA
                | some s =>
                  rw [hcase] at hlA hao
                  have hs : ¬s.isEmpty = true ∧ wfCanonical s = true := by
                    simpa [Bool.and_eq_true, Bool.not_eq_true'] using hao
                  simp only [attemptChunk, if_neg hs.1] at hlA
                  rw [List.mem_singleton] at hlA
                  subst hlA
                  have hsplit : ("attempt_order ".toList ++ s : Str)
                      = "attempt_order".toList ++ ' ' :: s := by
                    rw [show ("attempt_order ".toList : Str)
                      = "attempt_order".toList ++ [' '] by decide,
                      List.append_assoc]
                    rfl
                  rw [hsplit]
                  exact keyLine_facts "attempt_order".toList s (by decide)
                    (by decide) (by decide) (by simpa using hs.1)
                    (canonical_getLast_nonws s hs.2) (canonical_chars s hs.2)
              · -- shed chunk
                cases hcase : h.shed with
                | false =>
                  rw [hcase] at hlB
                  simp [boolChunk] at hlB
                | true =>
                  rw [hcase] at hlB
                  simp only [boolChunk, if_true, List.mem_singleton] at hlB
                  subst hlB
                  exact ⟨by decide, by decide, by decide, by decide⟩
            · -- inner_push chunk
              cases hcase : h.inner_push with
              | false =>
                rw [hcase] at hlC
                simp [boolChunk] at hlC
              | true =>
                rw [hcase] at hlC
                simp only [boolChunk, if_true, List.mem_singleton] at hlC
                subst hlC
                exact ⟨by decide, by decide, by decide, by decide⟩
          · -- draw_style chunk
            cases hcase : h.draw_style with
            | none =>
              rw [hcase] at hlD
              simp [drawChunk] at hlD
            | some d =>
              rw [hcase] at hlD
              simp only [drawChunk, List.mem_singleton] at hlD
              subst hlD
              cases d
              · exact ⟨by decide, by decide, by decide, by decide⟩
              · exact ⟨by decide, by decide, by decide, by decide⟩
              · exact ⟨by decide, by decide, by decide, by decide⟩
        · -- custom_level_music chunk
          cases hcase : h.custom_level_music with
          | none =>
            rw [hcase] at hlE
            simp [intChunk] at hlE
          | some v =>
            rw [hcase] at hlE hmu
            have hvm : v.natAbs < 10 ^ 21 := by simpa [wfInt] using hmu
            simp only [intChunk, List.mem_singleton] at hlE
            subst hlE
            have hsplit : ("custom_level_music ".toList ++ intTok v : Str)
                = "custom_level_music".toList ++ ' ' :: intTok v := by
              rw [show ("custom_level_music ".toList : Str)
                = "custom_level_music".toList ++ [' '] by decide,
                List.append_assoc]
              rfl
            rw [hsplit]
            exact keyLine_facts "custom_level_music".toList (intTok v) (by decide)
              (by decide) (by decide) (intTok_ne_nil _)
              (fun c hc => intTok_nonws _ hvm c (mem_of_getLast?_eq_some hc))
              (fun c hc => Or.inl (intTok_nonws _ hvm c hc))
      · -- custom_level_palette chunk
        cases hcase : h.custom_level_palette with
        | none =>
          rw [hcase] at hlF
          simp [intChunk] at hlF
        | some v =>
          rw [hcase] at hlF hpa
          have hvm : v.natAbs < 10 ^ 21 := by simpa [wfInt] using hpa
          simp only [intChunk, List.mem_singleton] at hlF
          subst hlF
          have hsplit : ("custom_level_palette ".toList ++ intTok v : Str)
              = "custom_level_palette".toList ++ ' ' :: intTok v := by
            rw [show ("custom_level_palette ".toList : Str)
              = "custom_level_palette".toList ++ [' '] by decide,
              List.append_assoc]
            rfl
          rw [hsplit]
          exact keyLine_facts "custom_level_palette".toList (intTok v) (by decide)
            (by decide) (by decide) (intTok_ne_nil _)
            (fun c hc => intTok_nonws _ hvm c (mem_of_getLast?_eq_some hc))
            (fun c hc => Or.inl (intTok_nonws _ hvm c hc))
    · -- unknown lines
      obtain ⟨hs1, hs2, hs3, hs4, _⟩ := wfUnknownLine_spec l (hunk2 l hlunk)
      exact ⟨hs2, hs3, hs4, hs1⟩

theorem parseHeaderLines_chunk (ls : List Str) :
    ∀ (rest : List Str) (i : Nat) (h h2 : LevelHeader),
    (∀ l ∈ ls, ¬(jsTrim l).isEmpty ∧ jsTrim l ≠ ['#']) →
    headerFold i ls h = .ok h2 →
    parseHeaderLines i (ls ++ rest) h = parseHeaderLines (i + ls.length) rest h2 := by
  induction ls with
  | nil =>
    intro rest i h h2 _ hf
    simp only [headerFold] at hf
    injection hf with hf
    subst hf
    simp
  | cons l tl ih =>
    intro rest i h h2 hnb hf
    have harith : i + 1 + tl.length = i + (l :: tl).length := by
      simp only [List.length_cons]
      omega
    simp only [headerFold] at hf
    simp only [parseHeaderLines]
    rw [if_neg (hnb l (by simp)).1, if_neg (hnb l (by simp)).2]
    cases hs : headerUpdate l h i with
    | error e =>
      rw [hs] at hf
      simp at hf
    | ok h3 =>
      rw [hs] at hf
      dsimp only at hf
      dsimp only
      simp only [List.append_eq]
      rw [ih rest (i + 1) h3 h2 (fun x hx => hnb x (by simp [hx])) hf, harith]

theorem parseHeader_serialize (h : LevelHeader) (hwf : wfHeader h = true)
    (body : List Str) :
    parseHeaderLines 0 (serializeHeaderLines h ++ ['#'] :: body) initHeader =
      .ok (h, (serializeHeaderLines h).length + 1, body) := by
  rw [parseHeaderLines_chunk (serializeHeaderLines h) (['#'] :: body) 0 initHeader h
    (fun l hl => ⟨(serializeHeaderLines_facts h hwf l hl).1,
      (serializeHeaderLines_facts h hwf l hl).2.1⟩)
    (headerFold_serializeHeader h hwf 0)]
  simp only [parseHeaderLines]
  rw [if_neg (by decide), if_pos (by decide)]
  simp

/-! ## Body round-trip lemmas (toward claim C1) -/

theorem closeOneD_stack_length (st : BState) :
    (closeOne st).stack.length = st.stack.length - 1 := by
  match st with
  | ⟨roots, []⟩ => rfl
  | ⟨roots, [b]⟩ => rfl
  | ⟨roots, b :: p :: rest⟩ => simp [closeOne]

theorem closeToAux_of_le (f d : Nat) (st : BState) (h : st.stack.length ≤ d) :
    closeToAux f d st = st := by
  cases f with
  | zero => rfl
  | succ f2 => simp only [closeToAux, if_pos h]

theorem closeTo_of_le (d : Nat) (st : BState) (h : st.stack.length ≤ d) :
    closeTo d st = st := closeToAux_of_le _ _ _ h

theorem closeToAux_fuel : ∀ (k : Nat) (st : BState), st.stack.length ≤ k →
    ∀ (f d : Nat), st.stack.length ≤ f → closeToAux f d st = closeTo d st := by
  intro k
  induction k with
  | zero =>
    intro st hk f d hf
    rw [closeToAux_of_le _ _ _ (by omega), closeTo_of_le _ _ (by omega)]
  | succ k ih =>
    intro st hk f d hf
    by_cases hle : st.stack.length ≤ d
    · rw [closeToAux_of_le _ _ _ hle, closeTo_of_le _ _ hle]
    · cases f with
      | zero => omega
      | succ f2 =>
        simp only [closeToAux, if_neg hle]
        rw [ih (closeOne st) (by rw [closeOneD_stack_length]; omega) f2 d
          (by rw [closeOneD_stack_length]; omega)]
        obtain ⟨n, hn⟩ : ∃ n, st.stack.length = n + 1 :=
          ⟨st.stack.length - 1, by omega⟩
        have hrhs : closeTo d st = closeToAux n d (closeOne st) := by
          rw [closeTo, hn]
          simp only [closeToAux, if_neg hle]
        rw [hrhs, ih (closeOne st) (by rw [closeOneD_stack_length]; omega) n d
          (by rw [closeOneD_stack_length]; omega)]

theorem closeTo_step (d : Nat) (st : BState) (h : d < st.stack.length) :
    closeTo d st = closeTo d (closeOne st) := by
  rw [closeTo]
  obtain ⟨n, hn⟩ : ∃ n, st.stack.length = n + 1 := ⟨st.stack.length - 1, by omega⟩
  rw [hn]
  simp only [closeToAux, if_neg (by omega : ¬st.stack.length ≤ d)]
  exact closeToAux_fuel (closeOne st).stack.length (closeOne st) le_rfl n d
    (by rw [closeOneD_stack_length]; omega)

theorem closeTo_closeTo_aux : ∀ (n : Nat) (st : BState), st.stack.length ≤ n →
    ∀ d d2, d ≤ d2 → closeTo d (closeTo d2 st) = closeTo d st := by
  intro n
  induction n with
  | zero =>
    intro st hst d d2 hd
    rw [closeTo_of_le d2 st (by omega)]
  | succ n ih =>
    intro st hst d d2 hd
    by_cases h2 : st.stack.length ≤ d2
    · rw [closeTo_of_le d2 st h2]
    · rw [closeTo_step d2 st (by omega), closeTo_step d st (by omega)]
      exact ih (closeOne st) (by rw [closeOneD_stack_length]; omega) d d2 hd

theorem closeTo_closeTo (d d2 : Nat) (st : BState) (hd : d ≤ d2) :
    closeTo d (closeTo d2 st) = closeTo d st :=
  closeTo_closeTo_aux st.stack.length st le_rfl d d2 hd

theorem ObjList.ofList_toList (l : ObjList) : ObjList.ofList l.toList = l := by
  match l with
  | .nil => rfl
  | .cons o t => simp [ObjList.toList, ObjList.ofList, ObjList.ofList_toList t]

theorem spineB_nil_children (core : BlockCore) : spineB ⟨core, []⟩ = [⟨core, []⟩] := by
  rw [spineB.eq_def]
  rfl

theorem spineB_last_ref (b : Block) (r : RefData)
    (hl : b.children.getLast? = some (.ref r)) : spineB b = [b] := by
  rw [spineB.eq_def, hl]

theorem spineB_last_wall (b : Block) (w : WallData)
    (hl : b.children.getLast? = some (.wall w)) : spineB b = [b] := by
  rw [spineB.eq_def, hl]

theorem spineB_last_floor (b : Block) (f : FloorData)
    (hl : b.children.getLast? = some (.floor f)) : spineB b = [b] := by
  rw [spineB.eq_def, hl]

theorem spineB_last_block (b : Block) (core : BlockCore) (cs : ObjList)
    (hl : b.children.getLast? = some (.block core cs)) :
    spineB b = spineB ⟨core, cs.toList⟩ ++ [⟨b.core, b.children.dropLast⟩] := by
  rw [spineB.eq_def, hl]

theorem closeOne_cons_cons (R : List Block) (b1 b2 : Block) (S : List Block) :
    closeOne ⟨R, b1 :: b2 :: S⟩ =
      ⟨R, { b2 with children := b2.children ++ [b1.toObj] } :: S⟩ := rfl

theorem closeTo_spine_aux : ∀ (n : Nat) (b : Block), sizeOf b.children ≤ n →
    ∀ (R : List Block) (S : List Block),
    closeTo (S.length + 1) ⟨R, spineB b ++ S⟩ = ⟨R, b :: S⟩ := by
  intro n
  induction n with
  | zero =>
    intro b hb R S
    cases hc : b.children with
    | nil => simp [hc] at hb
    | cons o t => simp [hc] at hb
  | succ n ih =>
    intro b hb R S
    cases hl : b.children.getLast? with
    | none =>
      have hnil : b.children = [] := by
        cases hc : b.children with
        | nil => rfl
        | cons o t =>
          rw [hc] at hl
          simp at hl
      rw [show spineB b = [b] by
        rw [spineB.eq_def, hl]]
      exact closeTo_of_le _ _ (by simp)
    | some o =>
      obtain ⟨ys, hys⟩ := List.getLast?_eq_some_iff.1 hl
      cases o with
      | ref r =>
        rw [spineB_last_ref b r hl]
        exact closeTo_of_le _ _ (by simp)
      | wall w =>
        rw [spineB_last_wall b w hl]
        exact closeTo_of_le _ _ (by simp)
      | floor f =>
        rw [spineB_last_floor b f hl]
        exact closeTo_of_le _ _ (by simp)
      | block core cs =>
        rw [spineB_last_block b core cs hl]
        have hmem : (Obj.block core cs) ∈ b.children := by
          rw [hys]
          simp
        have h1 : sizeOf (Obj.block core cs) < sizeOf b.children :=
          List.sizeOf_lt_of_mem hmem
        have h2 : sizeOf cs < sizeOf (Obj.block core cs) := by simp
        have hsz : sizeOf (⟨core, cs.toList⟩ : Block).children ≤ n := by
          show sizeOf cs.toList ≤ n
          rw [ObjList.sizeOf_toList]
          omega
        have hIH := ih ⟨core, cs.toList⟩ hsz R
          (⟨b.core, b.children.dropLast⟩ :: S)
        rw [List.append_assoc, List.singleton_append]
        have hlen : ((⟨b.core, b.children.dropLast⟩ : Block) :: S).length + 1
            = S.length + 2 := by simp
        rw [hlen] at hIH
        rw [← closeTo_closeTo (S.length + 1) (S.length + 2) _ (by omega), hIH]
        rw [closeTo_step _ _ (by simp)]
        rw [closeOne_cons_cons]
        have hobj : (⟨core, cs.toList⟩ : Block).toObj = Obj.block core cs := by
          rw [Block.toObj]
          show Obj.block core (ObjList.ofList cs.toList) = Obj.block core cs
          rw [ObjList.ofList_toList]
        have hbb : Block.mk b.core (b.children.dropLast ++
            [(⟨core, cs.toList⟩ : Block).toObj]) = b := by
          rw [hobj, hys, List.dropLast_concat, ← hys]
        show closeTo (S.length + 1) ⟨R, Block.mk b.core (b.children.dropLast ++
          [(⟨core, cs.toList⟩ : Block).toObj]) :: S⟩ = ⟨R, b :: S⟩
        rw [hbb]
        exact closeTo_of_le _ _ (by simp)

theorem closeTo_spine (b : Block) (R S : List Block) :
    closeTo (S.length + 1) ⟨R, spineB b ++ S⟩ = ⟨R, b :: S⟩ :=
  closeTo_spine_aux (sizeOf b.children) b le_rfl R S

theorem closeTo_zero_spine (b : Block) (R : List Block) :
    closeTo 0 ⟨R, spineB b⟩ = ⟨R ++ [b], []⟩ := by
  have h1 := closeTo_spine b R []
  rw [List.append_nil] at h1
  simp only [List.length_nil, Nat.zero_add] at h1
  rw [← closeTo_closeTo 0 1 ⟨R, spineB b⟩ (by omega), h1]
  rw [closeTo_step 0 _ (by simp)]
  rw [show closeOne ⟨R, [b]⟩ = ⟨R ++ [b], []⟩ from rfl]
  exact closeTo_of_le _ _ (by simp)

theorem wfFloat_spec (q : ℚ) (h : wfFloat q = true) :
    isDecimalRat q = true ∧ (q.num = 0 ∨ inPlainRange q = true) := by
  simpa [wfFloat, Bool.and_eq_true, Bool.or_eq_true, decide_eq_true_eq] using h

theorem toFloat_fmt (q : ℚ) (h : wfFloat q = true) (fb : ℚ) :
    toFloat (some (fmt q)) fb = q := by
  obtain ⟨h1, h2⟩ := wfFloat_spec q h
  rw [fmt_eq_jsNumStr q h1 h2]
  exact toFloat_jsNumStr q h1 h2 fb

theorem fmt_ne_nil (q : ℚ) (h : wfFloat q = true) : fmt q ≠ [] := by
  obtain ⟨h1, h2⟩ := wfFloat_spec q h
  rw [fmt_eq_jsNumStr q h1 h2]
  exact jsNumStr_ne_nil q

theorem fmt_nonws (q : ℚ) (h : wfFloat q = true) : ∀ c ∈ fmt q, jsWs c = false := by
  obtain ⟨h1, h2⟩ := wfFloat_spec q h
  rw [fmt_eq_jsNumStr q h1 h2]
  exact jsNumStr_nonws q h1 h2

theorem boolTok_ne_nil (b : Bool) : boolTok b ≠ [] := by
  cases b <;> decide

theorem boolTok_nonws (b : Bool) : ∀ c ∈ boolTok b, jsWs c = false := by
  cases b <;> decide

theorem toBool01_boolTok (b : Bool) : toBool01 (some (boolTok b)) 0 = b := by
  cases b <;> decide

theorem wfCore_spec (c : BlockCore) (h : wfCore c = true) :
    c.x.natAbs < 10 ^ 21 ∧ c.y.natAbs < 10 ^ 21 ∧ c.id.natAbs < 10 ^ 21 ∧
    c.width.natAbs < 10 ^ 21 ∧ c.height.natAbs < 10 ^ 21 ∧
    wfFloat c.hue = true ∧ wfFloat c.sat = true ∧ wfFloat c.val = true ∧
    wfFloat c.zoomfactor = true ∧ c.playerorder.natAbs < 10 ^ 21 ∧
    c.specialeffect.natAbs < 10 ^ 21 := by
  simp only [wfCore, Bool.and_eq_true, wfInt, decide_eq_true_eq] at h
  obtain ⟨⟨⟨⟨⟨⟨⟨⟨⟨⟨⟨⟨hw0, hh0⟩, hx⟩, hy⟩, hid⟩, hwd⟩, hht⟩, hhu⟩, hsa⟩,
    hva⟩, hzo⟩, hpo⟩, hse⟩ := h
  exact ⟨hx, hy, hid, hwd, hht, hhu, hsa, hva, hzo, hpo, hse⟩

theorem wfRefData_spec (r : RefData) (h : wfRefData r = true) :
    r.x.natAbs < 10 ^ 21 ∧ r.y.natAbs < 10 ^ 21 ∧ r.id.natAbs < 10 ^ 21 ∧
    r.infexitnum.natAbs < 10 ^ 21 ∧ r.infenternum.natAbs < 10 ^ 21 ∧
    r.infenterid.natAbs < 10 ^ 21 ∧ r.playerorder.natAbs < 10 ^ 21 ∧
    r.specialeffect.natAbs < 10 ^ 21 := by
  simp only [wfRefData, Bool.and_eq_true, wfInt, decide_eq_true_eq] at h
  obtain ⟨⟨⟨⟨⟨⟨⟨hx, hy⟩, hid⟩, hxe⟩, hen⟩, hei⟩, hpo⟩, hse⟩ := h
  exact ⟨hx, hy, hid, hxe, hen, hei, hpo, hse⟩

theorem wfWallData_spec (w : WallData) (h : wfWallData w = true) :
    w.x.natAbs < 10 ^ 21 ∧ w.y.natAbs < 10 ^ 21 ∧ w.playerorder.natAbs < 10 ^ 21 := by
  simp only [wfWallData, Bool.and_eq_true, wfInt, decide_eq_true_eq] at h
  obtain ⟨⟨hx, hy⟩, hpo⟩ := h
  exact ⟨hx, hy, hpo⟩

theorem joinSp_facts (t0 : Str) (rest : List Str) (h0 : t0 ≠ [])
    (hclean : ∀ t ∈ t0 :: rest, t ≠ [] ∧ ∀ c ∈ t, jsWs c = false) :
    jsTrim (joinSp (t0 :: rest)) = joinSp (t0 :: rest) ∧
    joinSp (t0 :: rest) ≠ [] ∧
    (joinSp (t0 :: rest)).head? = t0.head? ∧
    (∀ ch, (joinSp (t0 :: rest)).getLast? = some ch → jsWs ch = false) ∧
    (∀ ch ∈ joinSp (t0 :: rest), jsWs ch = false ∨ ch = ' ') := by
  have hh := joinSp_head? t0 rest h0
  have hl := joinSp_getLast_nonws _ hclean
  have hch := joinSp_chars _ (fun t ht c hc => (hclean t ht).2 c hc)
  refine ⟨?_, joinSp_ne_nil t0 rest h0, hh, hl, hch⟩
  refine jsTrim_eq_self _ ?_ hl
  intro ch hc
  rw [hh] at hc
  obtain ⟨a, t2, rfl⟩ := List.exists_cons_of_ne_nil h0
  injection hc with hc
  subst hc
  exact (hclean (a :: t2) (by simp)).2 a (by simp)

theorem tabDepth_indent (d : Nat) (line : Str)
    (hh : ∀ c, line.head? = some c → c ≠ '\t') :
    tabDepth (indentTabs d ++ line) = d := by
  rw [tabDepth, indentTabs]
  induction d with
  | zero =>
    simp only [List.replicate_zero, List.nil_append]
    cases line with
    | nil => rfl
    | cons a t =>
      rw [List.takeWhile_cons]
      rw [show decide (a = '\t') = false by simp [hh a rfl]]
      rfl
  | succ d2 ih =>
    rw [List.replicate_succ, List.cons_append, List.takeWhile_cons]
    rw [if_pos (by decide)]
    simpa using ih

theorem dropTabs_indent (d : Nat) (line : Str)
    (hh : ∀ c, line.head? = some c → c ≠ '\t') :
    (indentTabs d ++ line).dropWhile (fun c => c = '\t') = line := by
  rw [indentTabs]
  induction d with
  | zero =>
    simp only [List.replicate_zero, List.nil_append]
    cases line with
    | nil => rfl
    | cons a t =>
      rw [List.dropWhile_cons]
      rw [show decide (a = '\t') = false by simp [hh a rfl]]
      rfl
  | succ d2 ih =>
    rw [List.replicate_succ, List.cons_append, List.dropWhile_cons]
    rw [if_pos (by decide)]
    exact ih

theorem jsTrim_indent (d : Nat) (line : Str)
    (hh : ∀ c, line.head? = some c → jsWs c = false)
    (hl : ∀ c, line.getLast? = some c → jsWs c = false) :
    jsTrim (indentTabs d ++ line) = line := by
  rw [jsTrim]
  have hdrop : (indentTabs d ++ line).dropWhile jsWs = line := by
    rw [indentTabs]
    induction d with
    | zero =>
      simp only [List.replicate_zero, List.nil_append]
      exact dropWhile_eq_self_of_head jsWs line hh
    | succ d2 ih =>
      rw [List.replicate_succ, List.cons_append, List.dropWhile_cons]
      rw [if_pos (by decide)]
      exact ih
  rw [hdrop, stripTrailing_eq_self_of_last _ _ hl]

theorem blockLine_clean (c : BlockCore) (hwf : wfCore c = true) :
    ∀ t ∈ ["Block".toList, intTok c.x, intTok c.y, intTok c.id, intTok c.width,
      intTok c.height, fmt c.hue, fmt c.sat, fmt c.val, fmt c.zoomfactor,
      boolTok c.fillwithwalls, boolTok c.player, boolTok c.possessable,
      intTok c.playerorder, boolTok c.fliph, boolTok c.floatinspace,
      intTok c.specialeffect], t ≠ [] ∧ ∀ ch ∈ t, jsWs ch = false := by
  obtain ⟨hx, hy, hid, hwd, hht, hhu, hsa, hva, hzo, hpo, hse⟩ := wfCore_spec c hwf
  intro t ht
  simp only [List.mem_cons, List.not_mem_nil, or_false] at ht
  rcases ht with rfl | rfl | rfl | rfl | rfl | rfl | rfl | rfl | rfl | rfl | rfl |
    rfl | rfl | rfl | rfl | rfl | rfl
  · exact ⟨by decide, by decide⟩
  · exact ⟨intTok_ne_nil _, intTok_nonws _ hx⟩
  · exact ⟨intTok_ne_nil _, intTok_nonws _ hy⟩
  · exact ⟨intTok_ne_nil _, intTok_nonws _ hid⟩
  · exact ⟨intTok_ne_nil _, intTok_nonws _ hwd⟩
  · exact ⟨intTok_ne_nil _, intTok_nonws _ hht⟩
  · exact ⟨fmt_ne_nil _ hhu, fmt_nonws _ hhu⟩
  · exact ⟨fmt_ne_nil _ hsa, fmt_nonws _ hsa⟩
  · exact ⟨fmt_ne_nil _ hva, fmt_nonws _ hva⟩
  · exact ⟨fmt_ne_nil _ hzo, fmt_nonws _ hzo⟩
  · exact ⟨boolTok_ne_nil _, boolTok_nonws _⟩
  · exact ⟨boolTok_ne_nil _, boolTok_nonws _⟩
  · exact ⟨boolTok_ne_nil _, boolTok_nonws _⟩
  · exact ⟨intTok_ne_nil _, intTok_nonws _ hpo⟩
  · exact ⟨boolTok_ne_nil _, boolTok_nonws _⟩
  · exact ⟨boolTok_ne_nil _, boolTok_nonws _⟩
  · exact ⟨intTok_ne_nil _, intTok_nonws _ hse⟩

theorem tokenize_blockLine (c : BlockCore) (hwf : wfCore c = true) :
    tokenize (blockLine c) =
      ["Block".toList, intTok c.x, intTok c.y, intTok c.id, intTok c.width,
       intTok c.height, fmt c.hue, fmt c.sat, fmt c.val, fmt c.zoomfactor,
       boolTok c.fillwithwalls, boolTok c.player, boolTok c.possessable,
       intTok c.playerorder, boolTok c.fliph, boolTok c.floatinspace,
       intTok c.specialeffect] := by
  rw [blockLine]
  exact tokenize_joinSp _ (blockLine_clean c hwf)

theorem blockLine_facts (c : BlockCore) (hwf : wfCore c = true) :
    jsTrim (blockLine c) = blockLine c ∧ blockLine c ≠ [] ∧
    (blockLine c).head? = some 'B' ∧
    (∀ ch, (blockLine c).getLast? = some ch → jsWs ch = false) ∧
    (∀ ch ∈ blockLine c, jsWs ch = false ∨ ch = ' ') := by
  have h := joinSp_facts "Block".toList _ (by decide) (blockLine_clean c hwf)
  exact ⟨h.1, h.2.1, h.2.2.1, h.2.2.2.1, h.2.2.2.2⟩

theorem parseObject_block (c : BlockCore) (hwf : wfCore c = true) (ln : Nat) :
    parseObject "Block".toList [intTok c.x, intTok c.y, intTok c.id,
      intTok c.width, intTok c.height, fmt c.hue, fmt c.sat, fmt c.val,
      fmt c.zoomfactor, boolTok c.fillwithwalls, boolTok c.player,
      boolTok c.possessable, intTok c.playerorder, boolTok c.fliph,
      boolTok c.floatinspace, intTok c.specialeffect] ln = .ok (.block c .nil) := by
  obtain ⟨hx, hy, hid, hwd, hht, hhu, hsa, hva, hzo, hpo, hse⟩ := wfCore_spec c hwf
  simp only [parseObject]
  rw [if_pos (by trivial)]
  simp only [List.getElem?_cons_zero, List.getElem?_cons_succ]
  rw [toInt_intTok _ hx, toInt_intTok _ hy, toInt_intTok _ hid,
    toInt_intTok _ hwd, toInt_intTok _ hht, toFloat_fmt _ hhu, toFloat_fmt _ hsa,
    toFloat_fmt _ hva, toFloat_fmt _ hzo, toBool01_boolTok, toBool01_boolTok,
    toBool01_boolTok, toInt_intTok _ hpo, toBool01_boolTok, toBool01_boolTok,
    toInt_intTok _ hse]

theorem bodyStep_blockLine (i dd : Nat) (c : BlockCore) (hwf : wfCore c = true)
    (st st1 : BState) (hclose : closeTo dd st = st1)
    (hlen : ¬st1.stack.length < dd) :
    bodyStep i (indentTabs dd ++ blockLine c) st =
      .ok ⟨st1.roots, (⟨c, []⟩ : Block) :: st1.stack⟩ := by
  obtain ⟨htrim, hne, hhead, hlast, hchars⟩ := blockLine_facts c hwf
  have hhw : ∀ ch, (blockLine c).head? = some ch → jsWs ch = false := by
    intro ch hch
    rw [hhead] at hch
    injection hch with hch
    subst hch
    decide
  have hht : ∀ ch, (blockLine c).head? = some ch → ch ≠ '\t' := by
    intro ch hch
    rw [hhead] at hch
    injection hch with hch
    subst hch
    decide
  have hjt : jsTrim (indentTabs dd ++ blockLine c) = blockLine c :=
    jsTrim_indent dd _ hhw hlast
  have hbc : bodyContent (indentTabs dd ++ blockLine c) = blockLine c := by
    rw [bodyContent, dropTabs_indent dd _ hht, htrim]
  have htd : tabDepth (indentTabs dd ++ blockLine c) = dd :=
    tabDepth_indent dd _ hht
  simp only [bodyStep]
  rw [hjt, if_neg (by simpa using hne), hbc, if_neg (by simpa using hne),
    htd, hclose, if_neg hlen, tokenize_blockLine c hwf]
  simp only [List.headD_cons, List.tail_cons]
  rw [parseObject_block c hwf (i + 1)]
  rfl

theorem refLine_clean (r : RefData) (hwf : wfRefData r = true) :
    ∀ t ∈ ["Ref".toList, intTok r.x, intTok r.y, intTok r.id,
      boolTok r.exitblock, boolTok r.infexit, intTok r.infexitnum,
      boolTok r.infenter, intTok r.infenternum, intTok r.infenterid,
      boolTok r.player, boolTok r.possessable, intTok r.playerorder,
      boolTok r.fliph, boolTok r.floatinspace, intTok r.specialeffect],
      t ≠ [] ∧ ∀ ch ∈ t, jsWs ch = false := by
  obtain ⟨hx, hy, hid, hxe, hen, hei, hpo, hse⟩ := wfRefData_spec r hwf
  intro t ht
  simp only [List.mem_cons, List.not_mem_nil, or_false] at ht
  rcases ht with rfl | rfl | rfl | rfl | rfl | rfl | rfl | rfl | rfl | rfl | rfl |
    rfl | rfl | rfl | rfl | rfl
  · exact ⟨by decide, by decide⟩
  · exact ⟨intTok_ne_nil _, intTok_nonws _ hx⟩
  · exact ⟨intTok_ne_nil _, intTok_nonws _ hy⟩
  · exact ⟨intTok_ne_nil _, intTok_nonws _ hid⟩
  · exact ⟨boolTok_ne_nil _, boolTok_nonws _⟩
  · exact ⟨boolTok_ne_nil _, boolTok_nonws _⟩
  · exact ⟨intTok_ne_nil _, intTok_nonws _ hxe⟩
  · exact ⟨boolTok_ne_nil _, boolTok_nonws _⟩
  · exact ⟨intTok_ne_nil _, intTok_nonws _ hen⟩
  · exact ⟨intTok_ne_nil _, intTok_nonws _ hei⟩
  · exact ⟨boolTok_ne_nil _, boolTok_nonws _⟩
  · exact ⟨boolTok_ne_nil _, boolTok_nonws _⟩
  · exact ⟨intTok_ne_nil _, intTok_nonws _ hpo⟩
  · exact ⟨boolTok_ne_nil _, boolTok_nonws _⟩
  · exact ⟨boolTok_ne_nil _, boolTok_nonws _⟩
  · exact ⟨intTok_ne_nil _, intTok_nonws _ hse⟩

theorem tokenize_refLine (r : RefData) (hwf : wfRefData r = true) :
    tokenize (refLine r) =
      ["Ref".toList, intTok r.x, intTok r.y, intTok r.id,
       boolTok r.exitblock, boolTok r.infexit, intTok r.infexitnum,
       boolTok r.infenter, intTok r.infenternum, intTok r.infenterid,
       boolTok r.player, boolTok r.possessable, intTok r.playerorder,
       boolTok r.fliph, boolTok r.floatinspace, intTok r.specialeffect] := by
  rw [refLine]
  exact tokenize_joinSp _ (refLine_clean r hwf)

theorem refLine_facts (r : RefData) (hwf : wfRefData r = true) :
    jsTrim (refLine r) = refLine r ∧ refLine r ≠ [] ∧
    (refLine r).head? = some 'R' ∧
    (∀ ch, (refLine r).getLast? = some ch → jsWs ch = false) ∧
    (∀ ch ∈ refLine r, jsWs ch = false ∨ ch = ' ') := by
  have h := joinSp_facts "Ref".toList _ (by decide) (refLine_clean r hwf)
  exact ⟨h.1, h.2.1, h.2.2.1, h.2.2.2.1, h.2.2.2.2⟩

theorem parseObject_ref (r : RefData) (hwf : wfRefData r = true) (ln : Nat) :
    parseObject "Ref".toList [intTok r.x, intTok r.y, intTok r.id,
      boolTok r.exitblock, boolTok r.infexit, intTok r.infexitnum,
      boolTok r.infenter, intTok r.infenternum, intTok r.infenterid,
      boolTok r.player, boolTok r.possessable, intTok r.playerorder,
      boolTok r.fliph, boolTok r.floatinspace, intTok r.specialeffect] ln
      = .ok (.ref r) := by
  obtain ⟨hx, hy, hid, hxe, hen, hei, hpo, hse⟩ := wfRefData_spec r hwf
  simp only [parseObject]
  rw [if_neg (by decide), if_pos (by trivial)]
  simp only [List.getElem?_cons_zero, List.getElem?_cons_succ]
  rw [toInt_intTok _ hx, toInt_intTok _ hy, toInt_intTok _ hid,
    toBool01_boolTok, toBool01_boolTok, toInt_intTok _ hxe, toBool01_boolTok,
    toInt_intTok _ hen, toInt_intTok _ hei, toBool01_boolTok, toBool01_boolTok,
    toInt_intTok _ hpo, toBool01_boolTok, toBool01_boolTok, toInt_intTok _ hse]

theorem bodyStep_refLine (i dd : Nat) (r : RefData) (hwf : wfRefData r = true)
    (st st1 : BState) (p : Block) (ps : List Block)
    (hclose : closeTo dd st = st1) (hstk : st1.stack = p :: ps)
    (hlen : ¬st1.stack.length < dd) :
    bodyStep i (indentTabs dd ++ refLine r) st =
      .ok ⟨st1.roots, { p with children := p.children ++ [.ref r] } :: ps⟩ := by
  obtain ⟨htrim, hne, hhead, hlast, hchars⟩ := refLine_facts r hwf
  have hhw : ∀ ch, (refLine r).head? = some ch → jsWs ch = false := by
    intro ch hch
    rw [hhead] at hch
    injection hch with hch
    subst hch
    decide
  have hht : ∀ ch, (refLine r).head? = some ch → ch ≠ '\t' := by
    intro ch hch
    rw [hhead] at hch
    injection hch with hch
    subst hch
    decide
  have hjt : jsTrim (indentTabs dd ++ refLine r) = refLine r :=
    jsTrim_indent dd _ hhw hlast
  have hbc : bodyContent (indentTabs dd ++ refLine r) = refLine r := by
    rw [bodyContent, dropTabs_indent dd _ hht, htrim]
  have htd : tabDepth (indentTabs dd ++ refLine r) = dd :=
    tabDepth_indent dd _ hht
  simp only [bodyStep]
  rw [hjt, if_neg (by simpa using hne), hbc, if_neg (by simpa using hne),
    htd, hclose, if_neg hlen, tokenize_refLine r hwf]
  simp only [List.headD_cons, List.tail_cons]
  rw [parseObject_ref r hwf (i + 1)]
  dsimp only
  rw [hstk]

theorem processBody_chain (ls1 ls2 : List Str) (i : Nat) (st st2 : BState)
    (h : processBody i ls1 st = .ok st2) :
    processBody i (ls1 ++ ls2) st = processBody (i + ls1.length) ls2 st2 := by
  induction ls1 generalizing i st with
  | nil =>
    simp only [processBody] at h
    injection h with h
    subst h
    simp
  | cons l rest ih =>
    have harith : i + 1 + rest.length = i + (l :: rest).length := by
      simp only [List.length_cons]
      omega
    simp only [processBody] at h ⊢
    cases hs : bodyStep i l st with
    | error e =>
      rw [hs] at h
      simp at h
    | ok st3 =>
      rw [hs] at h
      dsimp only at h
      dsimp only
      simp only [List.append_eq]
      rw [ih (i + 1) st3 h, harith]

theorem wallLine_clean (w : WallData) (hwf : wfWallData w = true) :
    ∀ t ∈ ["Wall".toList, intTok w.x, intTok w.y, boolTok w.player,
      boolTok w.possessable, intTok w.playerorder],
      t ≠ [] ∧ ∀ ch ∈ t, jsWs ch = false := by
  obtain ⟨hx, hy, hpo⟩ := wfWallData_spec w hwf
  intro t ht
  simp only [List.mem_cons, List.not_mem_nil, or_false] at ht
  rcases ht with rfl | rfl | rfl | rfl | rfl | rfl
  · exact ⟨by decide, by decide⟩
  · exact ⟨intTok_ne_nil _, intTok_nonws _ hx⟩
  · exact ⟨intTok_ne_nil _, intTok_nonws _ hy⟩
  · exact ⟨boolTok_ne_nil _, boolTok_nonws _⟩
  · exact ⟨boolTok_ne_nil _, boolTok_nonws _⟩
  · exact ⟨intTok_ne_nil _, intTok_nonws _ hpo⟩

theorem tokenize_wallLine (w : WallData) (hwf : wfWallData w = true) :
    tokenize (wallLine w) =
      ["Wall".toList, intTok w.x, intTok w.y, boolTok w.player,
       boolTok w.possessable, intTok w.playerorder] := by
  rw [wallLine]
  exact tokenize_joinSp _ (wallLine_clean w hwf)

theorem wallLine_facts (w : WallData) (hwf : wfWallData w = true) :
    jsTrim (wallLine w) = wallLine w ∧ wallLine w ≠ [] ∧
    (wallLine w).head? = some 'W' ∧
    (∀ ch, (wallLine w).getLast? = some ch → jsWs ch = false) ∧
    (∀ ch ∈ wallLine w, jsWs ch = false ∨ ch = ' ') := by
  have h := joinSp_facts "Wall".toList _ (by decide) (wallLine_clean w hwf)
  exact ⟨h.1, h.2.1, h.2.2.1, h.2.2.2.1, h.2.2.2.2⟩

theorem parseObject_wall (w : WallData) (hwf : wfWallData w = true) (ln : Nat) :
    parseObject "Wall".toList [intTok w.x, intTok w.y, boolTok w.player,
      boolTok w.possessable, intTok w.playerorder] ln = .ok (.wall w) := by
  obtain ⟨hx, hy, hpo⟩ := wfWallData_spec w hwf
  simp only [parseObject]
  rw [if_neg (by decide), if_neg (by decide), if_pos (by trivial)]
  simp only [List.getElem?_cons_zero, List.getElem?_cons_succ]
  rw [toInt_intTok _ hx, toInt_intTok _ hy, toBool01_boolTok, toBool01_boolTok,
    toInt_intTok _ hpo]

theorem bodyStep_wallLine (i dd : Nat) (w : WallData) (hwf : wfWallData w = true)
    (st st1 : BState) (p : Block) (ps : List Block)
    (hclose : closeTo dd st = st1) (hstk : st1.stack = p :: ps)
    (hlen : ¬st1.stack.length < dd) :
    bodyStep i (indentTabs dd ++ wallLine w) st =
      .ok ⟨st1.roots, { p with children := p.children ++ [.wall w] } :: ps⟩ := by
  obtain ⟨htrim, hne, hhead, hlast, hchars⟩ := wallLine_facts w hwf
  have hhw : ∀ ch, (wallLine w).head? = some ch → jsWs ch = false := by
    intro ch hch
    rw [hhead] at hch
    injection hch with hch
    subst hch
    decide
  have hht : ∀ ch, (wallLine w).head? = some ch → ch ≠ '\t' := by
    intro ch hch
    rw [hhead] at hch
    injection hch with hch
    subst hch
    decide
  have hjt : jsTrim (indentTabs dd ++ wallLine w) = wallLine w :=
    jsTrim_indent dd _ hhw hlast
  have hbc : bodyContent (indentTabs dd ++ wallLine w) = wallLine w := by
    rw [bodyContent, dropTabs_indent dd _ hht, htrim]
  have htd : tabDepth (indentTabs dd ++ wallLine w) = dd :=
    tabDepth_indent dd _ hht
  simp only [bodyStep]
  rw [hjt, if_neg (by simpa using hne), hbc, if_neg (by simpa using hne),
    htd, hclose, if_neg hlen, tokenize_wallLine w hwf]
  simp only [List.headD_cons, List.tail_cons]
  rw [parseObject_wall w hwf (i + 1)]
  dsimp only
  rw [hstk]

theorem formatFloorType_spec (t : FloorType) (hwf : wfFloorType t = true) :
    formatFloorType t ≠ [] ∧
    (∀ ch ∈ formatFloorType t, jsWs ch = false ∨ ch = ' ') ∧
    (∀ ch, (formatFloorType t).getLast? = some ch → jsWs ch = false) ∧
    joinSp (tokenize (formatFloorType t)) = formatFloorType t ∧
    parseFloorType (formatFloorType t) = t := by
  cases t with
  | Button => exact ⟨by decide, by decide, by decide, by decide, by decide⟩
  | PlayerButton => exact ⟨by decide, by decide, by decide, by decide, by decide⟩
  | Break => exact ⟨by decide, by decide, by decide, by decide, by decide⟩
  | FastTravel => exact ⟨by decide, by decide, by decide, by decide, by decide⟩
  | Gallery => exact ⟨by decide, by decide, by decide, by decide, by decide⟩
  | DemoEnd => exact ⟨by decide, by decide, by decide, by decide, by decide⟩
  | Portal s =>
    have hcan : wfCanonical s = true := by simpa [wfFloorType] using hwf
    by_cases hs : s = []
    · subst hs
      exact ⟨by decide, by decide, by decide, by decide, by decide⟩
    · have htoks : tokenize s ≠ [] := by
        intro hc
        exact hs (by rw [canonical_eq s hcan, hc]; rfl)
      have hpay : formatFloorType (.Portal s) = "Portal".toList ++ ' ' :: s := by
        show jsTrimEnd ("Portal ".toList ++ s) = "Portal".toList ++ ' ' :: s
        rw [show ("Portal ".toList ++ s : Str) = "Portal".toList ++ ' ' :: s by
          rw [show ("Portal ".toList : Str) = "Portal".toList ++ [' '] by decide,
            List.append_assoc]
          rfl]
        rw [jsTrimEnd]
        refine stripTrailing_eq_self_of_last _ _ fun c hc => ?_
        rw [show ("Portal".toList ++ ' ' :: s : Str)
            = "Portal".toList ++ ([' '] ++ s) from rfl,
          getLast?_append_right _ _ (by simp),
          getLast?_append_right _ _ hs] at hc
        exact canonical_getLast_nonws s hcan c hc
      rw [hpay]
      have htok : tokenize ("Portal".toList ++ ' ' :: s)
          = "Portal".toList :: tokenize s :=
        keyLine_tokens _ _ (by decide) (by decide)
      refine ⟨by simp, ?_, ?_, ?_, ?_⟩
      · intro ch hch
        rcases List.mem_append.1 hch with h1 | h1
        · have hP : ∀ x ∈ ("Portal".toList : Str), jsWs x = false := by decide
          exact Or.inl (hP ch h1)
        · rcases List.mem_cons.1 h1 with rfl | h2
          · exact Or.inr rfl
          · exact canonical_chars s hcan ch h2
      · intro ch hch
        rw [show ("Portal".toList ++ ' ' :: s : Str)
            = "Portal".toList ++ ([' '] ++ s) from rfl,
          getLast?_append_right _ _ (by simp),
          getLast?_append_right _ _ hs] at hch
        exact canonical_getLast_nonws s hcan ch hch
      · rw [htok, joinSp_cons _ _ htoks, ← canonical_eq s hcan]
      · rw [parseFloorType, htok]
        simp only [List.head?_cons, List.headD_cons]
        rw [if_neg (by decide), if_neg (by decide), if_neg (by decide),
          if_neg (by decide), if_neg (by decide), if_neg (by decide),
          if_pos (by trivial)]
        rw [List.tail_cons, ← canonical_eq s hcan]
  | Info tx =>
    have hc : ∀ c ∈ tx, (jsWs c = false ∨ c = ' ') ∧ c ≠ '_' := by
      intro c hcm
      have := by simpa [wfFloorType, List.all_eq_true] using hwf
      have h2 := this c hcm
      simpa [Bool.and_eq_true, Bool.or_eq_true, Bool.not_eq_true'] using h2
    by_cases hs : tx = []
    · subst hs
      exact ⟨by decide, by decide, by decide, by decide, by decide⟩
    · have hmapne : tx.map (fun c => if c = ' ' then '_' else c) ≠ [] := by
        simpa using hs
      have hmapnw : ∀ ch ∈ tx.map (fun c => if c = ' ' then '_' else c),
          jsWs ch = false := by
        intro ch hch
        obtain ⟨c, hcm, rfl⟩ := List.mem_map.1 hch
        by_cases hsp : c = ' '
        · subst hsp
          rw [if_pos rfl]
          decide
        · rw [if_neg hsp]
          rcases (hc c hcm).1 with h | h
          · exact h
          · exact absurd h hsp
      have hpay : formatFloorType (.Info tx)
          = "Info".toList ++ ' ' :: tx.map (fun c => if c = ' ' then '_' else c) := by
        show jsTrimEnd ("Info ".toList ++ _) = _
        rw [show ("Info ".toList ++ tx.map (fun c => if c = ' ' then '_' else c) : Str)
            = "Info".toList ++ ' ' :: tx.map (fun c => if c = ' ' then '_' else c) by
          rw [show ("Info ".toList : Str) = "Info".toList ++ [' '] by decide,
            List.append_assoc]
          rfl]
        rw [jsTrimEnd]
        refine stripTrailing_eq_self_of_last _ _ fun c hcg => ?_
        rw [show ("Info".toList ++ ' ' :: tx.map (fun c => if c = ' ' then '_' else c) : Str)
            = "Info".toList ++ ([' '] ++ tx.map (fun c => if c = ' ' then '_' else c))
            from rfl,
          getLast?_append_right _ _ (by simp),
          getLast?_append_right _ _ hmapne] at hcg
        exact hmapnw c (mem_of_getLast?_eq_some hcg)
      rw [hpay]
      have htok : tokenize ("Info".toList ++ ' '
            :: tx.map (fun c => if c = ' ' then '_' else c))
          = ["Info".toList, tx.map (fun c => if c = ' ' then '_' else c)] := by
        rw [keyLine_tokens _ _ (by decide) (by decide),
          tokenize_single _ hmapne hmapnw]
      refine ⟨by simp, ?_, ?_, ?_, ?_⟩
      · intro ch hch
        rcases List.mem_append.1 hch with h1 | h1
        · have hI : ∀ x ∈ ("Info".toList : Str), jsWs x = false := by decide
          exact Or.inl (hI ch h1)
        · rcases List.mem_cons.1 h1 with rfl | h2
          · exact Or.inr rfl
          · exact Or.inl (hmapnw ch h2)
      · intro ch hch
        rw [show ("Info".toList ++ ' ' :: tx.map (fun c => if c = ' ' then '_' else c) : Str)
            = "Info".toList ++ ([' '] ++ tx.map (fun c => if c = ' ' then '_' else c))
            from rfl,
          getLast?_append_right _ _ (by simp),
          getLast?_append_right _ _ hmapne] at hch
        exact hmapnw ch (mem_of_getLast?_eq_some hch)
      · rw [htok]
        rw [joinSp_cons _ _ (by simp)]
        rfl
      · rw [parseFloorType, htok]
        simp only [List.head?_cons, List.headD_cons]
        rw [if_neg (by decide), if_neg (by decide), if_neg (by decide),
          if_neg (by decide), if_neg (by decide), if_neg (by decide),
          if_neg (by decide), if_pos (by trivial)]
        rw [List.tail_cons]
        have hback : (joinSp [tx.map (fun c => if c = ' ' then '_' else c)]).map
            (fun c => if c = '_' then ' ' else c) = tx := by
          show (tx.map (fun c => if c = ' ' then '_' else c)).map
            (fun c => if c = '_' then ' ' else c) = tx
          rw [List.map_map]
          have : tx.map ((fun c => if c = '_' then ' ' else c) ∘
              (fun c => if c = ' ' then '_' else c)) = tx.map id := by
            refine List.map_congr_left fun c hcm => ?_
            by_cases hsp : c = ' '
            · subst hsp
              simp
            · simp only [Function.comp_apply, if_neg hsp, if_neg (hc c hcm).2]
              rfl
          rw [this, List.map_id]
        rw [hback]
  | Unknown raw =>
    have h4 := hwf
    simp only [wfFloorType, Bool.and_eq_true] at h4
    have hne : ¬raw.isEmpty = true := by simpa using h4.1.1
    have hcan : wfCanonical raw = true := h4.1.2
    have hkw := h4.2
    have hrawne : raw ≠ [] := by simpa using hne
    have htoks : tokenize raw ≠ [] := by
      intro hcc
      exact hrawne (by rw [canonical_eq raw hcan, hcc]; rfl)
    obtain ⟨h0, trest, htr⟩ := List.exists_cons_of_ne_nil htoks
    rw [htr] at hkw
    simp only [List.head?_cons] at hkw
    have hnotmem : h0 ∉ floorKeywords := by simpa using hkw
    simp only [floorKeywords, List.mem_cons, List.not_mem_nil, or_false,
      not_or] at hnotmem
    obtain ⟨hk1, hk2, hk3, hk4, hk5, hk6, hk7, hk8⟩ := hnotmem
    refine ⟨hrawne, ?_, ?_, ?_, ?_⟩
    · intro ch hch
      exact canonical_chars raw hcan ch hch
    · exact canonical_getLast_nonws raw hcan
    · exact (canonical_eq raw hcan).symm
    · show parseFloorType raw = FloorType.Unknown raw
      rw [parseFloorType, htr]
      simp only [List.head?_cons]
      rw [if_neg hk1, if_neg hk2, if_neg hk3, if_neg hk4, if_neg hk5,
        if_neg hk6, if_neg hk7, if_neg hk8]

theorem wfFloorData_spec (f : FloorData) (h : wfObj (.floor f) = true) :
    f.x.natAbs < 10 ^ 21 ∧ f.y.natAbs < 10 ^ 21 ∧ wfFloorType f.type = true := by
  simp only [wfObj, Bool.and_eq_true, wfInt, decide_eq_true_eq] at h
  exact ⟨h.1.1, h.1.2, h.2⟩

theorem getLast?_key_chain (w : Str) (p : Str) (hp : p ≠ []) :
    (w ++ ' ' :: p).getLast? = p.getLast? := by
  rw [show (w ++ ' ' :: p : Str) = w ++ ([' '] ++ p) from rfl,
    getLast?_append_right _ _ (by simp), getLast?_append_right _ _ hp]

theorem tokenize_floorLine (f : FloorData)
    (hx : f.x.natAbs < 10 ^ 21) (hy : f.y.natAbs < 10 ^ 21) :
    tokenize (floorLine f) = "Floor".toList :: intTok f.x :: intTok f.y ::
      tokenize (formatFloorType f.type) := by
  rw [show floorLine f = "Floor".toList ++ ' ' :: (intTok f.x ++ ' ' ::
    (intTok f.y ++ ' ' :: formatFloorType f.type)) from rfl]
  rw [tokenize_append_space, tokenize_append_space, tokenize_append_space]
  rw [tokenize_single "Floor".toList (by decide) (by decide),
    tokenize_single _ (intTok_ne_nil _) (intTok_nonws _ hx),
    tokenize_single _ (intTok_ne_nil _) (intTok_nonws _ hy)]
  rfl

theorem floorLine_facts (f : FloorData)
    (hx : f.x.natAbs < 10 ^ 21) (hy : f.y.natAbs < 10 ^ 21)
    (hwft : wfFloorType f.type = true) :
    jsTrim (floorLine f) = floorLine f ∧ floorLine f ≠ [] ∧
    (floorLine f).head? = some 'F' ∧
    (∀ ch, (floorLine f).getLast? = some ch → jsWs ch = false) ∧
    (∀ ch ∈ floorLine f, jsWs ch = false ∨ ch = ' ') := by
  obtain ⟨hne, hch, hlastp, hjoin, hparse⟩ := formatFloorType_spec f.type hwft
  have hshape : floorLine f = "Floor".toList ++ ' ' :: (intTok f.x ++ ' ' ::
      (intTok f.y ++ ' ' :: formatFloorType f.type)) := rfl
  have hlast : ∀ ch, (floorLine f).getLast? = some ch → jsWs ch = false := by
    intro ch hc
    rw [hshape, getLast?_key_chain _ _ (by simp), getLast?_key_chain _ _ (by simp),
      getLast?_key_chain _ _ hne] at hc
    exact hlastp ch hc
  have hhd : (floorLine f).head? = some 'F' := by
    rw [hshape]
    rfl
  have hchars : ∀ ch ∈ floorLine f, jsWs ch = false ∨ ch = ' ' := by
    intro ch hc
    rw [hshape] at hc
    rcases List.mem_append.1 hc with h1 | h1
    · have hF : ∀ x ∈ ("Floor".toList : Str), jsWs x = false := by decide
      exact Or.inl (hF ch h1)
    · rcases List.mem_cons.1 h1 with rfl | h2
      · exact Or.inr rfl
      · rcases List.mem_append.1 h2 with h3 | h3
        · exact Or.inl (intTok_nonws _ hx ch h3)
        · rcases List.mem_cons.1 h3 with rfl | h4
          · exact Or.inr rfl
          · rcases List.mem_append.1 h4 with h5 | h5
            · exact Or.inl (intTok_nonws _ hy ch h5)
            · rcases List.mem_cons.1 h5 with rfl | h6
              · exact Or.inr rfl
              · exact hch ch h6
  refine ⟨?_, by rw [hshape]; simp, hhd, hlast, hchars⟩
  refine jsTrim_eq_self _ ?_ hlast
  intro ch hc
  rw [hhd] at hc
  injection hc with hc
  subst hc
  decide

theorem parseObject_floor (f : FloorData)
    (hx : f.x.natAbs < 10 ^ 21) (hy : f.y.natAbs < 10 ^ 21)
    (hwft : wfFloorType f.type = true) (ln : Nat) :
    parseObject "Floor".toList (intTok f.x :: intTok f.y ::
      tokenize (formatFloorType f.type)) ln = .ok (.floor f) := by
  obtain ⟨hne, hch, hlastp, hjoin, hparse⟩ := formatFloorType_spec f.type hwft
  simp only [parseObject]
  rw [if_neg (by decide), if_neg (by decide), if_neg (by decide),
    if_pos (by trivial)]
  simp only [List.getElem?_cons_zero, List.getElem?_cons_succ]
  rw [toInt_intTok _ hx, toInt_intTok _ hy]
  rw [show (intTok f.x :: intTok f.y :: tokenize (formatFloorType f.type)).drop 2
      = tokenize (formatFloorType f.type) from rfl]
  rw [hjoin, hparse]

theorem bodyStep_floorLine (i dd : Nat) (f : FloorData)
    (hwf : wfObj (.floor f) = true)
    (st st1 : BState) (p : Block) (ps : List Block)
    (hclose : closeTo dd st = st1) (hstk : st1.stack = p :: ps)
    (hlen : ¬st1.stack.length < dd) :
    bodyStep i (indentTabs dd ++ floorLine f) st =
      .ok ⟨st1.roots, { p with children := p.children ++ [.floor f] } :: ps⟩ := by
  obtain ⟨hx, hy, hwft⟩ := wfFloorData_spec f hwf
  obtain ⟨htrim, hne, hhead, hlast, hchars⟩ := floorLine_facts f hx hy hwft
  have hhw : ∀ ch, (floorLine f).head? = some ch → jsWs ch = false := by
    intro ch hch
    rw [hhead] at hch
    injection hch with hch
    subst hch
    decide
  have hht : ∀ ch, (floorLine f).head? = some ch → ch ≠ '\t' := by
    intro ch hch
    rw [hhead] at hch
    injection hch with hch
    subst hch
    decide
  have hjt : jsTrim (indentTabs dd ++ floorLine f) = floorLine f :=
    jsTrim_indent dd _ hhw hlast
  have hbc : bodyContent (indentTabs dd ++ floorLine f) = floorLine f := by
    rw [bodyContent, dropTabs_indent dd _ hht, htrim]
  have htd : tabDepth (indentTabs dd ++ floorLine f) = dd :=
    tabDepth_indent dd _ hht
  simp only [bodyStep]
  rw [hjt, if_neg (by simpa using hne), hbc, if_neg (by simpa using hne),
    htd, hclose, if_neg hlen, tokenize_floorLine f hx hy]
  simp only [List.headD_cons, List.tail_cons]
  rw [parseObject_floor f hx hy hwft (i + 1)]
  dsimp only
  rw [hstk]

theorem wfObjList_cons_spec (o : Obj) (t : ObjList)
    (h : wfObjList (.cons o t) = true) : wfObj o = true ∧ wfObjList t = true := by
  simpa [wfObjList, Bool.and_eq_true] using h

theorem processList_aux : ∀ (n : Nat) (cs : ObjList), sizeOf cs ≤ n →
    wfObjList cs = true →
    ∀ (d : Nat) (R : List Block) (b : Block) (S : List Block) (i : Nat),
    S.length = d →
    processBody i (emitList cs (d + 1)) ⟨R, spineB b ++ S⟩ =
      .ok ⟨R, spineB ⟨b.core, b.children ++ cs.toList⟩ ++ S⟩ := by
  intro n
  induction n with
  | zero =>
    intro cs hcs
    cases cs with
    | nil => simp at hcs
    | cons o t => simp at hcs
  | succ n ih =>
    intro cs hcs hwf d R b S i hS
    cases cs with
    | nil =>
      show processBody i [] _ = _
      simp only [processBody]
      have hbb : (⟨b.core, b.children ++ ObjList.toList ObjList.nil⟩ : Block)
          = b := by
        show (⟨b.core, b.children ++ []⟩ : Block) = b
        rw [List.append_nil]
      rw [hbb]
    | cons o t =>
      obtain ⟨hwfo, hwft⟩ := wfObjList_cons_spec o t hwf
      have hszt : sizeOf t ≤ n := by
        have hh : sizeOf (ObjList.cons o t) = 1 + sizeOf o + sizeOf t := by simp
        omega
      have hclose : closeTo (d + 1) ⟨R, spineB b ++ S⟩ = ⟨R, b :: S⟩ := by
        rw [← hS]
        exact closeTo_spine b R S
      have hlen : ¬(⟨R, b :: S⟩ : BState).stack.length < d + 1 := by
        simp only [List.length_cons, hS]
        omega
      have harr : b.children ++ (ObjList.cons o t).toList
          = (b.children ++ [o]) ++ t.toList := by
        show b.children ++ (o :: t.toList) = (b.children ++ [o]) ++ t.toList
        simp [List.append_assoc]
      cases o with
      | ref r =>
        show processBody i ((indentTabs (d + 1) ++ refLine r) :: emitList t (d + 1))
          _ = _
        simp only [processBody]
        rw [bodyStep_refLine i (d + 1) r hwfo _ ⟨R, b :: S⟩ b S hclose rfl hlen]
        dsimp only
        have hsp : spineB ⟨b.core, b.children ++ [Obj.ref r]⟩
            = [⟨b.core, b.children ++ [Obj.ref r]⟩] :=
          spineB_last_ref _ r (List.getLast?_concat _)
        have hrec := ih t hszt hwft d R ⟨b.core, b.children ++ [Obj.ref r]⟩ S
          (i + 1) hS
        rw [hsp] at hrec
        simp only [List.singleton_append] at hrec
        rw [harr]
        exact hrec
      | wall w =>
        show processBody i ((indentTabs (d + 1) ++ wallLine w) :: emitList t (d + 1))
          _ = _
        simp only [processBody]
        rw [bodyStep_wallLine i (d + 1) w hwfo _ ⟨R, b :: S⟩ b S hclose rfl hlen]
        dsimp only
        have hsp : spineB ⟨b.core, b.children ++ [Obj.wall w]⟩
            = [⟨b.core, b.children ++ [Obj.wall w]⟩] :=
          spineB_last_wall _ w (List.getLast?_concat _)
        have hrec := ih t hszt hwft d R ⟨b.core, b.children ++ [Obj.wall w]⟩ S
          (i + 1) hS
        rw [hsp] at hrec
        simp only [List.singleton_append] at hrec
        rw [harr]
        exact hrec
      | floor f =>
        show processBody i ((indentTabs (d + 1) ++ floorLine f) :: emitList t (d + 1))
          _ = _
        simp only [processBody]
        rw [bodyStep_floorLine i (d + 1) f hwfo _ ⟨R, b :: S⟩ b S hclose rfl hlen]
        dsimp only
        have hsp : spineB ⟨b.core, b.children ++ [Obj.floor f]⟩
            = [⟨b.core, b.children ++ [Obj.floor f]⟩] :=
          spineB_last_floor _ f (List.getLast?_concat _)
        have hrec := ih t hszt hwft d R ⟨b.core, b.children ++ [Obj.floor f]⟩ S
          (i + 1) hS
        rw [hsp] at hrec
        simp only [List.singleton_append] at hrec
        rw [harr]
        exact hrec
      | block core cs2 =>
        have hwfb : wfCore core = true ∧ wfObjList cs2 = true := by
          simpa [wfObj, Bool.and_eq_true] using hwfo
        have hszc : sizeOf cs2 ≤ n := by
          have hh : sizeOf (ObjList.cons (Obj.block core cs2) t)
              = 1 + sizeOf (Obj.block core cs2) + sizeOf t := by simp
          have hh2 : sizeOf (Obj.block core cs2) = 1 + sizeOf core + sizeOf cs2 := by
            simp
          omega
        show processBody i (((indentTabs (d + 1) ++ blockLine core) ::
          emitList cs2 (d + 1 + 1)) ++ emitList t (d + 1)) _ = _
        rw [List.cons_append]
        simp only [processBody]
        rw [bodyStep_blockLine i (d + 1) core hwfb.1 _ ⟨R, b :: S⟩ hclose hlen]
        dsimp only
        have hch := ih cs2 hszc hwfb.2 (d + 1) R ⟨core, []⟩ (b :: S) (i + 1)
          (by simp [hS])
        rw [spineB_nil_children] at hch
        simp only [List.singleton_append, List.nil_append] at hch
        rw [processBody_chain _ _ _ _ _ hch]
        have hsp2 : spineB ⟨b.core, b.children ++ [Obj.block core cs2]⟩
            = spineB ⟨core, cs2.toList⟩ ++ [b] := by
          rw [spineB_last_block ⟨b.core, b.children ++ [Obj.block core cs2]⟩ core
            cs2 (List.getLast?_concat _)]
          show spineB ⟨core, cs2.toList⟩ ++
            [⟨b.core, (b.children ++ [Obj.block core cs2]).dropLast⟩] = _
          rw [List.dropLast_concat]
        have hrec := ih t hszt hwft d R
          ⟨b.core, b.children ++ [Obj.block core cs2]⟩ S
          (i + 1 + (emitList cs2 (d + 1 + 1)).length) hS
        rw [hsp2] at hrec
        simp only [List.append_assoc, List.singleton_append] at hrec
        exact hrec

theorem wfBlock_spec (b : Block) (h : wfBlock b = true) :
    wfCore b.core = true ∧ wfObjList (ObjList.ofList b.children) = true := by
  simpa [wfBlock, Block.toObj, wfObj, Bool.and_eq_true] using h

theorem processRoots : ∀ (rs : List Block) (R : List Block) (b : Block) (i : Nat),
    (∀ r ∈ rs, wfBlock r = true) →
    ∃ st, processBody i (rs.flatMap fun r => emitObj r.toObj 0) ⟨R, spineB b⟩
        = .ok st ∧ closeTo 0 st = ⟨R ++ b :: rs, []⟩ := by
  intro rs
  induction rs with
  | nil =>
    intro R b i _
    refine ⟨⟨R, spineB b⟩, rfl, ?_⟩
    rw [closeTo_zero_spine]
  | cons r rs2 ih =>
    intro R b i hall
    obtain ⟨hwc, hwl⟩ := wfBlock_spec r (hall r (by simp))
    have hclose : closeTo 0 ⟨R, spineB b⟩ = ⟨R ++ [b], []⟩ := closeTo_zero_spine b R
    have hstep := bodyStep_blockLine i 0 r.core hwc ⟨R, spineB b⟩ ⟨R ++ [b], []⟩
      hclose (by simp)
    have hch := processList_aux (sizeOf (ObjList.ofList r.children)) _ le_rfl hwl
      0 (R ++ [b]) ⟨r.core, []⟩ [] (i + 1) rfl
    rw [spineB_nil_children] at hch
    simp only [List.append_nil, List.nil_append] at hch
    rw [ObjList.toList_ofList] at hch
    obtain ⟨st, hst, hcl⟩ := ih (R ++ [b]) r
      (i + 1 + (emitList (ObjList.ofList r.children) (0 + 1)).length)
      (fun x hx => hall x (by simp [hx]))
    refine ⟨st, ?_, ?_⟩
    · rw [List.flatMap_cons]
      rw [show emitObj r.toObj 0 = (indentTabs 0 ++ blockLine r.core) ::
        emitList (ObjList.ofList r.children) (0 + 1) from rfl]
      rw [List.cons_append]
      simp only [processBody]
      rw [hstep]
      dsimp only
      rw [processBody_chain _ _ _ _ _ hch]
      exact hst
    · rw [hcl]
      simp [List.append_assoc]

theorem indentLine_facts (d : Nat) (line : Str) (hne : line ≠ [])
    (hch : ∀ c ∈ line, jsWs c = false ∨ c = ' ')
    (hl : ∀ c, line.getLast? = some c → jsWs c = false) :
    (∀ c ∈ indentTabs d ++ line, c ≠ '\n' ∧ c ≠ '\r') ∧
    stripTrailingSpTab (indentTabs d ++ line) = indentTabs d ++ line := by
  constructor
  · intro c hc
    rcases List.mem_append.1 hc with h1 | h1
    · rw [indentTabs] at h1
      rw [List.eq_of_mem_replicate h1]
      exact ⟨by decide, by decide⟩
    · exact ws_or_space_crlf (hch c h1)
  · refine stripTrailingSpTab_eq_self _ fun c hc => ?_
    rw [getLast?_append_right _ _ hne] at hc
    exact hl c hc

theorem emitLines_facts : ∀ (n : Nat) (cs : ObjList), sizeOf cs ≤ n →
    wfObjList cs = true → ∀ d, ∀ ln ∈ emitList cs d,
    (∀ c ∈ ln, c ≠ '\n' ∧ c ≠ '\r') ∧ stripTrailingSpTab ln = ln := by
  intro n
  induction n with
  | zero =>
    intro cs hcs
    cases cs with
    | nil => simp at hcs
    | cons o t => simp at hcs
  | succ n ih =>
    intro cs hcs hwf d ln hln
    cases cs with
    | nil => simp [emitList] at hln
    | cons o t =>
      obtain ⟨hwfo, hwft⟩ := wfObjList_cons_spec o t hwf
      have hszt : sizeOf t ≤ n := by
        have hh : sizeOf (ObjList.cons o t) = 1 + sizeOf o + sizeOf t := by simp
        omega
      rw [show emitList (ObjList.cons o t) d = emitObj o d ++ emitList t d from rfl]
        at hln
      rcases List.mem_append.1 hln with h1 | h1
      · cases o with
        | ref r =>
          rw [show emitObj (Obj.ref r) d = [indentTabs d ++ refLine r] from rfl,
            List.mem_singleton] at h1
          subst h1
          obtain ⟨_, hne, _, hlast, hchars⟩ := refLine_facts r hwfo
          exact indentLine_facts d _ hne hchars hlast
        | wall w =>
          rw [show emitObj (Obj.wall w) d = [indentTabs d ++ wallLine w] from rfl,
            List.mem_singleton] at h1
          subst h1
          obtain ⟨_, hne, _, hlast, hchars⟩ := wallLine_facts w hwfo
          exact indentLine_facts d _ hne hchars hlast
        | floor f =>
          rw [show emitObj (Obj.floor f) d = [indentTabs d ++ floorLine f] from rfl,
            List.mem_singleton] at h1
          subst h1
          obtain ⟨hx, hy, hwft2⟩ := wfFloorData_spec f hwfo
          obtain ⟨_, hne, _, hlast, hchars⟩ := floorLine_facts f hx hy hwft2
          exact indentLine_facts d _ hne hchars hlast
        | block core cs2 =>
          have hwfb : wfCore core = true ∧ wfObjList cs2 = true := by
            simpa [wfObj, Bool.and_eq_true] using hwfo
          have hszc : sizeOf cs2 ≤ n := by
            have hh : sizeOf (ObjList.cons (Obj.block core cs2) t)
                = 1 + sizeOf (Obj.block core cs2) + sizeOf t := by simp
            have hh2 : sizeOf (Obj.block core cs2)
                = 1 + sizeOf core + sizeOf cs2 := by simp
            omega
          rw [show emitObj (Obj.block core cs2) d
            = (indentTabs d ++ blockLine core) :: emitList cs2 (d + 1) from rfl]
            at h1
          rcases List.mem_cons.1 h1 with rfl | h2
          · obtain ⟨_, hne, _, hlast, hchars⟩ := blockLine_facts core hwfb.1
            exact indentLine_facts d _ hne hchars hlast
          · exact ih cs2 hszc hwfb.2 (d + 1) ln h2
      · exact ih t hszt hwft d ln h1

theorem serializeLines_facts (l : Level) (hwf : wfLevel l = true) :
    ∀ ln ∈ serializeLines l,
    (∀ c ∈ ln, c ≠ '\n' ∧ c ≠ '\r') ∧ stripTrailingSpTab ln = ln := by
  have hspec := hwf
  simp only [wfLevel, Bool.and_eq_true] at hspec
  obtain ⟨⟨hwfh, hne⟩, hall⟩ := hspec
  have hall2 : ∀ r ∈ l.roots, wfBlock r = true := by
    simpa [List.all_eq_true] using hall
  intro ln hln
  rw [serializeLines] at hln
  rcases List.mem_append.1 hln with h1 | h1
  · have h := serializeHeaderLines_facts l.header hwfh ln h1
    exact ⟨h.2.2.1, h.2.2.2⟩
  · rcases List.mem_cons.1 h1 with rfl | h2
    · exact ⟨by decide, by decide⟩
    · obtain ⟨r, hr, hmem⟩ := List.mem_flatMap.1 h2
      have hwfr := hall2 r hr
      obtain ⟨hwc, hwl⟩ := wfBlock_spec r hwfr
      rw [show emitObj r.toObj 0 = (indentTabs 0 ++ blockLine r.core) ::
        emitList (ObjList.ofList r.children) (0 + 1) from rfl] at hmem
      rcases List.mem_cons.1 hmem with rfl | h3
      · obtain ⟨_, hne2, _, hlast, hchars⟩ := blockLine_facts r.core hwc
        exact indentLine_facts 0 _ hne2 hchars hlast
      · exact emitLines_facts (sizeOf (ObjList.ofList r.children)) _ le_rfl hwl
          (0 + 1) ln h3

theorem joinNl_no_cr (ls : List Str) (h : ∀ l ∈ ls, ∀ c ∈ l, c ≠ '\r') :
    ∀ c ∈ joinNl ls, c ≠ '\r' := by
  induction ls with
  | nil => simp [joinNl]
  | cons l ls2 ih =>
    intro c hc
    cases ls2 with
    | nil => exact h l (by simp) c hc
    | cons u us =>
      rw [joinNl_cons l _ (by simp)] at hc
      rcases List.mem_append.1 hc with h1 | h1
      · exact h l (by simp) c h1
      · rcases List.mem_cons.1 h1 with rfl | h2
        · decide
        · exact ih (fun x hx => h x (by simp [hx])) c h2

theorem levelLines_serialize (l : Level) (hwf : wfLevel l = true) :
    levelLines (serializeLevelL l) = serializeLines l ++ [[]] := by
  have hfacts := serializeLines_facts l hwf
  have hnonil : serializeLines l ≠ [] := by
    rw [serializeLines, serializeHeaderLines_eq]
    simp
  rw [levelLines, serializeLevelL]
  have hnocr : ∀ c ∈ joinNl (serializeLines l) ++ ['\n'], c ≠ '\r' := by
    intro c hc
    rcases List.mem_append.1 hc with h1 | h1
    · exact joinNl_no_cr _ (fun ln hln ch hch => ((hfacts ln hln).1 ch hch).2) c h1
    · rw [List.mem_singleton] at h1
      subst h1
      decide
  rw [normalizeNl_eq_self _ hnocr]
  rw [splitNl_joinNl _ (fun ln hln c hc => ((hfacts ln hln).1 c hc).1) hnonil]
  have hmap : (serializeLines l ++ [[]]).map stripTrailingSpTab
      = (serializeLines l ++ [[]]).map id := by
    refine List.map_congr_left fun x hx => ?_
    rcases List.mem_append.1 hx with h1 | h1
    · exact (hfacts x h1).2
    · rw [List.mem_singleton] at h1
      subst h1
      rfl
  rw [hmap, List.map_id]

theorem parseLevelL_serializeLevelL (l : Level) (hwf : wfLevel l = true) :
    parseLevelL (serializeLevelL l) = .ok l := by
  have hspec := hwf
  simp only [wfLevel, Bool.and_eq_true] at hspec
  obtain ⟨⟨hwfh, hne⟩, hall⟩ := hspec
  have hall2 : ∀ r ∈ l.roots, wfBlock r = true := by
    simpa [List.all_eq_true] using hall
  have hrne : l.roots ≠ [] := by simpa using hne
  obtain ⟨r1, rest, hroots⟩ := List.exists_cons_of_ne_nil hrne
  obtain ⟨hwc1, hwl1⟩ := wfBlock_spec r1 (hall2 r1 (by rw [hroots]; simp))
  simp only [parseLevelL]
  rw [levelLines_serialize l hwf]
  rw [show serializeLines l ++ [[]] = serializeHeaderLines l.header ++
    ['#'] :: ((l.roots.flatMap fun r => emitObj r.toObj 0) ++ [[]]) by
    rw [serializeLines]
    simp [List.append_assoc]]
  rw [parseHeader_serialize l.header hwfh _]
  dsimp only
  rw [hroots, List.flatMap_cons]
  rw [show emitObj r1.toObj 0 = (indentTabs 0 ++ blockLine r1.core) ::
    emitList (ObjList.ofList r1.children) (0 + 1) from rfl]
  rw [show ((((indentTabs 0 ++ blockLine r1.core) ::
      emitList (ObjList.ofList r1.children) (0 + 1)) ++
      rest.flatMap fun r => emitObj r.toObj 0) ++ ([[]] : List Str))
    = (indentTabs 0 ++ blockLine r1.core) ::
      (emitList (ObjList.ofList r1.children) (0 + 1) ++
        ((rest.flatMap fun r => emitObj r.toObj 0) ++ [[]])) by
    simp [List.append_assoc]]
  simp only [processBody]
  rw [bodyStep_blockLine _ 0 r1.core hwc1 ⟨[], []⟩ ⟨[], []⟩
    (closeTo_of_le 0 _ (by simp)) (by simp)]
  dsimp only
  have hch := processList_aux (sizeOf (ObjList.ofList r1.children)) _ le_rfl hwl1
    0 [] ⟨r1.core, []⟩ [] ((serializeHeaderLines l.header).length + 1 + 1) rfl
  rw [spineB_nil_children] at hch
  simp only [List.append_nil, List.nil_append] at hch
  rw [ObjList.toList_ofList] at hch
  rw [processBody_chain _ _ _ _ _ hch]
  obtain ⟨st, hst, hcl⟩ := processRoots rest [] r1
    ((serializeHeaderLines l.header).length + 1 + 1 +
      (emitList (ObjList.ofList r1.children) (0 + 1)).length)
    (fun x hx => hall2 x (by rw [hroots]; simp [hx]))
  rw [processBody_chain _ _ _ _ _ hst]
  rw [show processBody ((serializeHeaderLines l.header).length + 1 + 1 +
      (emitList (ObjList.ofList r1.children) (0 + 1)).length +
      (rest.flatMap fun r => emitObj r.toObj 0).length) [[]] st = .ok st from rfl]
  dsimp only
  rw [hcl]
  simp only [List.nil_append]
  rw [← hroots]
  rw [if_neg (by simpa using hrne)]

/-! ## History lemmas (claim C3) -/

theorem undo_pushHistory (s : EditorState) (l : Level) :
    undo (pushHistory s l) = { s with history := ⟨s.history.past, [l]⟩ } := by
  obtain ⟨lv, sel, tool, vp, err, past, fut⟩ := s
  simp [pushHistory, undo]

theorem redo_undo_pushHistory (s : EditorState) (l : Level) :
    redo (undo (pushHistory s l)) = pushHistory s l := by
  rw [undo_pushHistory]
  obtain ⟨lv, sel, tool, vp, err, past, fut⟩ := s
  simp [pushHistory, redo]

theorem applyEdits_concat (s : EditorState) (ls : List Level) (l : Level) :
    applyEdits s (ls ++ [l]) = pushHistory (applyEdits s ls) l := by
  simp [applyEdits]

theorem undoN_applyEdits (ls : List Level) (s : EditorState) (h : ls ≠ []) :
    undo^[ls.length] (applyEdits s ls) =
      { s with history := ⟨s.history.past, ls⟩ } := by
  induction ls generalizing s with
  | nil => exact absurd rfl h
  | cons l ls2 ih =>
    by_cases h2 : ls2 = []
    · subst h2
      simpa [applyEdits] using undo_pushHistory s l
    · have step : applyEdits s (l :: ls2) = applyEdits (pushHistory s l) ls2 := by
        simp [applyEdits]
      rw [List.length_cons, step, Function.iterate_succ_apply', ih _ h2]
      obtain ⟨lv, sel, tool, vp, err, past, fut⟩ := s
      simp [pushHistory, undo]

/-! ## `findRevIdx` characterization (claim C4) -/

theorem findRevIdx_eq_none_iff (l : List α) (p : α → Bool) :
    findRevIdx l p = none ↔ ∀ a ∈ l, ¬ p a := by
  induction l with
  | nil => simp [findRevIdx]
  | cons a t ih =>
    rw [List.forall_mem_cons, ← ih]
    cases h : findRevIdx t p with
    | some i => simp [findRevIdx, h]
    | none => by_cases hp : p a <;> simp [findRevIdx, h, hp]

theorem findRevIdx_eq_some_iff (l : List α) (p : α → Bool) (i : Nat) :
    findRevIdx l p = some i ↔
      ∃ h : i < l.length, p l[i] ∧
        ∀ j, ∀ hj : j < l.length, i < j → ¬ p l[j] := by
  induction l generalizing i with
  | nil => simp [findRevIdx]
  | cons a t ih =>
    cases h : findRevIdx t p with
    | some k =>
      obtain ⟨hklt, hpk, hlater⟩ := (ih k).1 h
      simp only [findRevIdx, h]
      constructor
      · intro he
        injection he with he
        subst he
        refine ⟨Nat.succ_lt_succ hklt, by simpa using hpk, ?_⟩
        intro j hj hgt
        cases j with
        | zero => omega
        | succ j2 =>
          simpa using hlater j2 (Nat.lt_of_succ_lt_succ hj) (Nat.lt_of_succ_lt_succ hgt)
      · rintro ⟨hi, hpi, hlater2⟩
        rcases Nat.lt_trichotomy i (k + 1) with hlt | heq | hgt
        · exact absurd (by simpa using hpk)
            (hlater2 (k + 1) (Nat.succ_lt_succ hklt) hlt)
        · simp [heq]
        · cases i with
          | zero => omega
          | succ i2 =>
            exact absurd (by simpa using hpi)
              (hlater i2 (Nat.lt_of_succ_lt_succ hi) (by omega))
    | none =>
      have hall := (findRevIdx_eq_none_iff t p).1 h
      by_cases hp : p a
      · simp only [findRevIdx, h, hp, if_true]
        constructor
        · intro he
          injection he with he
          subst he
          refine ⟨Nat.succ_pos _, by simpa using hp, ?_⟩
          intro j hj hgt
          cases j with
          | zero => omega
          | succ j2 =>
            simpa using hall _ (t.getElem_mem (Nat.lt_of_succ_lt_succ hj))
        · rintro ⟨hi, hpi, hlater⟩
          cases i with
          | zero => rfl
          | succ i2 =>
            exact absurd (by simpa using hpi)
              (hall _ (t.getElem_mem (Nat.lt_of_succ_lt_succ hi)))
      · simp only [findRevIdx, h, hp, if_false]
        constructor
        · intro hc
          cases hc
        · rintro ⟨hi, hpi, _⟩
          cases i with
          | zero => exact absurd (by simpa using hpi) hp
          | succ i2 =>
            exact absurd (by simpa using hpi)
              (hall _ (t.getElem_mem (Nat.lt_of_succ_lt_succ hi)))

/-! ## Claim theorems: C2, C3, C4 -/

/-- C3: for every history state and every sequence of N committing edits
applied via `pushHistory`, N undos restore the original current `Level`
exactly; after a nonempty edit sequence, a single `redo` after an `undo`
restores the most recently undone level (the level current before the
undo); and every `pushHistory` leaves the future (redo) stack empty. -/
theorem C3_history_linearity :
    (∀ (s : EditorState) (ls : List Level),
      (undo^[ls.length] (applyEdits s ls)).level = s.level) ∧
    (∀ (s : EditorState) (ls : List Level), ls ≠ [] →
      (redo (undo (applyEdits s ls))).level = (applyEdits s ls).level) ∧
    (∀ (s : EditorState) (l : Level), (pushHistory s l).history.future = []) := by
  refine ⟨?_, ?_, ?_⟩
  · intro s ls
    by_cases h : ls = []
    · subst h
      simp [applyEdits]
    · rw [undoN_applyEdits ls s h]
  · intro s ls h
    rcases List.eq_nil_or_concat ls with rfl | ⟨ls2, x, rfl⟩
    · exact absurd rfl h
    · rw [List.concat_eq_append, applyEdits_concat, redo_undo_pushHistory]
  · intro s l
    rfl

/-- Witness for C3 at a concrete state and edit list. -/
theorem C3_history_linearity_witness :
    (redo (undo (applyEdits createInitialState [exLevelA]))).level =
      (applyEdits createInitialState [exLevelA]).level :=
  C3_history_linearity.2.1 createInitialState [exLevelA] (by simp)

/-- C4: `hitTest` returns the last-inserted child whose block bounding box
contains `(x, y)` when one exists; only otherwise the last-inserted leaf
child sitting exactly at `(x, y)`; and `none` when neither exists. -/
theorem C4_hitTest_priority :
    ∀ (b : Block) (x y : Int),
      ((∃ c ∈ b.children, blockHitB x y c) →
        ∃ i, ∃ h : i < b.children.length,
          hitTest b x y = some (.blockChild i) ∧ blockHitB x y b.children[i] ∧
            ∀ j, ∀ hj : j < b.children.length, i < j → ¬ blockHitB x y b.children[j]) ∧
      ((∀ c ∈ b.children, ¬ blockHitB x y c) → (∃ c ∈ b.children, leafHitB x y c) →
        ∃ i, ∃ h : i < b.children.length,
          hitTest b x y = some (.cellObj i) ∧ leafHitB x y b.children[i] ∧
            ∀ j, ∀ hj : j < b.children.length, i < j → ¬ leafHitB x y b.children[j]) ∧
      ((∀ c ∈ b.children, ¬ blockHitB x y c) → (∀ c ∈ b.children, ¬ leafHitB x y c) →
        hitTest b x y = none) := by
  intro b x y
  refine ⟨?_, ?_, ?_⟩
  · intro hex
    cases h : findRevIdx b.children (blockHitB x y) with
    | none =>
      rw [findRevIdx_eq_none_iff] at h
      obtain ⟨c, hc, hpc⟩ := hex
      exact absurd hpc (h c hc)
    | some i =>
      obtain ⟨hi, hpi, hlater⟩ := (findRevIdx_eq_some_iff _ _ _).1 h
      exact ⟨i, hi, by simp [hitTest, h], hpi, hlater⟩
  · intro hnone hex
    have hb : findRevIdx b.children (blockHitB x y) = none :=
      (findRevIdx_eq_none_iff _ _).2 hnone
    cases h : findRevIdx b.children (leafHitB x y) with
    | none =>
      rw [findRevIdx_eq_none_iff] at h
      obtain ⟨c, hc, hpc⟩ := hex
      exact absurd hpc (h c hc)
    | some i =>
      obtain ⟨hi, hpi, hlater⟩ := (findRevIdx_eq_some_iff _ _ _).1 h
      exact ⟨i, hi, by simp [hitTest, hb, h], hpi, hlater⟩
  · intro h1 h2
    simp [hitTest, (findRevIdx_eq_none_iff _ _).2 h1, (findRevIdx_eq_none_iff _ _).2 h2]

/-- Witness for C4 on the spec's example: a child block spanning (0,0)–(1,1)
and walls at (1,1) and (2,2); at (0,0) and (1,1) the block wins, at (2,2)
only the wall leaf is hit, at (2,0) nothing is hit. -/
theorem C4_hitTest_priority_witness :
    (∃ i, ∃ h : i < exHitBlock.children.length,
      hitTest exHitBlock 0 0 = some (.blockChild i) ∧
        blockHitB 0 0 exHitBlock.children[i] ∧
        ∀ j, ∀ hj : j < exHitBlock.children.length, i < j →
          ¬ blockHitB 0 0 exHitBlock.children[j]) ∧
    (∃ i, ∃ h : i < exHitBlock.children.length,
      hitTest exHitBlock 2 2 = some (.cellObj i) ∧
        leafHitB 2 2 exHitBlock.children[i] ∧
        ∀ j, ∀ hj : j < exHitBlock.children.length, i < j →
          ¬ leafHitB 2 2 exHitBlock.children[j]) ∧
    hitTest exHitBlock 2 0 = none :=
  ⟨(C4_hitTest_priority exHitBlock 0 0).1 (by decide),
   (C4_hitTest_priority exHitBlock 2 2).2.1 (by decide) (by decide),
   (C4_hitTest_priority exHitBlock 2 0).2.2 (by decide) (by decide)⟩

/-- C2 (code bug): `setBlockAtPath` is not a no-op on every unresolvable
path.  With one root, the out-of-range root path `[1]` does not resolve,
yet the write `roots[1] = block` appends the block; and the in-range path
`[0, 0]` addressing a `Wall` leaf (not a `Block`, so `getBlockByPath`
yields no match) overwrites the leaf with the block. -/
theorem C2_setBlockAtPath_bad_path_mutates :
    (getBlockByPath exLevelA [1] = none ∧
      setBlockAtPath exLevelA [1] exBlock2 =
        some ⟨initHeader, [⟨exCore, []⟩, exBlock2]⟩ ∧
      (⟨initHeader, [⟨exCore, []⟩, exBlock2]⟩ : Level) ≠ exLevelA) ∧
    (getBlockByPath exLevelWall [0, 0] = none ∧
      setBlockAtPath exLevelWall [0, 0] exBlock2 =
        some ⟨initHeader, [⟨exCore, [exBlock2.toObj]⟩]⟩ ∧
      (⟨initHeader, [⟨exCore, [exBlock2.toObj]⟩]⟩ : Level) ≠ exLevelWall) := by
  decide

/-! ## Claim theorems: C5, C6, C7 -/

/-- C5 (code bug): an invalid `version` value aborts the parse with a
`ParseError` anchored to that line (first conjunct), but an input whose
header contains no `version` line at all does NOT abort: it parses to a
level with the default version 4, because the `Missing version header`
check of `format.ts` line 68 is unreachable (the header starts as
`{ version: 4 }`). -/
theorem C5_version_errors :
    parseLevel "version x\n#\nBlock 0 0 0 3 3 0.5 0.5 1 1 0 0 0 0 0 0 0\n" =
      .error ⟨"Invalid version", 1⟩ ∧
    parseLevel "version\n#\nBlock 0 0 0 3 3 0.5 0.5 1 1 0 0 0 0 0 0 0\n" =
      .error ⟨"Invalid version", 1⟩ ∧
    parseLevel "#\nBlock 0 0 0 3 3 0.5 0.5 1 1 0 0 0 0 0 0 0\n" =
      .ok exLevelA := by
  decide

/-- Counterexample to C6: a `custom_level_music` line whose value does not
parse as a number is NOT appended to `unknown`; the field is set to `-1`
and the unknown list stays empty. -/
theorem C6_counterexample :
    parseLevel "custom_level_music x\n#\nBlock 0 0 0 3 3 0.5 0.5 1 1 0 0 0 0 0 0 0\n" =
      .ok ⟨{ initHeader with custom_level_music := some (-1) }, [⟨exCore, []⟩]⟩ ∧
    ({ initHeader with custom_level_music := some (-1) } : LevelHeader).unknown = [] := by
  decide

/-- `toInt` falls back when the token is missing or non-numeric. -/
theorem toInt_eq_fallback (t : Option Str) (fb : Int)
    (h : t.bind jsNumFinite = none) : toInt t fb = fb := by
  match t with
  | none => rfl
  | some s =>
    rw [Option.some_bind] at h
    simp [toInt, h]

/-- C6 amended: a header line with an unrecognized first token is appended
verbatim to the end of `unknown`; so is a `draw_style` line whose value is
not one of the three accepted literals; but a `custom_level_music` line
with a non-numeric value only sets the field to `-1` (nothing is appended
to `unknown`). -/
theorem C6_header_unknown_routing :
    (∀ (line : Str) (h : LevelHeader) (i : Nat),
      (tokenize (jsTrim line)).headD [] ∉ recognizedKeys →
      headerUpdate line h i = .ok { h with unknown := h.unknown ++ [line] }) ∧
    (∀ (line : Str) (h : LevelHeader) (i : Nat),
      (tokenize (jsTrim line)).headD [] = "draw_style".toList →
      (∀ s, (tokenize (jsTrim line))[1]? = some s →
        s ≠ "tui".toList ∧ s ≠ "grid".toList ∧ s ≠ "oldstyle".toList) →
      headerUpdate line h i = .ok { h with unknown := h.unknown ++ [line] }) ∧
    (∀ (line : Str) (h : LevelHeader) (i : Nat),
      (tokenize (jsTrim line)).headD [] = "custom_level_music".toList →
      (tokenize (jsTrim line))[1]?.bind jsNumFinite = none →
      headerUpdate line h i = .ok { h with custom_level_music := some (-1) }) := by
  refine ⟨?_, ?_, ?_⟩
  · intro line h i hkey
    simp only [recognizedKeys, List.mem_cons, List.not_mem_nil, or_false, not_or] at hkey
    obtain ⟨h1, h2, h3, h4, h5, h6, h7⟩ := hkey
    simp only [headerUpdate]
    rw [if_neg h1, if_neg h2, if_neg h3, if_neg h4, if_neg h5, if_neg h6,
        if_neg h7]
  · intro line h i hkey hval
    simp only [headerUpdate, hkey]
    rw [if_neg (by decide), if_neg (by decide), if_neg (by decide),
        if_neg (by decide), if_pos trivial]
    cases hs : (tokenize (jsTrim line))[1]? with
    | none => simp
    | some s =>
      obtain ⟨hs1, hs2, hs3⟩ := hval s hs
      dsimp only
      rw [if_neg hs1, if_neg hs2, if_neg hs3]
  · intro line h i hkey hval
    simp only [headerUpdate, hkey]
    rw [if_neg (by decide), if_neg (by decide), if_neg (by decide),
        if_neg (by decide), if_neg (by decide), if_pos trivial,
        toInt_eq_fallback _ _ hval]

/-- Witness for C6's amended statement at concrete header lines. -/
theorem C6_header_unknown_routing_witness :
    (headerUpdate "foo bar".toList initHeader 0 =
      .ok { initHeader with unknown := ["foo bar".toList] }) ∧
    (headerUpdate "draw_style weird".toList initHeader 0 =
      .ok { initHeader with unknown := ["draw_style weird".toList] }) ∧
    (headerUpdate "custom_level_music x".toList initHeader 0 =
      .ok { initHeader with custom_level_music := some (-1) }) :=
  ⟨C6_header_unknown_routing.1 _ initHeader 0 (by decide),
   C6_header_unknown_routing.2.1 _ initHeader 0 (by decide)
     (by
       intro s hs
       rw [(by decide : (tokenize (jsTrim "draw_style weird".toList))[1]? =
         some "weird".toList)] at hs
       cases hs
       decide),
   C6_header_unknown_routing.2.2 _ initHeader 0 (by decide) (by decide)⟩

/-- Counterexample to C7: the tokens "1.0" and "01" also set a boolean
field to true (`Number` parses them to 1), both at the `toBool01` level
and through `parseObject` for a `Wall`'s `player` field. -/
theorem C7_counterexample :
    toBool01 (some "1.0".toList) 0 = true ∧
    toBool01 (some "01".toList) 0 = true ∧
    parseObject "Wall".toList ["0".toList, "0".toList, "1.0".toList] 1 =
      .ok (.wall { x := 0, y := 0, player := true, possessable := false,
                   playerorder := 0 }) := by
  decide

/-- C7 amended: a boolean field is set to true exactly when its token
parses as a finite number that truncates to 1; a missing token is false;
the literal "1" is true and "2", "true", "" are false. -/
theorem C7_bool_token_semantics :
    (∀ s : Str, toBool01 (some s) 0 = true ↔
      ∃ q, jsNumFinite s = some q ∧ jsTrunc q = 1) ∧
    toBool01 none 0 = false ∧
    toBool01 (some "1".toList) 0 = true ∧
    toBool01 (some "2".toList) 0 = false ∧
    toBool01 (some "true".toList) 0 = false ∧
    toBool01 (some "".toList) 0 = false := by
  refine ⟨?_, by decide, by decide, by decide, by decide, by decide⟩
  intro s
  simp only [toBool01, toInt]
  rw [decide_eq_true_eq]
  cases h : jsNumFinite s with
  | none => simp
  | some q => simp

/-! ## Claim theorems: C8 -/

/-- `countP` is unchanged by `set` when the predicate agrees on the old and
new element. -/
theorem countP_set_pred_eq {l : List α} {i : Nat} (b : α) (p : α → Bool)
    (hi : i < l.length) (hpe : p l[i] = p b) :
    (l.set i b).countP p = l.countP p := by
  induction l generalizing i with
  | nil => simp at hi
  | cons a t ih =>
    cases i with
    | zero => simp_all [List.countP_cons]
    | succ i2 =>
      simp only [List.set]
      simp only [List.countP_cons]
      rw [ih (by simpa using hi) (by simpa using hpe)]

/-- Counterexample to C8: `upsertWall` at a cell already occupied by a
floor leaves two leaves at that cell (the floor and the new wall). -/
theorem C8_counterexample :
    LeafInv exFloorBlock ∧ ¬ LeafInv (upsertWall exFloorBlock 0 0) := by
  constructor
  · intro x y
    simpa [countLeavesAt, exFloorBlock] using
      List.countP_le_length (l := exFloorBlock.children) (isLeafAt x y)
  · intro hinv
    have h1 := hinv 0 0
    have h2 : countLeavesAt (upsertWall exFloorBlock 0 0) 0 0 = 2 := by decide
    omega

/-- A leaf sits at a cell exactly when the `removeAt`/`addRef` filter
callback would drop it there. -/
theorem isLeafAt_eq_not_keepAt (x y : Int) (c : Obj) :
    isLeafAt x y c = !(keepAt x y c) := by
  cases c <;> simp [isLeafAt, keepAt, Obj.cellXY]

/-- After filtering with `keepAt x y`, no leaf remains at `(x, y)`. -/
theorem countP_isLeafAt_filter_keepAt (l : List Obj) (x y : Int) :
    (l.filter (keepAt x y)).countP (isLeafAt x y) = 0 := by
  rw [List.countP_eq_zero]
  intro c hc
  rw [isLeafAt_eq_not_keepAt, List.of_mem_filter hc]
  simp

/-- C8 amended: `removeAt` and `addRef` preserve the at-most-one-leaf-per-
cell invariant unconditionally; `upsertWall` preserves it provided every
leaf at the target cell is a wall, and `upsertFloor` provided every leaf
at the target cell is a floor (without those provisos a wall can be
stacked onto a floor or ref and vice versa). -/
theorem C8_leaf_invariant_preservation :
    (∀ (b : Block) (x y : Int), LeafInv b → LeafInv (removeAt b x y)) ∧
    (∀ (b : Block) (x y id : Int), LeafInv b → LeafInv (addRef b x y id)) ∧
    (∀ (b : Block) (x y : Int), LeafInv b →
      (∀ c ∈ b.children, isLeafAt x y c → ∃ w, c = .wall w) →
      LeafInv (upsertWall b x y)) ∧
    (∀ (b : Block) (x y : Int) (ft : FloorType), LeafInv b →
      (∀ c ∈ b.children, isLeafAt x y c → ∃ f, c = .floor f) →
      LeafInv (upsertFloor b x y ft)) := by
  refine ⟨?_, ?_, ?_, ?_⟩
  · intro b x y hinv x2 y2
    exact le_trans
      ((List.filter_sublist _).countP_le (isLeafAt x2 y2)) (hinv x2 y2)
  · intro b x y id hinv x2 y2
    simp only [countLeavesAt, addRef, List.countP_append]
    by_cases hcell : x2 = x ∧ y2 = y
    · obtain ⟨rfl, rfl⟩ := hcell
      rw [countP_isLeafAt_filter_keepAt]
      simp [List.countP_cons, isLeafAt, mkRef, Obj.cellXY]
    · have h1 : (b.children.filter (keepAt x y)).countP (isLeafAt x2 y2) ≤ 1 :=
        le_trans ((List.filter_sublist _).countP_le _) (hinv x2 y2)
      have h2 : ([mkRef x y id].countP (isLeafAt x2 y2)) = 0 := by
        rw [List.countP_eq_zero]
        intro a ha
        rw [List.mem_singleton] at ha
        subst ha
        simp only [isLeafAt, mkRef, Obj.cellXY, Bool.and_eq_true, beq_iff_eq]
        rintro ⟨rfl, rfl⟩
        exact hcell ⟨rfl, rfl⟩
      omega
  · intro b x y hinv hkind x2 y2
    simp only [countLeavesAt, upsertWall]
    cases hfind : b.children.findIdx? (fun c =>
        match c with
        | .wall w => w.x == x && w.y == y
        | _ => false) with
    | some idx =>
      dsimp only
      exact le_trans ((List.eraseIdx_sublist _ _).countP_le _) (hinv x2 y2)
    | none =>
      rw [List.findIdx?_eq_none_iff] at hfind
      dsimp only
      rw [List.countP_append]
      by_cases hcell : x2 = x ∧ y2 = y
      · obtain ⟨rfl, rfl⟩ := hcell
        have hz : b.children.countP (isLeafAt x2 y2) = 0 := by
          rw [List.countP_eq_zero]
          intro c hc hcon
          obtain ⟨w, rfl⟩ := hkind c hc hcon
          have hfc := hfind _ hc
          dsimp only at hfc
          simp only [isLeafAt, Obj.cellXY] at hcon
          rw [hfc] at hcon
          exact absurd hcon (by decide)
        rw [hz]
        simp [List.countP_cons, isLeafAt, mkWall, Obj.cellXY]
      · have h2 : ([mkWall x y].countP (isLeafAt x2 y2)) = 0 := by
          rw [List.countP_eq_zero]
          intro a ha
          rw [List.mem_singleton] at ha
          subst ha
          simp only [isLeafAt, mkWall, Obj.cellXY, Bool.and_eq_true, beq_iff_eq]
          rintro ⟨rfl, rfl⟩
          exact hcell ⟨rfl, rfl⟩
        have h1 := hinv x2 y2
        simp only [countLeavesAt] at h1
        omega
  · intro b x y ft hinv hkind x2 y2
    simp only [countLeavesAt, upsertFloor]
    cases hfind : b.children.findIdx? (fun c =>
        match c with
        | .floor f => f.x == x && f.y == y
        | _ => false) with
    | some idx =>
      dsimp only
      obtain ⟨hlt, hp, _⟩ := List.findIdx?_eq_some_iff_getElem.1 hfind
      rw [countP_set_pred_eq _ _ hlt ?_]
      · exact hinv x2 y2
      · cases hc : b.children[idx] with
        | floor f =>
          rw [hc] at hp
          dsimp only at hp
          simp only [Bool.and_eq_true, beq_iff_eq] at hp
          obtain ⟨rfl, rfl⟩ := hp
          simp [isLeafAt, Obj.cellXY]
        | block core cs =>
          rw [hc] at hp
          simp at hp
        | ref r =>
          rw [hc] at hp
          simp at hp
        | wall w =>
          rw [hc] at hp
          simp at hp
    | none =>
      rw [List.findIdx?_eq_none_iff] at hfind
      dsimp only
      rw [List.countP_append]
      by_cases hcell : x2 = x ∧ y2 = y
      · obtain ⟨rfl, rfl⟩ := hcell
        have hz : b.children.countP (isLeafAt x2 y2) = 0 := by
          rw [List.countP_eq_zero]
          intro c hc hcon
          obtain ⟨f, rfl⟩ := hkind c hc hcon
          have hfc := hfind _ hc
          dsimp only at hfc
          simp only [isLeafAt, Obj.cellXY] at hcon
          rw [hfc] at hcon
          exact absurd hcon (by decide)
        rw [hz]
        simp [List.countP_cons, isLeafAt, Obj.cellXY]
      · have h2 : ([(Obj.floor { x := x, y := y, type := ft })].countP
            (isLeafAt x2 y2)) = 0 := by
          rw [List.countP_eq_zero]
          intro a ha
          rw [List.mem_singleton] at ha
          subst ha
          simp only [isLeafAt, Obj.cellXY, Bool.and_eq_true, beq_iff_eq]
          rintro ⟨rfl, rfl⟩
          exact hcell ⟨rfl, rfl⟩
        have h1 := hinv x2 y2
        simp only [countLeavesAt] at h1
        omega

/-- Witness for C8's amended statement on concrete blocks. -/
theorem C8_leaf_invariant_preservation_witness :
    LeafInv (removeAt exFloorBlock 0 0) ∧
    LeafInv (addRef exFloorBlock 0 0 7) ∧
    LeafInv (upsertWall exFloorBlock 2 2) ∧
    LeafInv (upsertFloor exFloorBlock 0 0 .Break) :=
  have hb : LeafInv exFloorBlock := fun x y => by
    simpa [countLeavesAt, exFloorBlock] using
      List.countP_le_length (l := exFloorBlock.children) (isLeafAt x y)
  ⟨C8_leaf_invariant_preservation.1 exFloorBlock 0 0 hb,
   C8_leaf_invariant_preservation.2.1 exFloorBlock 0 0 7 hb,
   C8_leaf_invariant_preservation.2.2.1 exFloorBlock 2 2 hb
     (by
       intro c hc hlf
       rw [show exFloorBlock.children = [.floor { x := 0, y := 0, type := .Button }] from rfl,
           List.mem_singleton] at hc
       subst hc
       exact absurd hlf (by decide)),
   C8_leaf_invariant_preservation.2.2.2 exFloorBlock 0 0 .Break hb
     (by
       intro c hc hlf
       rw [show exFloorBlock.children = [.floor { x := 0, y := 0, type := .Button }] from rfl,
           List.mem_singleton] at hc
       exact ⟨_, hc⟩)⟩


/-! ## Parse-phase composition lemmas (claims C9, C10) -/

/-- `headerUpdate` only fails on a `version` line with a non-numeric
value. -/
theorem headerUpdate_ok (line : Str) (h : LevelHeader) (i : Nat)
    (hv : ¬((tokenize (jsTrim line)).headD [] = "version".toList ∧
      (tokenize (jsTrim line))[1]?.bind jsNumFinite = none)) :
    ∃ h2, headerUpdate line h i = .ok h2 := by
  simp only [headerUpdate]
  by_cases hk : (tokenize (jsTrim line)).headD [] = "version".toList
  · rw [if_pos hk]
    cases hb : (tokenize (jsTrim line))[1]?.bind jsNumFinite with
    | none => exact absurd ⟨hk, hb⟩ hv
    | some v => exact ⟨_, rfl⟩
  · rw [if_neg hk]
    repeat' split
    all_goals exact ⟨_, rfl⟩

/-- When no line is the `#` terminator and no `version` line is invalid,
the header loop consumes the whole input. -/
theorem parseHeaderLines_no_hash (ls : List Str) (i : Nat) (h : LevelHeader)
    (hnh : ∀ l ∈ ls, jsTrim l ≠ ['#'])
    (hok : ∀ l ∈ ls, ¬((tokenize (jsTrim l)).headD [] = "version".toList ∧
      (tokenize (jsTrim l))[1]?.bind jsNumFinite = none)) :
    ∃ h2, parseHeaderLines i ls h = .ok (h2, i + ls.length, []) := by
  induction ls generalizing i h with
  | nil => exact ⟨h, rfl⟩
  | cons l rest ih =>
    have hnh2 : ∀ l2 ∈ rest, jsTrim l2 ≠ ['#'] := fun l2 hl2 => hnh l2 (by simp [hl2])
    have hok2 : ∀ l2 ∈ rest, ¬((tokenize (jsTrim l2)).headD [] = "version".toList ∧
        (tokenize (jsTrim l2))[1]?.bind jsNumFinite = none) :=
      fun l2 hl2 => hok l2 (by simp [hl2])
    have harith : i + 1 + rest.length = i + (l :: rest).length := by
      simp only [List.length_cons]
      omega
    simp only [parseHeaderLines]
    by_cases hb : (jsTrim l).isEmpty
    · obtain ⟨h2, hh⟩ := ih (i + 1) h hnh2 hok2
      rw [harith] at hh
      rw [if_pos hb]
      exact ⟨h2, hh⟩
    · rw [if_neg hb, if_neg (hnh l (by simp))]
      obtain ⟨h2, hu⟩ := headerUpdate_ok l h i (hok l (by simp))
      obtain ⟨h3, hh⟩ := ih (i + 1) h2 hnh2 hok2
      rw [harith] at hh
      rw [hu]
      dsimp only
      exact ⟨h3, hh⟩

/-- Once a prefix of the body processes successfully, processing continues
on the rest from the reached state. -/
theorem processBody_append (ls1 ls2 : List Str) (i : Nat) (st st2 : BState)
    (h : processBody i ls1 st = .ok st2) :
    processBody i (ls1 ++ ls2) st = processBody (i + ls1.length) ls2 st2 := by
  induction ls1 generalizing i st with
  | nil =>
    simp only [processBody] at h
    injection h with h
    subst h
    simp
  | cons l rest ih =>
    have harith : i + 1 + rest.length = i + (l :: rest).length := by
      simp only [List.length_cons]
      omega
    simp only [processBody] at h ⊢
    cases hs : bodyStep i l st with
    | error e =>
      rw [hs] at h
      simp at h
    | ok st3 =>
      rw [hs] at h
      dsimp only at h
      dsimp only
      simp only [List.append_eq]
      rw [ih (i + 1) st3 h, harith]

/-- `closeOne` shortens a nonempty stack by one. -/
theorem closeOne_stack_length (st : BState) :
    (closeOne st).stack.length = st.stack.length - 1 := by
  match st with
  | ⟨roots, []⟩ => rfl
  | ⟨roots, [b]⟩ => rfl
  | ⟨roots, b :: p :: rest⟩ => simp [closeOne]

/-- `closeToAux` with enough fuel truncates the stack to length `d`. -/
theorem closeToAux_stack_length (f d : Nat) (st : BState)
    (hf : st.stack.length ≤ f) :
    (closeToAux f d st).stack.length = min st.stack.length d := by
  induction f generalizing st with
  | zero =>
    have : st.stack.length = 0 := by omega
    simp [closeToAux, this]
  | succ f2 ih =>
    simp only [closeToAux]
    by_cases hle : st.stack.length ≤ d
    · rw [if_pos hle]
      omega
    · rw [if_neg hle]
      rw [ih _ (by rw [closeOne_stack_length]; omega)]
      rw [closeOne_stack_length]
      omega

/-- The stack after `closeTo d` has length `min (old length) d`. -/
theorem closeTo_stack_length (d : Nat) (st : BState) :
    (closeTo d st).stack.length = min st.stack.length d :=
  closeToAux_stack_length _ d st le_rfl

/-- Trimming ignores the leading tabs that were already dropped. -/
theorem jsTrim_dropWhile_tab (l : Str) :
    jsTrim (l.dropWhile fun c => c = '\t') = jsTrim l := by
  induction l with
  | nil => rfl
  | cons c t ih =>
    rw [List.dropWhile_cons]
    by_cases hc : c = '\t'
    · subst hc
      rw [if_pos (by decide)]
      rw [ih]
      show stripTrailing jsWs (List.dropWhile jsWs t) =
        stripTrailing jsWs (List.dropWhile jsWs ('\t' :: t))
      rw [List.dropWhile_cons, if_pos (by decide)]
    · rw [if_neg (by simpa using hc)]

/-- A line whose trim is nonempty has nonempty body content. -/
theorem bodyContent_ne_empty (l : Str) (h : ¬(jsTrim l).isEmpty) :
    ¬(bodyContent l).isEmpty := by
  rw [bodyContent, jsTrim_dropWhile_tab]
  exact h

/-- A nonblank body line whose tab depth exceeds the number of open blocks
makes the step fail with the invalid-indentation error at that line. -/
theorem bodyStep_depth_error (i : Nat) (l : Str) (st : BState)
    (hnb : ¬(jsTrim l).isEmpty) (hd : st.stack.length < tabDepth l) :
    bodyStep i l st =
      .error ⟨"Invalid indentation (no parent block at that depth)", i + 1⟩ := by
  simp only [bodyStep, if_neg hnb, if_neg (bodyContent_ne_empty l hnb)]
  rw [if_pos ?_]
  rw [closeTo_stack_length]
  omega

/-! ## Claim theorems: C9, C10 -/

/-- C9: if the header phase succeeds consuming `k` lines, the body lines
before some line process cleanly to state `st`, and that (nonblank) line\'s
leading-tab count exceeds the number of currently open blocks, then the
whole parse fails with the invalid-indentation `ParseError` carrying that
line\'s 1-based number, and no `Level` is returned. -/
theorem C9_invalid_indentation (text : Str) (hdr : LevelHeader) (k : Nat)
    (body pfx rest : List Str) (line : Str) (st : BState)
    (hhdr : parseHeaderLines 0 (levelLines text) initHeader = .ok (hdr, k, body))
    (hsplit : body = pfx ++ line :: rest)
    (hpfx : processBody k pfx ⟨[], []⟩ = .ok st)
    (hnb : ¬(jsTrim line).isEmpty)
    (hd : st.stack.length < tabDepth line) :
    parseLevelL text =
      .error ⟨"Invalid indentation (no parent block at that depth)",
              k + pfx.length + 1⟩ := by
  simp only [parseLevelL]
  rw [hhdr]
  dsimp only
  rw [hsplit, processBody_append pfx (line :: rest) k ⟨[], []⟩ st hpfx]
  simp only [processBody]
  rw [bodyStep_depth_error (k + pfx.length) line st hnb hd]

/-- Witness for C9: `\tWall 0 0` directly after the header terminator has
depth 1 with no open block, and the parse fails at line 3. -/
theorem C9_invalid_indentation_witness :
    parseLevelL "version 4\n#\n\tWall 0 0\n".toList =
      .error ⟨"Invalid indentation (no parent block at that depth)", 3⟩ :=
  C9_invalid_indentation "version 4\n#\n\tWall 0 0\n".toList initHeader 2
    ["\tWall 0 0".toList, []] [] [[]] "\tWall 0 0".toList ⟨[], []⟩
    (by decide) (by decide) (by decide) (by decide) (by decide)

/-- Counterexample to C10: an input with no `#` line can abort with a
different error than `No root Block found` (an invalid version line
throws first). -/
theorem C10_counterexample :
    parseLevel "version x" = .error ⟨"Invalid version", 1⟩ ∧
    ("Invalid version" : String) ≠ "No root Block found" := by
  constructor
  · decide
  · decide

/-- C10 amended: when no line trims to `#` and every header line parses
(no `version` line with a non-numeric value), the whole input is consumed
as header material, no objects are built, and the parse fails with
`No root Block found` anchored to the number of split lines. -/
theorem C10_no_root_error (text : Str)
    (hnh : ∀ l ∈ levelLines text, jsTrim l ≠ ['#'])
    (hok : ∀ l ∈ levelLines text,
      ¬((tokenize (jsTrim l)).headD [] = "version".toList ∧
        (tokenize (jsTrim l))[1]?.bind jsNumFinite = none)) :
    parseLevelL text = .error ⟨"No root Block found", (levelLines text).length⟩ := by
  obtain ⟨h2, hh⟩ := parseHeaderLines_no_hash (levelLines text) 0 initHeader hnh hok
  simp only [parseLevelL]
  rw [hh]
  rfl

/-- Witness for C10\'s amended statement on a concrete `#`-free input. -/
theorem C10_no_root_error_witness :
    parseLevelL "version 4\nfoo bar".toList =
      .error ⟨"No root Block found",
              (levelLines "version 4\nfoo bar".toList).length⟩ :=
  C10_no_root_error "version 4\nfoo bar".toList (by decide) (by decide)



/-! ## Claim theorems: C1 -/

/-- C1 (corrected): for every level satisfying `wfLevel` — integer fields
with `|v| < 10^21`, float fields that are exact decimals printed in plain
notation (zero or `1e-6 ≤ |q| < 1e21`), canonical whitespace in
`attempt_order` and floor payload strings, `Info` texts without underscores
or non-space whitespace, unknown header lines that re-parse as unknown, a
nonempty floor payload for `Unknown` floors, and at least one root —
parsing the serialized text yields a structurally equal `Level`, including
exact preservation and order of the header\'s unknown lines. -/
theorem C1_serialize_parse_roundtrip (l : Level) (h : wfLevel l = true) :
    parseLevel (serializeLevel l) = .ok l :=
  parseLevelL_serializeLevelL l h

/-- Witness: the concrete one-root level `exLevelA` is well-formed and
round-trips to itself. -/
theorem C1_serialize_parse_roundtrip_witness :
    wfLevel exLevelA = true ∧ parseLevel (serializeLevel exLevelA) = .ok exLevelA :=
  ⟨by decide, C1_serialize_parse_roundtrip exLevelA (by decide)⟩

/-- C1 counterexample to the original claim: `exLevelHue7` has positive
dimensions and only finite numeric fields (hue `1e-7`), yet the round trip
returns a different level with hue `0`: `String(1e-7)` is exponential, so
`fmt` falls back to `toFixed(6)`, printing `"0.000000"`, which the
trailing-zero strip reduces to `"0"`. -/
theorem C1_counterexample :
    (0 < (exLevelHue7.roots.headD ⟨exCore, []⟩).core.width ∧
     0 < (exLevelHue7.roots.headD ⟨exCore, []⟩).core.height ∧
     jsNumFinite (fmt (exLevelHue7.roots.headD ⟨exCore, []⟩).core.hue) ≠ none) ∧
    parseLevel (serializeLevel exLevelHue7) = .ok exLevelHue0 ∧
    exLevelHue0 ≠ exLevelHue7 := by
  refine ⟨by decide, by decide, by decide⟩


end ParaForge
